import Mathlib

/-!
The vdelta generator of `subversion/libsvn_delta/vdelta.c`

A shallow embedding of the vdelta generator and of its hash table, followed by
theorems about the instruction stream it emits.

Conventions of the embedding.

* The data window `data` is a `List Nat` (one entry per byte, taken as an
  unsigned value); a pointer into the window is the offset from `data`.
  `NULL` is `none`.
* Every read of a byte, of a slot or of a bucket head is checked: a read outside
  the array gives `vd_error.out_of_bounds`.  The `assert` of `store_mapping`
  gives `vd_error.assertion_failed`.
* Loops whose termination is not structural run on a fuel counter and give
  `vd_error.out_of_fuel` when it is exhausted; the theorems show that, with the
  fuel the drivers supply, this never happens.
* `char` is signed, as it is on the default build: `get_bucket` adds a key byte
  of 128 or more as the negative value `c - 256`; `get_bucket_unsigned` is the
  bucket function of a build where `char` is unsigned.  Bytes are compared for
  equality only elsewhere, where the sign does not matter.
* Sizes and offsets are unbounded naturals (a window is far smaller than the
  range of `apr_size_t`, `apr_off_t` and `int`); the hash accumulator is reduced
  modulo `2 ^ 32` as `apr_uint32_t` is.
* The calls a round makes (`get_bucket`, `find_match_len`, `store_mapping`) are
  observed on copies of the round's functions that also return the list of
  calls made (`vdelta_round_trace` and the functions it uses).

Two small units of the same repository follow the generator: `dump_node` of
`subversion/svnrdump/dump_editor.c` (namespace `Svnrdump`) and `javaResultToC`
of `subversion/bindings/javahl/native/ConflictResolverCallback.cpp` (namespace
`Javahl`).
-/

namespace Vdelta

/-! ## Data model -/

/-- Size of a vdelta hash key (`#define VD_KEY_SIZE 4`). -/
def VD_KEY_SIZE : Nat := 4

/-- Ways in which a run of the embedded code can fail. -/
inductive vd_error where
  | out_of_bounds
  | assertion_failed
  | null_pointer
  | out_of_fuel
  deriving DecidableEq, Repr

/-- Hash slot: `next` is the index of the next slot of the chain, `none` for
`NULL`. -/
structure hash_slot_t where
  next : Option Nat
  deriving DecidableEq, Repr

/-- Hash table: a bucket holds the index of the first slot of its chain. -/
structure hash_table_t where
  num_buckets : Nat
  buckets : List (Option Nat)
  slots : List hash_slot_t
  deriving DecidableEq, Repr

/-- Action codes passed to `svn_txdelta__insert_op`. -/
inductive svn_delta_action where
  | svn_txdelta_source
  | svn_txdelta_target
  | svn_txdelta_new
  deriving DecidableEq, Repr

/-- Modelled from the spec: the three kinds of instruction a window holds
(the declaration of the window type is not part of the sources at hand). -/
inductive instruction where
  | INSERT (bytes : List Nat)
  | COPY_FROM_SOURCE (offset : Nat) (length : Nat)
  | COPY_FROM_TARGET (offset : Nat) (length : Nat)
  deriving DecidableEq, Repr

/-- Modelled from the spec: `svn_txdelta__insert_op` (the window sink, whose
body is not part of the sources at hand) appends one instruction to the
window.  `new_data` stands for the bytes found at the pointer argument, of which
an insert carries the first `length`. -/
def svn_txdelta__insert_op (window : List instruction) (opcode : svn_delta_action)
    (offset length : Nat) (new_data : List Nat) : List instruction :=
  match opcode with
  | .svn_txdelta_new => window ++ [.INSERT (new_data.take length)]
  | .svn_txdelta_source => window ++ [.COPY_FROM_SOURCE offset length]
  | .svn_txdelta_target => window ++ [.COPY_FROM_TARGET offset length]

/-- Locals of the match search of `vdelta`. -/
structure match_state where
  current_match : Option Nat
  current_match_len : Nat
  progress : Bool
  deriving DecidableEq, Repr

/-! ## Hash table -/

/-- Create a hash table with `num_slots` slots: all buckets and all slots
`NULL`. -/
def create_hash_table (num_slots : Nat) : hash_table_t :=
  { num_buckets := (num_slots / 3) ||| 1
    buckets := List.replicate ((num_slots / 3) ||| 1) none
    slots := List.replicate num_slots { next := none } }

/-- Read the byte at offset `p` of the window. -/
def read_byte (data : List Nat) (p : Nat) : Except vd_error Nat :=
  match data[p]? with
  | some c => .ok c
  | none => .error .out_of_bounds

/-- The loop of `get_bucket`: `n` more rounds of `hash = hash * 127 + *key++`
on a 32-bit accumulator.  The key is read through `const char *`, and `char` is
signed: a byte of 128 or more is read as the negative value `c - 256`, which
the addition to the `apr_uint32_t` accumulator takes modulo `2 ^ 32`. -/
def get_bucket_loop (data : List Nat) : Nat → Nat → Nat → Except vd_error Nat
  | 0, _, hash => .ok hash
  | n + 1, key, hash =>
    match read_byte data key with
    | .error e => .error e
    | .ok c =>
      get_bucket_loop data n (key + 1)
        ((hash * 127 + (if c < 128 then c else c + (2 ^ 32 - 256))) % 2 ^ 32)

/-- Convert a key to the index of the key's hash bucket. -/
def get_bucket (table : hash_table_t) (data : List Nat) (key : Nat) : Except vd_error Nat :=
  match get_bucket_loop data VD_KEY_SIZE key 0 with
  | .error e => .error e
  | .ok hash => .ok (hash % table.num_buckets)

/-- Store a key->index mapping into the hash table; the bucket function is the
argument `gb` (the program uses `get_bucket`). -/
def store_mapping_with (gb : hash_table_t → List Nat → Nat → Except vd_error Nat)
    (table : hash_table_t) (data : List Nat) (key index : Nat) : Except vd_error hash_table_t :=
  match gb table data key with
  | .error e => .error e
  | .ok bucket =>
    match table.slots[index]? with
    | none => .error .out_of_bounds
    | some s =>
      if s.next ≠ none then .error .assertion_failed
      else
        match table.buckets[bucket]? with
        | none => .error .out_of_bounds
        | some head =>
          .ok { table with
                slots := table.slots.set index { next := head }
                buckets := table.buckets.set bucket (some index) }

/-- Store a key->index mapping into the hash table. -/
def store_mapping (table : hash_table_t) (data : List Nat) (key index : Nat) :
    Except vd_error hash_table_t :=
  store_mapping_with get_bucket table data key index

/-! ## Vdelta generator -/

/-- The loop of `find_match_len`; the first argument is `end - here`, so that
`here < end` is the test `n + 1`. Returns the number of rounds made. -/
def find_match_len_loop (data : List Nat) : Nat → Nat → Nat → Except vd_error Nat
  | 0, _, _ => .ok 0
  | n + 1, match_, here =>
    match read_byte data match_, read_byte data here with
    | .ok a, .ok b =>
      if a = b then
        match find_match_len_loop data n (match_ + 1) (here + 1) with
        | .error e => .error e
        | .ok r => .ok (r + 1)
      else .ok 0
    | .error e, _ => .error e
    | _, .error e => .error e

/-- Find the length of a match within the data window. -/
def find_match_len (data : List Nat) (match_ from_ end_ : Nat) : Except vd_error Nat :=
  find_match_len_loop data (end_ - from_) match_ from_

/-- Body of the walk over one bucket chain, for the slot of index `slot`. -/
def try_slot (data : List Nat) (start end_ here key slot : Nat) (st : match_state) :
    Except vd_error match_state :=
  if slot < key - here then .ok st
  else
    match find_match_len data (slot - (key - here)) here end_ with
    | .error e => .error e
    | .ok match_len =>
      let match_ := slot - (key - here)
      let match_len :=
        if match_ < start ∧ match_ + match_len > start then start - match_ else match_len
      if match_len ≥ VD_KEY_SIZE ∧ match_len > st.current_match_len then
        .ok { current_match := some match_, current_match_len := match_len, progress := true }
      else .ok st

/-- The walk `for (slot = ...; slot != NULL; slot = slot->next)`. -/
def walk_chain (data : List Nat) (table : hash_table_t) (start end_ here key : Nat) :
    Nat → Option Nat → match_state → Except vd_error match_state
  | _, none, st => .ok st
  | 0, some _, _ => .error .out_of_fuel
  | fuel + 1, some slot, st =>
    match try_slot data start end_ here key slot st with
    | .error e => .error e
    | .ok st1 =>
      match table.slots[slot]? with
      | none => .error .out_of_bounds
      | some s => walk_chain data table start end_ here key fuel s.next st1

/-- The `do ... while (progress && end - key >= VD_KEY_SIZE)` loop. -/
def search_loop (gb : hash_table_t → List Nat → Nat → Except vd_error Nat)
    (data : List Nat) (table : hash_table_t) (start end_ here : Nat) :
    Nat → Nat → match_state → Except vd_error match_state
  | 0, _, _ => .error .out_of_fuel
  | fuel + 1, key, st =>
    match gb table data key with
    | .error e => .error e
    | .ok bucket =>
      match table.buckets[bucket]? with
      | none => .error .out_of_bounds
      | some head =>
        match walk_chain data table start end_ here key table.slots.length head
            { st with progress := false } with
        | .error e => .error e
        | .ok st1 =>
          let key1 :=
            if st1.progress then here + st1.current_match_len - (VD_KEY_SIZE - 1) else key
          if st1.progress ∧ end_ - key1 ≥ VD_KEY_SIZE then
            search_loop gb data table start end_ here fuel key1 st1
          else .ok st1

/-- The block run after a match, once `here` has been advanced: if at least
`VD_KEY_SIZE` bytes remain, `store_mapping` for the keys at `here - 3`,
`here - 2`, `here - 1` (the loop over `last`). -/
def store_last_three (gb : hash_table_t → List Nat → Nat → Except vd_error Nat)
    (table : hash_table_t) (data : List Nat) (end_ here : Nat) : Except vd_error hash_table_t :=
  if end_ - here ≥ VD_KEY_SIZE then
    let last := here - (VD_KEY_SIZE - 1)
    match store_mapping_with gb table data last last with
    | .error e => .error e
    | .ok t1 =>
      match store_mapping_with gb t1 data (last + 1) (last + 1) with
      | .error e => .error e
      | .ok t2 => store_mapping_with gb t2 data (last + 2) (last + 2)
  else .ok table

/-- The block `else if (outputflag) { ... }` run on a match: commit the pending
insert, then emit the copy from the source or from the target. -/
def emit_copy (window : List instruction) (data : List Nat) (start here : Nat)
    (insert_from : Option Nat) (current_match current_match_len : Nat) : List instruction :=
  let w := match insert_from with
    | some f => svn_txdelta__insert_op window .svn_txdelta_new 0 (here - f) (data.drop f)
    | none => window
  if current_match < start then
    svn_txdelta__insert_op w .svn_txdelta_source current_match current_match_len []
  else
    svn_txdelta__insert_op w .svn_txdelta_target (current_match - start) current_match_len []

/-- The `for (;;)` loop of `vdelta`, from the state `(window, table, here,
insert_from)`. -/
def vdelta_loop (gb : hash_table_t → List Nat → Nat → Except vd_error Nat)
    (data : List Nat) (start end_ : Nat) (outputflag : Bool) :
    Nat → List instruction → hash_table_t → Nat → Option Nat →
      Except vd_error (List instruction × hash_table_t)
  | 0, _, _, _, _ => .error .out_of_fuel
  | fuel + 1, window, table, here, insert_from =>
    if end_ - here < VD_KEY_SIZE then
      let from_ := match insert_from with
        | some f => f
        | none => here
      if outputflag = true ∧ from_ < end_ then
        .ok (svn_txdelta__insert_op window .svn_txdelta_new 0 (end_ - from_)
              (data.drop from_), table)
      else .ok (window, table)
    else
      match search_loop gb data table start end_ here (end_ - here) here
          { current_match := none, current_match_len := 0, progress := false } with
      | .error e => .error e
      | .ok st =>
        if st.current_match_len < VD_KEY_SIZE then
          match store_mapping_with gb table data here here with
          | .error e => .error e
          | .ok table1 =>
            let insert_from1 := match insert_from with
              | none => some here
              | some f => some f
            vdelta_loop gb data start end_ outputflag fuel window table1 (here + 1) insert_from1
        else
          match st.current_match with
          | none => .error .null_pointer
          | some current_match =>
            let window1 :=
              if outputflag = true then
                emit_copy window data start here insert_from current_match st.current_match_len
              else window
            let insert_from1 := if outputflag = true then none else insert_from
            let here1 := here + st.current_match_len
            match store_last_three gb table data end_ here1 with
            | .error e => .error e
            | .ok table1 =>
              vdelta_loop gb data start end_ outputflag fuel window1 table1 here1 insert_from1

/-- The main vdelta generator, one pass over `[start, end)`; every round of
the outer loop advances `here`, so `end - start + 1` rounds are enough. -/
def vdelta_with (gb : hash_table_t → List Nat → Nat → Except vd_error Nat)
    (window : List instruction) (data : List Nat) (start end_ : Nat) (outputflag : Bool)
    (table : hash_table_t) : Except vd_error (List instruction × hash_table_t) :=
  vdelta_loop gb data start end_ outputflag (end_ - start + 1) window table start none

/-- The main vdelta generator with the program's bucket function. -/
def vdelta (window : List instruction) (data : List Nat) (start end_ : Nat) (outputflag : Bool)
    (table : hash_table_t) : Except vd_error (List instruction × hash_table_t) :=
  vdelta_with get_bucket window data start end_ outputflag table

/-- The entry point: create the table, run the pass over the source with
`outputflag = FALSE`, then the pass over the target with `outputflag = TRUE`;
the result is the window. -/
def svn_txdelta__vdelta (window : List instruction) (data : List Nat)
    (source_len target_len : Nat) : Except vd_error (List instruction) :=
  let table := create_hash_table (source_len + target_len)
  match vdelta window data 0 source_len false table with
  | .error e => .error e
  | .ok (window1, table1) =>
    match vdelta window1 data source_len (source_len + target_len) true table1 with
    | .error e => .error e
    | .ok (window2, _) => .ok window2

/-! ## Specification devices -/

/-- The two passes of `svn_txdelta__vdelta` for a bucket function `gb`,
returning the final table together with the window. -/
def txdelta_run (gb : hash_table_t → List Nat → Nat → Except vd_error Nat)
    (window : List instruction) (data : List Nat) (source_len target_len : Nat) :
    Except vd_error (List instruction × hash_table_t) :=
  let table := create_hash_table (source_len + target_len)
  match vdelta_with gb window data 0 source_len false table with
  | .error e => .error e
  | .ok (window1, table1) =>
    vdelta_with gb window1 data source_len (source_len + target_len) true table1

/-- The byte at offset `p` of the window (0 outside the window). -/
def byte_at (data : List Nat) (p : Nat) : Nat := data.getD p 0

deriving instance DecidableEq for Except

/-- What a bucket function must satisfy for the generator to run: on a readable
key it returns a bucket of the table, and the bucket depends only on the number
of buckets and on the four bytes of the key. -/
structure bucket_fn_ok (gb : hash_table_t → List Nat → Nat → Except vd_error Nat) : Prop where
  in_range : ∀ (t : hash_table_t) (data : List Nat) (k : Nat), 0 < t.num_buckets →
    k + VD_KEY_SIZE ≤ data.length → ∃ b, gb t data k = .ok b ∧ b < t.num_buckets
  table_indep : ∀ (t t1 : hash_table_t) (data : List Nat) (k : Nat),
    t.num_buckets = t1.num_buckets → gb t data k = gb t1 data k
  key_dep : ∀ (t : hash_table_t) (data : List Nat) (k k1 : Nat),
    (∀ i, i < VD_KEY_SIZE → data[k + i]? = data[k1 + i]?) → gb t data k = gb t data k1

/-- The slots reached from `head` by following `next`, in order, up to `NULL`. -/
inductive IsChain (slots : List hash_slot_t) : Option Nat → List Nat → Prop where
  | nil : IsChain slots none []
  | cons (i : Nat) (s : hash_slot_t) (l : List Nat) :
      slots[i]? = some s → IsChain slots s.next l → IsChain slots (some i) (i :: l)

/-- Bucket `b` of table `t` exists and its chain lists the slots `l`. -/
def chain_of (t : hash_table_t) (b : Nat) (l : List Nat) : Prop :=
  ∃ head, t.buckets[b]? = some head ∧ IsChain t.slots head l

/-- Table invariant for a window of `n` bytes when every indexed offset is below
`bound`: each bucket has a finite chain, in strictly decreasing order of
offsets below `bound`, and the slots from `bound` on are still unlinked. -/
structure TableInv (t : hash_table_t) (n bound : Nat) : Prop where
  nb_pos : 0 < t.num_buckets
  buckets_len : t.buckets.length = t.num_buckets
  slots_len : t.slots.length = n
  chains : ∀ b, b < t.num_buckets →
    ∃ l, chain_of t b l ∧ l.Pairwise (fun x y => y < x) ∧ ∀ i ∈ l, i < bound
  fresh : ∀ i, bound ≤ i → i < n → t.slots[i]? = some { next := none }

/-- Table `t1` extends table `t`: same number of buckets, and every chain of
`t` is part of the chain of the same bucket in `t1`. -/
def table_le (t t1 : hash_table_t) : Prop :=
  t1.num_buckets = t.num_buckets ∧
  ∀ b l, chain_of t b l → ∃ l1, chain_of t1 b l1 ∧ ∀ i ∈ l, i ∈ l1

/-- The body of the chain walk run over a list of slot indexes. -/
def try_slots (data : List Nat) (start end_ here key : Nat) :
    List Nat → match_state → Except vd_error match_state
  | [], st => .ok st
  | i :: l, st =>
    match try_slot data start end_ here key i st with
    | .error e => .error e
    | .ok st1 => try_slots data start end_ here key l st1

/-- What is known of the search locals at position `here`: a recorded match of
at least `VD_KEY_SIZE` bytes starts before `here`, agrees with the bytes at
`here`, fits before `end_` and does not cross `start`. -/
def MS_ok (data : List Nat) (start end_ here : Nat) (st : match_state) : Prop :=
  st.current_match_len ≤ end_ - here ∧
  (VD_KEY_SIZE ≤ st.current_match_len →
    ∃ m, st.current_match = some m ∧ m < here ∧
      (m < start → m + st.current_match_len ≤ start) ∧
      ∀ j, j < st.current_match_len → byte_at data (m + j) = byte_at data (here + j))

/-- One search step from `st` to `st1`: the match only grows, and `progress`
is raised only together with a strictly longer match of at least
`VD_KEY_SIZE` bytes. -/
def MS_step (st st1 : match_state) : Prop :=
  st.current_match_len ≤ st1.current_match_len ∧
  (st1.progress = true →
    st.progress = true ∨
      (st.current_match_len < st1.current_match_len ∧ VD_KEY_SIZE ≤ st1.current_match_len))

/-- Number of target bytes an instruction stands for. -/
def instruction.len : instruction → Nat
  | .INSERT bytes => bytes.length
  | .COPY_FROM_SOURCE _ length => length
  | .COPY_FROM_TARGET _ length => length

/-- Instruction `ins`, emitted when the scan is at offset `p` of the window,
is well formed: it stays before `end_`, an insert carries the window bytes at
`p` (at least one), a source copy has at least `VD_KEY_SIZE` bytes, lies before
`start` and agrees with the bytes at `p`, a target copy has at least
`VD_KEY_SIZE` bytes, starts in `[start, p)` and agrees with the bytes at `p`. -/
def op_ok (data : List Nat) (start end_ p : Nat) : instruction → Prop
  | .INSERT bytes =>
      0 < bytes.length ∧ p + bytes.length ≤ end_ ∧ bytes = (data.drop p).take bytes.length
  | .COPY_FROM_SOURCE offset length =>
      VD_KEY_SIZE ≤ length ∧ p + length ≤ end_ ∧ offset + length ≤ start ∧
      ∀ j, j < length → byte_at data (offset + j) = byte_at data (p + j)
  | .COPY_FROM_TARGET offset length =>
      VD_KEY_SIZE ≤ length ∧ p + length ≤ end_ ∧ start + offset < p ∧
      ∀ j, j < length → byte_at data (start + offset + j) = byte_at data (p + j)

/-- The instructions `ops` are well formed and cover `[p, end_)` in order. -/
def ops_from (data : List Nat) (start end_ : Nat) : Nat → List instruction → Prop
  | p, [] => p = end_
  | p, ins :: ops =>
      op_ok data start end_ p ins ∧ ops_from data start end_ (p + ins.len) ops

/-- Target position of the `k`-th instruction of `ops`: the number of target
bytes covered by the instructions before it. -/
def target_pos (ops : List instruction) (k : Nat) : Nat :=
  ((ops.take k).map instruction.len).sum

/-- Modelled from the spec: a target copy of the applier, one byte at a time;
`n` bytes are still to be copied, the next one from `output[off]`. -/
def copy_from_target : Nat → Nat → List Nat → Option (List Nat)
  | 0, _, output => some output
  | n + 1, off, output =>
    match output[off]? with
    | none => none
    | some c => copy_from_target n (off + 1) (output ++ [c])

/-- Modelled from the spec: the applier's effect of one instruction on the
output reconstructed so far (the applier is not part of the sources at hand).
A copy that reads outside the source or outside the output fails. -/
def apply_instruction (source output : List Nat) : instruction → Option (List Nat)
  | .INSERT bytes => some (output ++ bytes)
  | .COPY_FROM_SOURCE offset length =>
    if offset + length ≤ source.length then some (output ++ (source.drop offset).take length)
    else none
  | .COPY_FROM_TARGET offset length => copy_from_target length offset output

/-- Modelled from the spec: the applier, processing the instructions in
emission order from the output `output`. -/
def apply_delta (source : List Nat) : List instruction → List Nat → Option (List Nat)
  | [], output => some output
  | ins :: ops, output =>
    match apply_instruction source output ins with
    | none => none
    | some output1 => apply_delta source ops output1

/-- Instruction `ins`, standing at target position `p`, describes the target
bytes `[p, p + ins.len)`: an insert carries them, a source copy names equal
source bytes, a target copy names target bytes equal to them one by one. -/
def describes (source target : List Nat) (p : Nat) : instruction → Prop
  | .INSERT bytes => bytes = (target.drop p).take bytes.length
  | .COPY_FROM_SOURCE offset length =>
      (source.drop offset).take length = (target.drop p).take length
  | .COPY_FROM_TARGET offset length =>
      ∀ i, i < length → target[offset + i]? = target[p + i]?

/-- The instruction is an `INSERT`. -/
def instruction.is_insert : instruction → Bool
  | .INSERT _ => true
  | _ => false

/-- No two neighbours of the list are both `INSERT` instructions. -/
def no_adjacent_inserts : List instruction → Prop
  | [] => True
  | [_] => True
  | a :: b :: ops =>
      ¬ (a.is_insert = true ∧ b.is_insert = true) ∧ no_adjacent_inserts (b :: ops)

/-- The variables of the outer loop of `vdelta` at the top of a round. -/
structure vd_state where
  window : List instruction
  table : hash_table_t
  here : Nat
  insert_from : Option Nat

/-- How one round of the outer loop ends: with `return`, or at the top of the
next round. -/
inductive vd_round where
  | done (window : List instruction) (table : hash_table_t)
  | again (s : vd_state)

/-- The search locals at the start of the search of one round. -/
def no_match : match_state :=
  { current_match := none, current_match_len := 0, progress := false }

/-- One round of the `for (;;)` loop of `vdelta` (the body of `vdelta_loop`),
from the state `s`. -/
def vdelta_round (gb : hash_table_t → List Nat → Nat → Except vd_error Nat)
    (data : List Nat) (start end_ : Nat) (outputflag : Bool) (s : vd_state) :
    Except vd_error vd_round :=
  if end_ - s.here < VD_KEY_SIZE then
    let from_ := match s.insert_from with
      | some f => f
      | none => s.here
    if outputflag = true ∧ from_ < end_ then
      .ok (.done (svn_txdelta__insert_op s.window .svn_txdelta_new 0 (end_ - from_)
            (data.drop from_)) s.table)
    else .ok (.done s.window s.table)
  else
    match search_loop gb data s.table start end_ s.here (end_ - s.here) s.here no_match with
    | .error e => .error e
    | .ok st =>
      if st.current_match_len < VD_KEY_SIZE then
        match store_mapping_with gb s.table data s.here s.here with
        | .error e => .error e
        | .ok table1 =>
          .ok (.again
            { window := s.window
              table := table1
              here := s.here + 1
              insert_from := match s.insert_from with
                | none => some s.here
                | some f => some f })
      else
        match st.current_match with
        | none => .error .null_pointer
        | some current_match =>
          match store_last_three gb s.table data end_ (s.here + st.current_match_len) with
          | .error e => .error e
          | .ok table1 =>
            .ok (.again
              { window :=
                  if outputflag = true then
                    emit_copy s.window data start s.here s.insert_from current_match
                      st.current_match_len
                  else s.window
                table := table1
                here := s.here + st.current_match_len
                insert_from := if outputflag = true then none else s.insert_from })

/-- State `s1` is reached from state `s` by rounds of the outer loop of one
pass. -/
inductive pass_reach (gb : hash_table_t → List Nat → Nat → Except vd_error Nat)
    (data : List Nat) (start end_ : Nat) (outputflag : Bool) : vd_state → vd_state → Prop where
  | refl (s : vd_state) : pass_reach gb data start end_ outputflag s s
  | step (s s1 s2 : vd_state) : pass_reach gb data start end_ outputflag s s1 →
      vdelta_round gb data start end_ outputflag s1 = .ok (.again s2) →
      pass_reach gb data start end_ outputflag s s2

/-- State `s` stands at the top of a round of the first pass of
`svn_txdelta__vdelta` (the pass over the source). -/
def in_first_pass (gb : hash_table_t → List Nat → Nat → Except vd_error Nat)
    (window : List instruction) (data : List Nat) (source_len target_len : Nat)
    (s : vd_state) : Prop :=
  pass_reach gb data 0 source_len false
    { window := window, table := create_hash_table (source_len + target_len), here := 0,
      insert_from := none } s

/-- State `s` stands at the top of a round of the second pass of
`svn_txdelta__vdelta` (the pass over the target, on the table left by the
first pass). -/
def in_second_pass (gb : hash_table_t → List Nat → Nat → Except vd_error Nat)
    (window : List instruction) (data : List Nat) (source_len target_len : Nat)
    (s : vd_state) : Prop :=
  ∃ w1 t1, vdelta_with gb window data 0 source_len false
      (create_hash_table (source_len + target_len)) = .ok (w1, t1) ∧
    pass_reach gb data source_len (source_len + target_len) true
      { window := w1, table := t1, here := source_len, insert_from := none } s

/-- The `store_mapping` calls for the offsets of a list, in order. -/
def store_all (gb : hash_table_t → List Nat → Nat → Except vd_error Nat)
    (table : hash_table_t) (data : List Nat) : List Nat → Except vd_error hash_table_t
  | [] => .ok table
  | i :: offsets =>
    match store_mapping_with gb table data i i with
    | .error e => .error e
    | .ok table1 => store_all gb table1 data offsets

/-- Table `t` holds exactly the offsets of `log` (most recently stored first):
the chain of bucket `b` lists the offsets of `log` whose key hashes to `b`, in
the order of `log`, and the slots of the other offsets are unlinked. -/
structure TableRepr (gb : hash_table_t → List Nat → Nat → Except vd_error Nat)
    (t : hash_table_t) (data : List Nat) (log : List Nat) : Prop where
  nb_pos : 0 < t.num_buckets
  buckets_len : t.buckets.length = t.num_buckets
  chains : ∀ b, b < t.num_buckets →
    chain_of t b (log.filter (fun i => decide (gb t data i = .ok b)))
  fresh : ∀ i, i ∉ log → i < t.slots.length → t.slots[i]? = some { next := none }
  nodup : log.Nodup
  in_range : ∀ i ∈ log, i < t.slots.length ∧ i + VD_KEY_SIZE ≤ data.length

/-- Invariant of the outer loop of a pass over `[start, end_)` at state `s`,
when `log` lists the offsets indexed so far (most recent first). -/
structure PassInv (gb : hash_table_t → List Nat → Nat → Except vd_error Nat)
    (data : List Nat) (start end_ : Nat) (s : vd_state) (log : List Nat) : Prop where
  start_le : start ≤ s.here
  here_le : s.here ≤ end_
  end_le : end_ ≤ data.length
  pending : ∀ f, s.insert_from = some f → start ≤ f ∧ f < s.here
  slots_len : s.table.slots.length = data.length
  repr : TableRepr gb s.table data log
  sorted : log.Pairwise (fun x y => y < x)
  below : ∀ i ∈ log, i < s.here

/-- What a round from state `s` with indexed offsets `log` does, case by case:
the return near the end, a miss (index `here`, advance by one), or a match
(emit, advance by the match length, index the last three positions if four
bytes remain). -/
inductive round_outcome (gb : hash_table_t → List Nat → Nat → Except vd_error Nat)
    (data : List Nat) (start end_ : Nat) (outputflag : Bool) (s : vd_state) (log : List Nat) :
    vd_round → Prop where
  | near : end_ - s.here < VD_KEY_SIZE →
      round_outcome gb data start end_ outputflag s log
        (.done
          (if outputflag = true ∧ s.insert_from.getD s.here < end_ then
            s.window ++ [.INSERT ((data.drop (s.insert_from.getD s.here)).take
              (end_ - s.insert_from.getD s.here))]
          else s.window) s.table)
  | miss (st : match_state) (t1 : hash_table_t) :
      VD_KEY_SIZE ≤ end_ - s.here →
      search_loop gb data s.table start end_ s.here (end_ - s.here) s.here no_match = .ok st →
      MS_ok data start end_ s.here st →
      st.current_match_len < VD_KEY_SIZE →
      store_mapping_with gb s.table data s.here s.here = .ok t1 →
      PassInv gb data start end_
        { window := s.window, table := t1, here := s.here + 1,
          insert_from := some (s.insert_from.getD s.here) } (s.here :: log) →
      round_outcome gb data start end_ outputflag s log
        (.again { window := s.window, table := t1, here := s.here + 1,
                  insert_from := some (s.insert_from.getD s.here) })
  | hit (st : match_state) (m : Nat) (t1 : hash_table_t) (log1 : List Nat) :
      VD_KEY_SIZE ≤ end_ - s.here →
      search_loop gb data s.table start end_ s.here (end_ - s.here) s.here no_match = .ok st →
      MS_ok data start end_ s.here st →
      VD_KEY_SIZE ≤ st.current_match_len →
      st.current_match = some m →
      store_last_three gb s.table data end_ (s.here + st.current_match_len) = .ok t1 →
      log1 =
        (if end_ - (s.here + st.current_match_len) ≥ VD_KEY_SIZE then
          [s.here + st.current_match_len - 1, s.here + st.current_match_len - 2,
            s.here + st.current_match_len - 3] ++ log
        else log) →
      PassInv gb data start end_
        { window :=
            if outputflag = true then
              emit_copy s.window data start s.here s.insert_from m st.current_match_len
            else s.window
          table := t1
          here := s.here + st.current_match_len
          insert_from := if outputflag = true then none else s.insert_from } log1 →
      round_outcome gb data start end_ outputflag s log
        (.again
          { window :=
              if outputflag = true then
                emit_copy s.window data start s.here s.insert_from m st.current_match_len
              else s.window
            table := t1
            here := s.here + st.current_match_len
            insert_from := if outputflag = true then none else s.insert_from })

/-- Table `t` is what the `store_mapping` calls for the offsets of `log`
(listed most recent first) make of the table of `create_hash_table`. -/
def Replay (gb : hash_table_t → List Nat → Nat → Except vd_error Nat)
    (data : List Nat) (t : hash_table_t) (log : List Nat) : Prop :=
  store_all gb (create_hash_table data.length) data log.reverse = .ok t

/-- State `s` stands at the top of a round of the pass over `[start, end_)`
with flag `outputflag` of `svn_txdelta__vdelta`: the first pass or the second
pass. -/
def in_pass (gb : hash_table_t → List Nat → Nat → Except vd_error Nat)
    (window : List instruction) (data : List Nat) (source_len target_len : Nat)
    (start end_ : Nat) (outputflag : Bool) (s : vd_state) : Prop :=
  (start = 0 ∧ end_ = source_len ∧ outputflag = false ∧
    in_first_pass gb window data source_len target_len s) ∨
  (start = source_len ∧ end_ = source_len + target_len ∧ outputflag = true ∧
    in_second_pass gb window data source_len target_len s)

/-- The traversal of a chain given in the header comment of the hash table,
`for (slot = ...; slot != NULL; slot = slot->next) index = slot - slots`,
collecting the indexes met; `fuel` bounds the number of slots visited. -/
def chain_walk_loop (slots : List hash_slot_t) : Nat → Option Nat → Except vd_error (List Nat)
  | _, none => .ok []
  | 0, some _ => .error .out_of_fuel
  | fuel + 1, some slot =>
    match slots[slot]? with
    | none => .error .out_of_bounds
    | some s =>
      match chain_walk_loop slots fuel s.next with
      | .error e => .error e
      | .ok l => .ok (slot :: l)

/-- The indexes met when walking the chain of bucket `bucket`. -/
def chain_walk (table : hash_table_t) (bucket : Nat) : Except vd_error (List Nat) :=
  match table.buckets[bucket]? with
  | none => .error .out_of_bounds
  | some head => chain_walk_loop table.slots table.slots.length head

/-- The search of `vdelta` with the bucket chain replaced by the whole list
`log` of indexed offsets (most recent first): every indexed offset is tried at
every lookup, whatever bucket its key hashes to. -/
def search_all (data : List Nat) (start end_ here : Nat) (log : List Nat) :
    Nat → Nat → match_state → Except vd_error match_state
  | 0, _, _ => .error .out_of_fuel
  | fuel + 1, key, st =>
    match try_slots data start end_ here key log { st with progress := false } with
    | .error e => .error e
    | .ok st1 =>
      let key1 :=
        if st1.progress then here + st1.current_match_len - (VD_KEY_SIZE - 1) else key
      if st1.progress ∧ end_ - key1 ≥ VD_KEY_SIZE then
        search_all data start end_ here log fuel key1 st1
      else .ok st1

/-- Length of the longest common start of the bytes at `i` and the bytes at
`h`, looking at no more than `n` bytes. -/
def common_len (data : List Nat) : Nat → Nat → Nat → Nat
  | 0, _, _ => 0
  | n + 1, i, h =>
    if byte_at data i = byte_at data h then common_len data n (i + 1) (h + 1) + 1 else 0

/-- Clamped match length of the indexed offset `i` against `here`: the length of
the common start of `data[i..]` and `data[here..end_)`, reduced to `start - i`
when `i` is before `start` and the match would cross `start`. -/
def clamped_len (data : List Nat) (start end_ here i : Nat) : Nat :=
  if i < start ∧ i + common_len data (end_ - here) i here > start then start - i
  else common_len data (end_ - here) i here

/-- The maximum of the clamped match lengths of the offsets of `log` (0 for an
empty list). -/
def best_len (data : List Nat) (start end_ here : Nat) (log : List Nat) : Nat :=
  (log.map (clamped_len data start end_ here)).foldr max 0

/-- A table with `nb` buckets and `n` slots, all `NULL`. -/
def empty_table (nb n : Nat) : hash_table_t :=
  { num_buckets := nb
    buckets := List.replicate nb none
    slots := List.replicate n { next := none } }

/-- The two passes of `svn_txdelta__vdelta` run with the bucket function `gb`
on the table `table`. -/
def txdelta_run_from (gb : hash_table_t → List Nat → Nat → Except vd_error Nat)
    (table : hash_table_t) (window : List instruction) (data : List Nat)
    (source_len target_len : Nat) : Except vd_error (List instruction × hash_table_t) :=
  match vdelta_with gb window data 0 source_len false table with
  | .error e => .error e
  | .ok (window1, table1) =>
    vdelta_with gb window1 data source_len (source_len + target_len) true table1

/-- The table left by the first pass for source `abcd` and target `abcdabcd`
(only offset 0 is indexed, in bucket 1 of 5). -/
def abcd_table : hash_table_t :=
  { num_buckets := 5
    buckets := [none, some 0, none, none, none]
    slots := List.replicate 12 { next := none } }

/-- The loop of `get_bucket` on a platform where `char` is unsigned: every
byte is added to the accumulator as its value in `0..255`. -/
def get_bucket_loop_unsigned (data : List Nat) : Nat → Nat → Nat → Except vd_error Nat
  | 0, _, hash => .ok hash
  | n + 1, key, hash =>
    match read_byte data key with
    | .error e => .error e
    | .ok c => get_bucket_loop_unsigned data n (key + 1) ((hash * 127 + c) % 2 ^ 32)

/-- The bucket function `get_bucket` on a platform where `char` is unsigned. -/
def get_bucket_unsigned (table : hash_table_t) (data : List Nat) (key : Nat) :
    Except vd_error Nat :=
  match get_bucket_loop_unsigned data VD_KEY_SIZE key 0 with
  | .error e => .error e
  | .ok hash => .ok (hash % table.num_buckets)


/-- The value of a byte read through a `char` that is signed: a byte of 128 or
more stands for `c - 256`. -/
def char_value (c : Nat) : Int :=
  if c < 128 then (c : Int) else (c : Int) - 256

/-! ## The calls made by a round -/

/-- A call made by a round of `vdelta`, with its pointer arguments as offsets
from `data`.  The `match` argument of `find_match_len` is kept as an integer:
it is the difference `(slot - table->slots) - (key - here)` computed by the
caller. -/
inductive vd_event where
  | get_bucket_call (key : Nat)
  | find_match_len_call (match_ : Int) (from_ end_ : Nat)
  | store_mapping_call (key index : Nat)
  deriving DecidableEq, Repr

/-- The body of the chain walk (`try_slot`) together with the call of
`find_match_len` it makes, if the slot is not skipped. -/
def try_slot_trace (data : List Nat) (start end_ here key slot : Nat) (st : match_state) :
    Except vd_error (match_state × List vd_event) :=
  match try_slot data start end_ here key slot st with
  | .error e => .error e
  | .ok st1 =>
    .ok (st1,
      if slot < key - here then []
      else [.find_match_len_call ((slot : Int) - ((key : Int) - (here : Int))) here end_])

/-- The chain walk (`walk_chain`) together with the calls it makes, in order. -/
def walk_chain_trace (data : List Nat) (table : hash_table_t) (start end_ here key : Nat) :
    Nat → Option Nat → match_state → Except vd_error (match_state × List vd_event)
  | _, none, st => .ok (st, [])
  | 0, some _, _ => .error .out_of_fuel
  | fuel + 1, some slot, st =>
    match try_slot_trace data start end_ here key slot st with
    | .error e => .error e
    | .ok (st1, evs) =>
      match table.slots[slot]? with
      | none => .error .out_of_bounds
      | some s =>
        match walk_chain_trace data table start end_ here key fuel s.next st1 with
        | .error e => .error e
        | .ok (st2, evs1) => .ok (st2, evs ++ evs1)

/-- The search loop (`search_loop`) together with the calls it makes, in
order: each lookup calls `get_bucket` on the key, then walks the chain. -/
def search_loop_trace (gb : hash_table_t → List Nat → Nat → Except vd_error Nat)
    (data : List Nat) (table : hash_table_t) (start end_ here : Nat) :
    Nat → Nat → match_state → Except vd_error (match_state × List vd_event)
  | 0, _, _ => .error .out_of_fuel
  | fuel + 1, key, st =>
    match gb table data key with
    | .error e => .error e
    | .ok bucket =>
      match table.buckets[bucket]? with
      | none => .error .out_of_bounds
      | some head =>
        match walk_chain_trace data table start end_ here key table.slots.length head
            { st with progress := false } with
        | .error e => .error e
        | .ok (st1, evs) =>
          let key1 :=
            if st1.progress then here + st1.current_match_len - (VD_KEY_SIZE - 1) else key
          if st1.progress ∧ end_ - key1 ≥ VD_KEY_SIZE then
            match search_loop_trace gb data table start end_ here fuel key1 st1 with
            | .error e => .error e
            | .ok (st2, evs1) => .ok (st2, .get_bucket_call key :: evs ++ evs1)
          else .ok (st1, .get_bucket_call key :: evs)

/-- The call `store_mapping(table, key, index)` together with the call of
`get_bucket` it makes on the key. -/
def store_mapping_trace (gb : hash_table_t → List Nat → Nat → Except vd_error Nat)
    (table : hash_table_t) (data : List Nat) (key index : Nat) :
    Except vd_error (hash_table_t × List vd_event) :=
  match store_mapping_with gb table data key index with
  | .error e => .error e
  | .ok table1 => .ok (table1, [.store_mapping_call key index, .get_bucket_call key])

/-- The block run after a match (`store_last_three`) together with the calls
it makes, in order. -/
def store_last_three_trace (gb : hash_table_t → List Nat → Nat → Except vd_error Nat)
    (table : hash_table_t) (data : List Nat) (end_ here : Nat) :
    Except vd_error (hash_table_t × List vd_event) :=
  if end_ - here ≥ VD_KEY_SIZE then
    let last := here - (VD_KEY_SIZE - 1)
    match store_mapping_trace gb table data last last with
    | .error e => .error e
    | .ok (t1, evs1) =>
      match store_mapping_trace gb t1 data (last + 1) (last + 1) with
      | .error e => .error e
      | .ok (t2, evs2) =>
        match store_mapping_trace gb t2 data (last + 2) (last + 2) with
        | .error e => .error e
        | .ok (t3, evs3) => .ok (t3, evs1 ++ evs2 ++ evs3)
  else .ok (table, [])

/-- One round of the `for (;;)` loop of `vdelta` (`vdelta_round`) together
with the calls of `get_bucket`, `find_match_len` and `store_mapping` it makes,
in order. -/
def vdelta_round_trace (gb : hash_table_t → List Nat → Nat → Except vd_error Nat)
    (data : List Nat) (start end_ : Nat) (outputflag : Bool) (s : vd_state) :
    Except vd_error (vd_round × List vd_event) :=
  if end_ - s.here < VD_KEY_SIZE then
    let from_ := match s.insert_from with
      | some f => f
      | none => s.here
    if outputflag = true ∧ from_ < end_ then
      .ok (.done (svn_txdelta__insert_op s.window .svn_txdelta_new 0 (end_ - from_)
            (data.drop from_)) s.table, [])
    else .ok (.done s.window s.table, [])
  else
    match search_loop_trace gb data s.table start end_ s.here (end_ - s.here) s.here
        no_match with
    | .error e => .error e
    | .ok (st, evs) =>
      if st.current_match_len < VD_KEY_SIZE then
        match store_mapping_trace gb s.table data s.here s.here with
        | .error e => .error e
        | .ok (table1, evs1) =>
          .ok (.again
            { window := s.window
              table := table1
              here := s.here + 1
              insert_from := match s.insert_from with
                | none => some s.here
                | some f => some f }, evs ++ evs1)
      else
        match st.current_match with
        | none => .error .null_pointer
        | some current_match =>
          match store_last_three_trace gb s.table data end_
              (s.here + st.current_match_len) with
          | .error e => .error e
          | .ok (table1, evs1) =>
            .ok (.again
              { window :=
                  if outputflag = true then
                    emit_copy s.window data start s.here s.insert_from current_match
                      st.current_match_len
                  else s.window
                table := table1
                here := s.here + st.current_match_len
                insert_from := if outputflag = true then none else s.insert_from },
              evs ++ evs1)

/-- The indexes passed to `store_mapping` by the calls of a trace, in order. -/
def stored_offsets : List vd_event → List Nat
  | [] => []
  | .store_mapping_call _ index :: evs => index :: stored_offsets evs
  | .get_bucket_call _ :: evs => stored_offsets evs
  | .find_match_len_call _ _ _ :: evs => stored_offsets evs

/-- The calls made by `store_mapping(table, data + i, i)` for the offsets `i`
of a list, in order. -/
def store_events : List Nat → List vd_event
  | [] => []
  | i :: l => .store_mapping_call i i :: .get_bucket_call i :: store_events l

/-- A call made by the search at position `here` of a pass that ends at
`end_` is as the search makes them: `get_bucket` on a key of four bytes in
`[here, end_)`, `find_match_len` on a match offset that is not negative and
below `from = here`, with `from <= end = end_`; the search stores nothing. -/
def search_event_ok (here end_ : Nat) : vd_event → Prop
  | .get_bucket_call key => here ≤ key ∧ key + VD_KEY_SIZE ≤ end_
  | .find_match_len_call match_ from_ e =>
      0 ≤ match_ ∧ match_ < (from_ : Int) ∧ from_ ≤ e ∧ from_ = here ∧ e = end_
  | .store_mapping_call _ _ => False


/-- The first state of the second pass for source `abcd` and target
`abcdabcd`: nothing emitted yet, the table left by the first pass, `here` at
the start of the target. -/
def abcd_state : vd_state :=
  { window := [], table := abcd_table, here := 4, insert_from := none }

end Vdelta

/-! ## The node records of the dump editor (`subversion/svnrdump/dump_editor.c`) -/

namespace Svnrdump

/-- Modelled from the spec: the values of `svn_node_kind_t` (the declaration
of the enumeration is not part of the sources at hand). -/
inductive svn_node_kind_t where
  | svn_node_none
  | svn_node_file
  | svn_node_dir
  | svn_node_unknown
  deriving DecidableEq, Repr

/-- Modelled from the spec: the values of `enum svn_node_action` (the
declaration of the enumeration is not part of the sources at hand). -/
inductive svn_node_action where
  | svn_node_action_change
  | svn_node_action_add
  | svn_node_action_delete
  | svn_node_action_replace
  deriving DecidableEq, Repr

/-- Ways in which `dump_node` can fail: an error returned by the stream, a
failed `assert`, or the recursion bound of the embedding. -/
inductive dump_error where
  | stream_error
  | assertion_failed
  | out_of_fuel
  deriving DecidableEq, Repr

/-- The fields of `struct dump_edit_baton` that `dump_node` reads or writes:
the output stream, held as the text written to it so far, and the flags; the
other fields of the baton are not touched by `dump_node`. -/
structure dump_edit_baton where
  stream : String
  dump_text : Bool
  dump_props : Bool
  dump_newlines : Bool
  deriving DecidableEq, Repr

/-- Modelled from the spec: the header name `SVN_REPOS_DUMPFILE_NODE_PATH`. -/
def SVN_REPOS_DUMPFILE_NODE_PATH : String := "Node-path"

/-- Modelled from the spec: the header name `SVN_REPOS_DUMPFILE_NODE_KIND`. -/
def SVN_REPOS_DUMPFILE_NODE_KIND : String := "Node-kind"

/-- Modelled from the spec: the header name `SVN_REPOS_DUMPFILE_NODE_ACTION`. -/
def SVN_REPOS_DUMPFILE_NODE_ACTION : String := "Node-action"

/-- Modelled from the spec: the header name
`SVN_REPOS_DUMPFILE_NODE_COPYFROM_REV`. -/
def SVN_REPOS_DUMPFILE_NODE_COPYFROM_REV : String := "Node-copyfrom-rev"

/-- Modelled from the spec: the header name
`SVN_REPOS_DUMPFILE_NODE_COPYFROM_PATH`. -/
def SVN_REPOS_DUMPFILE_NODE_COPYFROM_PATH : String := "Node-copyfrom-path"

/-- Modelled from the spec: the `%s` conversion of the formatter behind
`svn_stream_printf`; a null pointer is printed as `(null)`. -/
def format_s : Option String → String
  | some s => s
  | none => "(null)"

/-- Write out a node record: `dump_node` with `fuel` bounding the depth of the
recursion.  `write` stands for `svn_stream_puts` and `svn_stream_printf` on
`eb->stream` (from the text written so far and the text of the call to the new
text, or an error, on which `SVN_ERR` returns); `is_canonical` stands for
`svn_relpath_is_canonical`; `copyfrom_path` is `none` for `NULL`. -/
def dump_node_loop (write : String → String → Except dump_error String)
    (is_canonical : String → Bool) :
    Nat → dump_edit_baton → String → svn_node_kind_t → svn_node_action → Bool →
      Option String → Int → Except dump_error dump_edit_baton
  | 0, _, _, _, _, _, _, _ => .error .out_of_fuel
  | fuel + 1, eb, repos_relpath, kind, action, is_copy, copyfrom_path, copyfrom_rev =>
    if is_canonical repos_relpath = false then .error .assertion_failed
    else if (match copyfrom_path with
        | none => false
        | some p => is_canonical p = false) then .error .assertion_failed
    else
      match write eb.stream (SVN_REPOS_DUMPFILE_NODE_PATH ++ ": " ++ repos_relpath ++ "\n") with
      | .error e => .error e
      | .ok s1 =>
        match (match kind with
            | .svn_node_file => write s1 (SVN_REPOS_DUMPFILE_NODE_KIND ++ ": file\n")
            | .svn_node_dir => write s1 (SVN_REPOS_DUMPFILE_NODE_KIND ++ ": dir\n")
            | _ => .ok s1) with
        | .error e => .error e
        | .ok s2 =>
          match action with
          | .svn_node_action_change =>
            match write s2 (SVN_REPOS_DUMPFILE_NODE_ACTION ++ ": change\n") with
            | .error e => .error e
            | .ok s3 => .ok { eb with stream := s3 }
          | .svn_node_action_replace =>
            if is_copy = false then
              match write s2 (SVN_REPOS_DUMPFILE_NODE_ACTION ++ ": replace\n") with
              | .error e => .error e
              | .ok s3 => .ok { eb with stream := s3, dump_props := true }
            else
              match write s2 (SVN_REPOS_DUMPFILE_NODE_ACTION ++ ": delete\n\n") with
              | .error e => .error e
              | .ok s3 =>
                dump_node_loop write is_canonical fuel { eb with stream := s3 } repos_relpath
                  kind .svn_node_action_add is_copy copyfrom_path copyfrom_rev
          | .svn_node_action_delete =>
            match write s2 (SVN_REPOS_DUMPFILE_NODE_ACTION ++ ": delete\n") with
            | .error e => .error e
            | .ok s3 =>
              match write s3 "\n\n" with
              | .error e => .error e
              | .ok s4 => .ok { eb with stream := s4 }
          | .svn_node_action_add =>
            match write s2 (SVN_REPOS_DUMPFILE_NODE_ACTION ++ ": add\n") with
            | .error e => .error e
            | .ok s3 =>
              if is_copy = false then .ok { eb with stream := s3, dump_props := true }
              else
                match write s3
                    (SVN_REPOS_DUMPFILE_NODE_COPYFROM_REV ++ ": " ++ toString copyfrom_rev ++
                      "\n" ++ SVN_REPOS_DUMPFILE_NODE_COPYFROM_PATH ++ ": " ++
                      format_s copyfrom_path ++ "\n") with
                | .error e => .error e
                | .ok s4 =>
                  if kind = .svn_node_dir then
                    .ok { eb with stream := s4, dump_newlines := true }
                  else .ok { eb with stream := s4 }

/-- Write out a node record for `repos_relpath` of type `kind`; the recursion
of the source is at most one call deep. -/
def dump_node (write : String → String → Except dump_error String)
    (is_canonical : String → Bool) (eb : dump_edit_baton) (repos_relpath : String)
    (kind : svn_node_kind_t) (action : svn_node_action) (is_copy : Bool)
    (copyfrom_path : Option String) (copyfrom_rev : Int) : Except dump_error dump_edit_baton :=
  dump_node_loop write is_canonical 2 eb repos_relpath kind action is_copy copyfrom_path
    copyfrom_rev

/-- A stream that accepts every write: the text is appended. -/
def append_write (written text : String) : Except dump_error String :=
  .ok (written ++ text)

end Svnrdump

/-! ## The conflict resolver callback of the javahl binding
(`subversion/bindings/javahl/native/ConflictResolverCallback.cpp`) -/

namespace Javahl

/-- Modelled from the spec: the values of `svn_wc_conflict_result_t` that
`javaResultToC` returns (the declaration of the enumeration is not part of the
sources at hand). -/
inductive svn_wc_conflict_result_t where
  | svn_wc_conflict_result_conflicted
  | svn_wc_conflict_result_resolved
  | svn_wc_conflict_result_choose_base
  | svn_wc_conflict_result_choose_theirs
  | svn_wc_conflict_result_choose_mine
  | svn_wc_conflict_result_choose_merged
  deriving DecidableEq, Repr

/-- The values of the Java constants
`org_tigris_subversion_javahl_ConflictResolverCallback_Result_*`, which come
from a generated header that is not part of the sources at hand. -/
structure Result_constants where
  Result_conflicted : Int
  Result_resolved : Int
  Result_choose_base : Int
  Result_choose_theirs : Int
  Result_choose_mine : Int
  Result_choose_merged : Int
  deriving DecidableEq, Repr

/-- The case labels of the `switch` of `javaResultToC`, in the order of the
source; the labels of a `switch` are pairwise distinct. -/
def case_labels (c : Result_constants) : List Int :=
  [c.Result_conflicted, c.Result_resolved, c.Result_choose_base, c.Result_choose_theirs,
    c.Result_choose_mine, c.Result_choose_merged]

/-- Convert the Java result code `result` (a `jint`) to the C conflict result:
the `switch` of the source, whose first case, `conflicted`, is also the
`default`. -/
def javaResultToC (c : Result_constants) (result : Int) : svn_wc_conflict_result_t :=
  if result = c.Result_conflicted then .svn_wc_conflict_result_conflicted
  else if result = c.Result_resolved then .svn_wc_conflict_result_resolved
  else if result = c.Result_choose_base then .svn_wc_conflict_result_choose_base
  else if result = c.Result_choose_theirs then .svn_wc_conflict_result_choose_theirs
  else if result = c.Result_choose_mine then .svn_wc_conflict_result_choose_mine
  else if result = c.Result_choose_merged then .svn_wc_conflict_result_choose_merged
  else .svn_wc_conflict_result_conflicted

end Javahl

namespace Vdelta

/-! ## Reading the window -/

theorem read_byte_eq (data : List Nat) (p : Nat) (h : p < data.length) :
    read_byte data p = .ok (byte_at data p) := by
  simp [read_byte, byte_at, List.getD, List.getElem?_eq_getElem h]

theorem find_match_len_loop_spec (data : List Nat) :
    ∀ (n m h : Nat), h + n ≤ data.length → m ≤ h →
      ∃ r, find_match_len_loop data n m h = .ok r ∧ r ≤ n ∧
        (∀ j, j < r → byte_at data (m + j) = byte_at data (h + j)) ∧
        (r < n → byte_at data (m + r) ≠ byte_at data (h + r)) := by
  intro n
  induction n with
  | zero =>
    intro m h _ _
    exact ⟨0, rfl, le_refl _, fun j hj => absurd hj (Nat.not_lt_zero j), fun hr => absurd hr (Nat.lt_irrefl 0)⟩
  | succ n ih =>
    intro m h hlen hmh
    have hm : m < data.length := by omega
    have hh : h < data.length := by omega
    by_cases heq : byte_at data m = byte_at data h
    · obtain ⟨r, hr, hrn, hagree, hstop⟩ := ih (m + 1) (h + 1) (by omega) (by omega)
      refine ⟨r + 1, ?_, by omega, ?_, ?_⟩
      · simp [find_match_len_loop, read_byte_eq, hm, hh, heq, hr]
      · intro j hj
        cases j with
        | zero => simpa using heq
        | succ j =>
          have := hagree j (by omega)
          simpa [Nat.add_assoc, Nat.add_comm 1 j] using this
      · intro hlt
        have := hstop (by omega)
        simpa [Nat.add_assoc, Nat.add_comm 1 r] using this
    · refine ⟨0, ?_, by omega, fun j hj => absurd hj (Nat.not_lt_zero j), fun _ => by simpa using heq⟩
      simp [find_match_len_loop, read_byte_eq, hm, hh, heq]

theorem find_match_len_spec (data : List Nat) (m from_ end_ : Nat)
    (hend : end_ ≤ data.length) (hfrom : from_ ≤ end_) (hm : m ≤ from_) :
    ∃ r, find_match_len data m from_ end_ = .ok r ∧ r ≤ end_ - from_ ∧
      (∀ j, j < r → byte_at data (m + j) = byte_at data (from_ + j)) ∧
      (r < end_ - from_ → byte_at data (m + r) ≠ byte_at data (from_ + r)) :=
  find_match_len_loop_spec data (end_ - from_) m from_ (by omega) hm

/-! ## The bucket function -/

theorem get_bucket_loop_ok (data : List Nat) :
    ∀ (n key acc : Nat), key + n ≤ data.length → ∃ h, get_bucket_loop data n key acc = .ok h := by
  intro n
  induction n with
  | zero => intro key acc _; exact ⟨acc, rfl⟩
  | succ n ih =>
    intro key acc hlen
    obtain ⟨h, hh⟩ := ih (key + 1)
      ((acc * 127 + (if byte_at data key < 128 then byte_at data key
        else byte_at data key + (2 ^ 32 - 256))) % 2 ^ 32) (by omega)
    exact ⟨h, by simp only [get_bucket_loop, read_byte_eq data key (by omega), hh]⟩

theorem get_bucket_loop_key_dep (data : List Nat) :
    ∀ (n k k1 acc : Nat), (∀ i, i < n → data[k + i]? = data[k1 + i]?) →
      get_bucket_loop data n k acc = get_bucket_loop data n k1 acc := by
  intro n
  induction n with
  | zero => intro k k1 acc _; rfl
  | succ n ih =>
    intro k k1 acc h
    have h0 : data[k]? = data[k1]? := by simpa using h 0 (Nat.succ_pos n)
    have hrest : ∀ c, get_bucket_loop data n (k + 1) c = get_bucket_loop data n (k1 + 1) c := by
      intro c
      apply ih
      intro i hi
      have := h (i + 1) (by omega)
      simpa [Nat.add_assoc, Nat.add_comm 1 i] using this
    simp only [get_bucket_loop, read_byte, h0, hrest]

theorem get_bucket_fn_ok : bucket_fn_ok get_bucket := by
  refine ⟨?_, ?_, ?_⟩
  · intro t data k hnb hk
    obtain ⟨h, hh⟩ := get_bucket_loop_ok data VD_KEY_SIZE k 0 hk
    exact ⟨h % t.num_buckets, by simp [get_bucket, hh], Nat.mod_lt _ hnb⟩
  · intro t t1 data k hnb
    simp [get_bucket, hnb]
  · intro t data k k1 h
    simp [get_bucket, get_bucket_loop_key_dep data VD_KEY_SIZE k k1 0 h]

/-! ## Bucket chains -/

theorem IsChain.unique {slots : List hash_slot_t} {head : Option Nat} {l : List Nat}
    (h : IsChain slots head l) : ∀ {l1 : List Nat}, IsChain slots head l1 → l = l1 := by
  induction h with
  | nil => intro l1 h1; cases h1; rfl
  | cons i s l hs _ ih =>
    intro l1 h1
    cases h1 with
    | cons _ s1 l2 hs1 hl2 =>
      have hss : s = s1 := by
        rw [hs] at hs1
        exact Option.some.inj hs1
      subst hss
      rw [ih hl2]

theorem IsChain.set_other {slots : List hash_slot_t} {head : Option Nat} {l : List Nat}
    (h : IsChain slots head l) (idx : Nat) (v : hash_slot_t) (hidx : idx ∉ l) :
    IsChain (slots.set idx v) head l := by
  induction h with
  | nil => exact IsChain.nil
  | cons i s l hs _ ih =>
    have hne : idx ≠ i := fun e => hidx (by simp [e])
    have hrest : idx ∉ l := fun e => hidx (List.mem_cons_of_mem _ e)
    refine IsChain.cons i s l ?_ (ih hrest)
    rw [List.getElem?_set_ne hne]
    exact hs

theorem desc_length_le : ∀ (l : List Nat) (m : Nat), l.Pairwise (fun x y => y < x) →
    (∀ i ∈ l, i < m) → l.length ≤ m := by
  intro l
  induction l with
  | nil => intro m _ _; exact Nat.zero_le m
  | cons a l ih =>
    intro m hp hb
    have hp1 := List.pairwise_cons.mp hp
    have ha : a < m := hb a (List.mem_cons_self a l)
    have := ih a hp1.2 hp1.1
    simp only [List.length_cons]
    omega

theorem walk_chain_eq (data : List Nat) (table : hash_table_t) (start end_ here key : Nat)
    {head : Option Nat} {l : List Nat} (h : IsChain table.slots head l) :
    ∀ (fuel : Nat) (st : match_state), l.length ≤ fuel →
      walk_chain data table start end_ here key fuel head st =
        try_slots data start end_ here key l st := by
  induction h with
  | nil => intro fuel st _; cases fuel <;> rfl
  | cons i s l hs _ ih =>
    intro fuel st hfuel
    cases fuel with
    | zero => simp at hfuel
    | succ fuel =>
      simp only [walk_chain, try_slots]
      cases hts : try_slot data start end_ here key i st with
      | error e => rfl
      | ok st1 =>
        simp only [hs]
        exact ih fuel st1 (by simpa using hfuel)

theorem TableInv.mono {t : hash_table_t} {n bound bound1 : Nat} (h : TableInv t n bound)
    (hb : bound ≤ bound1) : TableInv t n bound1 :=
  { nb_pos := h.nb_pos
    buckets_len := h.buckets_len
    slots_len := h.slots_len
    chains := fun b hbk =>
      let ⟨l, hc, hp, hlt⟩ := h.chains b hbk
      ⟨l, hc, hp, fun i hi => Nat.lt_of_lt_of_le (hlt i hi) hb⟩
    fresh := fun i hi hn => h.fresh i (Nat.le_trans hb hi) hn }

theorem TableInv.chain_unique {t : hash_table_t} {n bound b : Nat} (h : TableInv t n bound)
    (hb : b < t.num_buckets) {l : List Nat} (hl : chain_of t b l) :
    l.Pairwise (fun x y => y < x) ∧ ∀ i ∈ l, i < bound := by
  obtain ⟨l1, ⟨head1, hh1, hc1⟩, hp, hlt⟩ := h.chains b hb
  obtain ⟨head, hh, hc⟩ := hl
  rw [hh1] at hh
  cases hh
  rw [← hc1.unique hc]
  exact ⟨hp, hlt⟩

theorem or_one_pos (k : Nat) : 0 < k ||| 1 := by
  rcases Nat.eq_zero_or_pos (k ||| 1) with h | h
  · have hbit : (k ||| 1).testBit 0 = true := by
      rw [Nat.testBit_or]
      simp
    rw [h] at hbit
    simp at hbit
  · exact h

theorem create_hash_table_inv (n : Nat) : TableInv (create_hash_table n) n 0 := by
  have hpos : 0 < (n / 3) ||| 1 := or_one_pos (n / 3)
  refine ⟨hpos, by simp [create_hash_table], by simp [create_hash_table], ?_, ?_⟩
  · intro b hb
    refine ⟨[], ⟨none, ?_, IsChain.nil⟩, List.Pairwise.nil, fun i hi => absurd hi (List.not_mem_nil i)⟩
    simp only [create_hash_table] at hb ⊢
    exact List.getElem?_replicate_of_lt hb
  · intro i _ hi
    simp only [create_hash_table]
    exact List.getElem?_replicate_of_lt hi

theorem store_mapping_spec (gb : hash_table_t → List Nat → Nat → Except vd_error Nat)
    (hgb : bucket_fn_ok gb) (t : hash_table_t) (data : List Nat) (idx : Nat)
    (hinv : TableInv t data.length idx) (hk : idx + VD_KEY_SIZE ≤ data.length) :
    ∃ t1 b, gb t data idx = .ok b ∧ b < t.num_buckets ∧
      store_mapping_with gb t data idx idx = .ok t1 ∧
      TableInv t1 data.length (idx + 1) ∧ t1.num_buckets = t.num_buckets ∧
      (∀ l, chain_of t b l → chain_of t1 b (idx :: l)) ∧
      (∀ b1 l, b1 ≠ b → chain_of t b1 l → chain_of t1 b1 l) := by
  obtain ⟨b, hb, hblt⟩ := hgb.in_range t data idx hinv.nb_pos hk
  have hidx : idx < data.length := by
    have : 0 < VD_KEY_SIZE := by decide
    omega
  have hslot : t.slots[idx]? = some { next := none } := hinv.fresh idx (le_refl _) hidx
  have hblen : b < t.buckets.length := by rw [hinv.buckets_len]; exact hblt
  obtain ⟨lb, ⟨head, hhead, hchain⟩, hpw, hbound⟩ := hinv.chains b hblt
  have hnew : ∀ l, chain_of t b l →
      chain_of { t with slots := t.slots.set idx { next := head },
                        buckets := t.buckets.set b (some idx) } b (idx :: l) := by
    intro l hl
    have hu := hinv.chain_unique hblt hl
    obtain ⟨head1, hh1, hc1⟩ := hl
    rw [hhead] at hh1
    cases hh1
    refine ⟨some idx, ?_, ?_⟩
    · simp only
      exact List.getElem?_set_self hblen
    · refine IsChain.cons idx { next := head } l ?_ ?_
      · simp only
        exact List.getElem?_set_self (by rw [hinv.slots_len]; exact hidx)
      · exact hc1.set_other idx _ (fun hmem => Nat.lt_irrefl idx (hu.2 idx hmem))
  have hold : ∀ b1 l, b1 ≠ b → chain_of t b1 l → b1 < t.num_buckets →
      chain_of { t with slots := t.slots.set idx { next := head },
                        buckets := t.buckets.set b (some idx) } b1 l := by
    intro b1 l hne hl hb1
    have hu := hinv.chain_unique hb1 hl
    obtain ⟨head1, hh1, hc1⟩ := hl
    refine ⟨head1, ?_, ?_⟩
    · simp only
      rw [List.getElem?_set_ne (Ne.symm hne)]
      exact hh1
    · exact hc1.set_other idx _ (fun hmem => Nat.lt_irrefl idx (hu.2 idx hmem))
  refine ⟨{ t with slots := t.slots.set idx { next := head },
                   buckets := t.buckets.set b (some idx) }, b, hb, hblt, ?_, ?_, rfl, hnew, ?_⟩
  · simp [store_mapping_with, hb, hslot, hhead]
  · refine ⟨hinv.nb_pos, ?_, ?_, ?_, ?_⟩
    · simp only [List.length_set]; exact hinv.buckets_len
    · simp only [List.length_set]; exact hinv.slots_len
    · intro b1 hb1
      by_cases hbb : b1 = b
      · subst hbb
        refine ⟨idx :: lb, hnew lb ⟨head, hhead, hchain⟩, ?_, ?_⟩
        · exact List.pairwise_cons.mpr ⟨fun a ha => hbound a ha, hpw⟩
        · intro i hi
          rcases List.mem_cons.mp hi with h | h
          · omega
          · have := hbound i h
            omega
      · obtain ⟨l1, hl1, hp1, hb1lt⟩ := hinv.chains b1 hb1
        exact ⟨l1, hold b1 l1 hbb hl1 hb1, hp1, fun i hi => Nat.lt_succ_of_lt (hb1lt i hi)⟩
    · intro i hi hn
      simp only
      rw [List.getElem?_set_ne (by omega)]
      exact hinv.fresh i (by omega) hn
  · intro b1 l hne hl
    have hb1 : b1 < t.num_buckets := by
      obtain ⟨head1, hh1, _⟩ := hl
      have := (List.getElem?_eq_some.mp hh1).1
      rw [hinv.buckets_len] at this
      exact this
    exact hold b1 l hne hl hb1

theorem table_le_refl (t : hash_table_t) : table_le t t :=
  ⟨rfl, fun _ l hl => ⟨l, hl, fun _ hi => hi⟩⟩

theorem table_le_trans {t t1 t2 : hash_table_t} (h : table_le t t1) (h1 : table_le t1 t2) :
    table_le t t2 := by
  refine ⟨h1.1.trans h.1, ?_⟩
  intro b l hl
  obtain ⟨l1, hl1, hsub⟩ := h.2 b l hl
  obtain ⟨l2, hl2, hsub1⟩ := h1.2 b l1 hl1
  exact ⟨l2, hl2, fun i hi => hsub1 i (hsub i hi)⟩

theorem store_mapping_le (gb : hash_table_t → List Nat → Nat → Except vd_error Nat)
    (hgb : bucket_fn_ok gb) (t : hash_table_t) (data : List Nat) (idx : Nat)
    (hinv : TableInv t data.length idx) (hk : idx + VD_KEY_SIZE ≤ data.length) :
    ∃ t1, store_mapping_with gb t data idx idx = .ok t1 ∧
      TableInv t1 data.length (idx + 1) ∧ table_le t t1 := by
  obtain ⟨t1, b, _, _, hst, hinv1, hnb, hnew, hold⟩ := store_mapping_spec gb hgb t data idx hinv hk
  refine ⟨t1, hst, hinv1, hnb, ?_⟩
  intro b1 l hl
  by_cases hbb : b1 = b
  · subst hbb
    exact ⟨idx :: l, hnew l hl, fun i hi => List.mem_cons_of_mem _ hi⟩
  · exact ⟨l, hold b1 l hbb hl, fun i hi => hi⟩

theorem store_last_three_spec (gb : hash_table_t → List Nat → Nat → Except vd_error Nat)
    (hgb : bucket_fn_ok gb) (t : hash_table_t) (data : List Nat) (end_ here bound : Nat)
    (hinv : TableInv t data.length bound) (h3 : bound + (VD_KEY_SIZE - 1) ≤ here)
    (hend : end_ ≤ data.length) :
    ∃ t1, store_last_three gb t data end_ here = .ok t1 ∧
      TableInv t1 data.length here ∧ table_le t t1 := by
  have hK : VD_KEY_SIZE = 4 := rfl
  rw [hK] at h3
  unfold store_last_three
  by_cases hk : end_ - here ≥ VD_KEY_SIZE
  · rw [if_pos hk]
    rw [hK] at hk
    obtain ⟨t1, hs1, hinv1, hle1⟩ :=
      store_mapping_le gb hgb t data (here - 3) (hinv.mono (by omega)) (by rw [hK]; omega)
    obtain ⟨t2, hs2, hinv2, hle2⟩ :=
      store_mapping_le gb hgb t1 data (here - 3 + 1) hinv1 (by rw [hK]; omega)
    obtain ⟨t3, hs3, hinv3, hle3⟩ :=
      store_mapping_le gb hgb t2 data (here - 3 + 2) hinv2 (by rw [hK]; omega)
    refine ⟨t3, ?_, ?_, table_le_trans (table_le_trans hle1 hle2) hle3⟩
    · simp only [hK, Nat.add_one_sub_one, hs1, hs2, hs3]
    · have he : here - 3 + 2 + 1 = here := by omega
      rw [he] at hinv3
      exact hinv3
  · rw [if_neg hk]
    exact ⟨t, rfl, hinv.mono (by omega), table_le_refl t⟩

/-! ## The match search -/

theorem MS_step_refl (st : match_state) : MS_step st st :=
  ⟨le_refl _, fun h => Or.inl h⟩

theorem MS_step_trans {st st1 st2 : match_state} (h : MS_step st st1) (h1 : MS_step st1 st2) :
    MS_step st st2 := by
  refine ⟨le_trans h.1 h1.1, ?_⟩
  intro hp
  rcases h1.2 hp with hp1 | ⟨hlt, hk⟩
  · rcases h.2 hp1 with hp0 | ⟨hlt0, hk0⟩
    · exact Or.inl hp0
    · exact Or.inr ⟨Nat.lt_of_lt_of_le hlt0 h1.1, Nat.le_trans hk0 h1.1⟩
  · exact Or.inr ⟨Nat.lt_of_le_of_lt h.1 hlt, hk⟩

theorem try_slot_spec (data : List Nat) (start end_ here key slot : Nat) (st : match_state)
    (hend : end_ ≤ data.length) (hhere : here ≤ end_) (hslot : slot < here)
    (hst : MS_ok data start end_ here st) :
    ∃ st1, try_slot data start end_ here key slot st = .ok st1 ∧
      MS_ok data start end_ here st1 ∧ MS_step st st1 := by
  unfold try_slot
  by_cases hlt : slot < key - here
  · rw [if_pos hlt]
    exact ⟨st, rfl, hst, MS_step_refl st⟩
  · rw [if_neg hlt]
    obtain ⟨r, hr, hrle, hagree, _⟩ :=
      find_match_len_spec data (slot - (key - here)) here end_ hend hhere (by omega)
    simp only [hr]
    split_ifs with hclamp hrec hrec
    · refine ⟨_, rfl, ⟨?_, ?_⟩, ?_, ?_⟩
      · simp only; omega
      · intro _
        refine ⟨_, rfl, by omega, fun _ => by simp only; omega, ?_⟩
        intro j hj
        simp only at hj
        exact hagree j (by omega)
      · simp only; omega
      · intro _
        exact Or.inr ⟨hrec.2, hrec.1⟩
    · exact ⟨st, rfl, hst, MS_step_refl st⟩
    · refine ⟨_, rfl, ⟨?_, ?_⟩, ?_, ?_⟩
      · simp only; omega
      · intro _
        refine ⟨_, rfl, by omega, fun hm => by simp only; omega, ?_⟩
        intro j hj
        simp only at hj
        exact hagree j hj
      · simp only; omega
      · intro _
        exact Or.inr ⟨hrec.2, hrec.1⟩
    · exact ⟨st, rfl, hst, MS_step_refl st⟩

theorem try_slots_spec (data : List Nat) (start end_ here key : Nat)
    (hend : end_ ≤ data.length) (hhere : here ≤ end_) :
    ∀ (l : List Nat) (st : match_state), (∀ i ∈ l, i < here) →
      MS_ok data start end_ here st →
      ∃ st1, try_slots data start end_ here key l st = .ok st1 ∧
        MS_ok data start end_ here st1 ∧ MS_step st st1 := by
  intro l
  induction l with
  | nil => intro st _ hst; exact ⟨st, rfl, hst, MS_step_refl st⟩
  | cons i l ih =>
    intro st hl hst
    obtain ⟨st1, h1, hok1, hstep1⟩ :=
      try_slot_spec data start end_ here key i st hend hhere (hl i (List.mem_cons_self i l)) hst
    obtain ⟨st2, h2, hok2, hstep2⟩ :=
      ih st1 (fun j hj => hl j (List.mem_cons_of_mem _ hj)) hok1
    exact ⟨st2, by simp only [try_slots, h1, h2], hok2, MS_step_trans hstep1 hstep2⟩

theorem walk_bucket_eq (gb : hash_table_t → List Nat → Nat → Except vd_error Nat)
    (hgb : bucket_fn_ok gb) (data : List Nat) (table : hash_table_t) (start end_ here key bound : Nat)
    (hinv : TableInv table data.length bound) (hbound : bound ≤ data.length)
    (hkey : key + VD_KEY_SIZE ≤ data.length) :
    ∃ b head l, gb table data key = .ok b ∧ table.buckets[b]? = some head ∧
      chain_of table b l ∧ (∀ i ∈ l, i < bound) ∧
      ∀ st, walk_chain data table start end_ here key table.slots.length head st =
        try_slots data start end_ here key l st := by
  obtain ⟨b, hb, hblt⟩ := hgb.in_range table data key hinv.nb_pos hkey
  obtain ⟨l, ⟨head, hhead, hchain⟩, hpw, hlt⟩ := hinv.chains b hblt
  refine ⟨b, head, l, hb, hhead, ⟨head, hhead, hchain⟩, hlt, ?_⟩
  intro st
  apply walk_chain_eq data table start end_ here key hchain
  rw [hinv.slots_len]
  exact Nat.le_trans (desc_length_le l bound hpw hlt) hbound

theorem search_loop_spec (gb : hash_table_t → List Nat → Nat → Except vd_error Nat)
    (hgb : bucket_fn_ok gb) (data : List Nat) (table : hash_table_t) (start end_ here : Nat)
    (hinv : TableInv table data.length here) (hend : end_ ≤ data.length) :
    ∀ (fuel key : Nat) (st : match_state), here ≤ key → key + VD_KEY_SIZE ≤ end_ →
      here + st.current_match_len ≤ key + (VD_KEY_SIZE - 1) →
      end_ - here ≤ fuel + st.current_match_len →
      MS_ok data start end_ here st →
      ∃ st1, search_loop gb data table start end_ here fuel key st = .ok st1 ∧
        MS_ok data start end_ here st1 := by
  have hK : VD_KEY_SIZE = 4 := rfl
  intro fuel
  induction fuel with
  | zero =>
    intro key st hkey hk4 hcml hfuel _
    rw [hK] at hk4 hcml
    omega
  | succ fuel ih =>
    intro key st hkey hk4 hcml hfuel hst
    have hhere : here ≤ end_ := by omega
    obtain ⟨b, head, l, hb, hhead, _, hlt, hwalk⟩ :=
      walk_bucket_eq gb hgb data table start end_ here key here hinv (by omega) (by omega)
    have hst0 : MS_ok data start end_ here { st with progress := false } := hst
    obtain ⟨st1, h1, hok1, hstep1⟩ :=
      try_slots_spec data start end_ here key hend hhere l { st with progress := false } hlt hst0
    simp only [search_loop, hb, hhead, hwalk, h1]
    by_cases hprog : st1.progress = true
    · have hp := hstep1.2 hprog
      simp only [Bool.false_eq_true, false_or] at hp
      simp only [hprog, if_true, true_and]
      by_cases hc4 : end_ - (here + st1.current_match_len - (VD_KEY_SIZE - 1)) ≥ VD_KEY_SIZE
      · rw [if_pos hc4]
        rw [hK] at hp hc4 hcml hk4
        have hlen := hok1.1
        exact ih _ st1 (by rw [hK]; omega) (by rw [hK]; omega) (by rw [hK]; omega)
          (by omega) hok1
      · rw [if_neg hc4]
        exact ⟨st1, rfl, hok1⟩
    · simp only [hprog, false_and, if_false]
      exact ⟨st1, rfl, hok1⟩

/-! ## One round of the outer loop -/

theorem vdelta_loop_near (gb : hash_table_t → List Nat → Nat → Except vd_error Nat)
    (data : List Nat) (start end_ : Nat) (outputflag : Bool) (fuel : Nat)
    (window : List instruction) (table : hash_table_t) (here : Nat) (insert_from : Option Nat)
    (hnear : end_ - here < VD_KEY_SIZE) :
    vdelta_loop gb data start end_ outputflag (fuel + 1) window table here insert_from =
      .ok (if outputflag = true ∧ insert_from.getD here < end_ then
            window ++ [.INSERT ((data.drop (insert_from.getD here)).take
              (end_ - insert_from.getD here))]
          else window, table) := by
  cases insert_from <;>
    simp only [vdelta_loop, if_pos hnear, svn_txdelta__insert_op, Option.getD] <;>
    split_ifs <;> rfl

theorem vdelta_loop_miss (gb : hash_table_t → List Nat → Nat → Except vd_error Nat)
    (data : List Nat) (start end_ : Nat) (outputflag : Bool) (fuel : Nat)
    (window : List instruction) (table table1 : hash_table_t) (here : Nat)
    (insert_from : Option Nat) (st : match_state)
    (hnear : ¬ end_ - here < VD_KEY_SIZE)
    (hsearch : search_loop gb data table start end_ here (end_ - here) here
      { current_match := none, current_match_len := 0, progress := false } = .ok st)
    (hmiss : st.current_match_len < VD_KEY_SIZE)
    (hstore : store_mapping_with gb table data here here = .ok table1) :
    vdelta_loop gb data start end_ outputflag (fuel + 1) window table here insert_from =
      vdelta_loop gb data start end_ outputflag fuel window table1 (here + 1)
        (some (insert_from.getD here)) := by
  cases insert_from <;>
    simp only [vdelta_loop, if_neg hnear, hsearch, if_pos hmiss, hstore, Option.getD]

theorem vdelta_loop_match (gb : hash_table_t → List Nat → Nat → Except vd_error Nat)
    (data : List Nat) (start end_ : Nat) (outputflag : Bool) (fuel : Nat)
    (window : List instruction) (table table1 : hash_table_t) (here : Nat)
    (insert_from : Option Nat) (st : match_state) (m : Nat)
    (hnear : ¬ end_ - here < VD_KEY_SIZE)
    (hsearch : search_loop gb data table start end_ here (end_ - here) here
      { current_match := none, current_match_len := 0, progress := false } = .ok st)
    (hmatch : ¬ st.current_match_len < VD_KEY_SIZE)
    (hm : st.current_match = some m)
    (hstore : store_last_three gb table data end_ (here + st.current_match_len) = .ok table1) :
    vdelta_loop gb data start end_ outputflag (fuel + 1) window table here insert_from =
      vdelta_loop gb data start end_ outputflag fuel
        (if outputflag = true then
          emit_copy window data start here insert_from m st.current_match_len
        else window)
        table1 (here + st.current_match_len)
        (if outputflag = true then none else insert_from) := by
  simp only [vdelta_loop, if_neg hnear, hsearch, if_neg hmatch, hm, hstore]

/-! ## The emitted instructions -/

theorem insert_op_ok (data : List Nat) (start end_ f here : Nat) (hf : f < here)
    (hh : here ≤ end_) (hend : end_ ≤ data.length) :
    op_ok data start end_ f (.INSERT ((data.drop f).take (here - f))) ∧
      f + (instruction.INSERT ((data.drop f).take (here - f))).len = here := by
  have hlen : ((data.drop f).take (here - f)).length = here - f := by
    rw [List.length_take, List.length_drop]
    omega
  refine ⟨⟨?_, ?_, ?_⟩, ?_⟩
  · rw [hlen]; omega
  · rw [hlen]; omega
  · rw [hlen]
  · simp only [instruction.len, hlen]; omega

theorem emit_copy_spec (window : List instruction) (data : List Nat) (start end_ here : Nat)
    (insert_from : Option Nat) (m len : Nat)
    (hend : end_ ≤ data.length) (hlen4 : VD_KEY_SIZE ≤ len) (hfit : here + len ≤ end_)
    (hm : m < here) (hclamp : m < start → m + len ≤ start)
    (hagree : ∀ j, j < len → byte_at data (m + j) = byte_at data (here + j))
    (hins : ∀ f, insert_from = some f → start ≤ f ∧ f < here) :
    ∃ pre, emit_copy window data start here insert_from m len = window ++ pre ∧
      ∀ ops, ops_from data start end_ (here + len) ops →
        ops_from data start end_ (insert_from.getD here) (pre ++ ops) := by
  have hcopy : ∀ ops, ops_from data start end_ (here + len) ops →
      ops_from data start end_ here
        ((if m < start then instruction.COPY_FROM_SOURCE m len
          else instruction.COPY_FROM_TARGET (m - start) len) :: ops) := by
    intro ops hops
    by_cases hsrc : m < start
    · rw [if_pos hsrc]
      exact ⟨⟨hlen4, hfit, hclamp hsrc, hagree⟩, hops⟩
    · rw [if_neg hsrc]
      have hms : start + (m - start) = m := by omega
      refine ⟨⟨hlen4, hfit, by omega, ?_⟩, hops⟩
      intro j hj
      rw [hms]
      exact hagree j hj
  cases insert_from with
  | none =>
    refine ⟨[if m < start then instruction.COPY_FROM_SOURCE m len
             else instruction.COPY_FROM_TARGET (m - start) len], ?_, ?_⟩
    · simp only [emit_copy, svn_txdelta__insert_op]
      split_ifs <;> rfl
    · intro ops hops
      exact hcopy ops hops
  | some f =>
    obtain ⟨_, hf⟩ := hins f rfl
    obtain ⟨hok, hnext⟩ := insert_op_ok data start end_ f here hf (by omega) hend
    refine ⟨[instruction.INSERT ((data.drop f).take (here - f)),
             if m < start then instruction.COPY_FROM_SOURCE m len
             else instruction.COPY_FROM_TARGET (m - start) len], ?_, ?_⟩
    · simp only [emit_copy, svn_txdelta__insert_op]
      split_ifs <;> simp
    · intro ops hops
      refine ⟨hok, ?_⟩
      show ops_from data start end_
        (f + (instruction.INSERT ((data.drop f).take (here - f))).len) _
      rw [hnext]
      exact hcopy ops hops

/-! ## The outer loop -/

theorem initial_match_state_ok (data : List Nat) (start end_ here : Nat) :
    MS_ok data start end_ here
      { current_match := none, current_match_len := 0, progress := false } :=
  ⟨Nat.zero_le _, fun h => absurd h (by decide)⟩

theorem vdelta_loop_spec (gb : hash_table_t → List Nat → Nat → Except vd_error Nat)
    (hgb : bucket_fn_ok gb) (data : List Nat) (start end_ : Nat) (outputflag : Bool)
    (hend : end_ ≤ data.length) :
    ∀ (fuel : Nat) (window : List instruction) (table : hash_table_t) (here : Nat)
      (insert_from : Option Nat),
      start ≤ here → here ≤ end_ → end_ - here < fuel →
      (∀ f, insert_from = some f → start ≤ f ∧ f < here) →
      TableInv table data.length here →
      ∃ t1 ops,
        vdelta_loop gb data start end_ outputflag fuel window table here insert_from =
          .ok (window ++ ops, t1) ∧
        TableInv t1 data.length end_ ∧ table_le table t1 ∧
        (outputflag = false → ops = []) ∧
        (outputflag = true → ops_from data start end_ (insert_from.getD here) ops) := by
  have hK : VD_KEY_SIZE = 4 := rfl
  intro fuel
  induction fuel with
  | zero => intro _ _ here _ _ _ hf _ _; omega
  | succ fuel ih =>
    intro window table here insert_from hstart hhere hfuel hins hinv
    by_cases hnear : end_ - here < VD_KEY_SIZE
    · rw [vdelta_loop_near gb data start end_ outputflag fuel window table here insert_from hnear]
      have hfrom : insert_from.getD here ≤ end_ := by
        cases insert_from with
        | none => exact hhere
        | some f => have := (hins f rfl).2; simp only [Option.getD]; omega
      by_cases hflush : outputflag = true ∧ insert_from.getD here < end_
      · rw [if_pos hflush]
        obtain ⟨hok, hnext⟩ :=
          insert_op_ok data start end_ (insert_from.getD here) end_ hflush.2 (le_refl _) hend
        refine ⟨table, [_], rfl, hinv.mono hhere, table_le_refl table, ?_, ?_⟩
        · intro hfalse
          rw [hflush.1] at hfalse
          cases hfalse
        · intro _
          exact ⟨hok, hnext⟩
      · rw [if_neg hflush]
        refine ⟨table, [], by simp, hinv.mono hhere, table_le_refl table, fun _ => rfl, ?_⟩
        intro htrue
        have : ¬ insert_from.getD here < end_ := fun h => hflush ⟨htrue, h⟩
        show insert_from.getD here = end_
        omega
    · rw [hK] at hnear
      obtain ⟨st, hsearch, hok⟩ :=
        search_loop_spec gb hgb data table start end_ here hinv hend (end_ - here) here
          { current_match := none, current_match_len := 0, progress := false }
          (le_refl _) (by rw [hK]; omega) (by simp) (by simp)
          (initial_match_state_ok data start end_ here)
      by_cases hmiss : st.current_match_len < VD_KEY_SIZE
      · obtain ⟨table1, hstore, hinv1, hle1⟩ :=
          store_mapping_le gb hgb table data here hinv (by rw [hK]; omega)
        rw [vdelta_loop_miss gb data start end_ outputflag fuel window table table1 here
          insert_from st (by rw [hK]; exact hnear) hsearch hmiss hstore]
        obtain ⟨t1, ops, hrun, hinvt, hlet, hoff, hon⟩ :=
          ih window table1 (here + 1) (some (insert_from.getD here)) (by omega) (by omega)
            (by omega)
            (by
              intro f hf
              cases insert_from with
              | none =>
                simp only [Option.getD, Option.some.injEq] at hf
                omega
              | some g =>
                simp only [Option.getD, Option.some.injEq] at hf
                have := hins g rfl
                omega)
            hinv1
        exact ⟨t1, ops, hrun, hinvt, table_le_trans hle1 hlet, hoff, hon⟩
      · have hlen4 : VD_KEY_SIZE ≤ st.current_match_len := Nat.le_of_not_lt hmiss
        obtain ⟨m, hm, hmlt, hclamp, hagree⟩ := hok.2 hlen4
        have hfit : here + st.current_match_len ≤ end_ := by
          have := hok.1
          omega
        obtain ⟨table1, hstore, hinv1, hle1⟩ :=
          store_last_three_spec gb hgb table data end_ (here + st.current_match_len) here hinv
            (by rw [hK] at hlen4 ⊢; omega) hend
        rw [vdelta_loop_match gb data start end_ outputflag fuel window table table1 here
          insert_from st m (by rw [hK]; exact hnear) hsearch hmiss hm hstore]
        rw [hK] at hlen4
        cases outputflag with
        | false =>
          simp only [Bool.false_eq_true, if_false]
          obtain ⟨t1, ops, hrun, hinvt, hlet, hoff, _⟩ :=
            ih window table1 (here + st.current_match_len) insert_from (by omega) hfit (by omega)
              (by
                intro f hf
                have := hins f hf
                omega)
              hinv1
          exact ⟨t1, ops, hrun, hinvt, table_le_trans hle1 hlet, fun _ => hoff rfl,
            fun h => absurd h (by decide)⟩
        | true =>
          simp only [if_true]
          obtain ⟨pre, hpre, hcover⟩ :=
            emit_copy_spec window data start end_ here insert_from m st.current_match_len hend
              (by rw [hK]; exact hlen4) hfit hmlt hclamp hagree hins
          rw [hpre]
          obtain ⟨t1, ops, hrun, hinvt, hlet, _, hon⟩ :=
            ih (window ++ pre) table1 (here + st.current_match_len) none (by omega) hfit
              (by omega) (fun f hf => by cases hf) hinv1
          refine ⟨t1, pre ++ ops, ?_, hinvt, table_le_trans hle1 hlet,
            fun h => absurd h (by decide), fun _ => hcover ops (hon rfl)⟩
          rw [hrun, List.append_assoc]

/-! ## The two passes -/

theorem vdelta_with_spec (gb : hash_table_t → List Nat → Nat → Except vd_error Nat)
    (hgb : bucket_fn_ok gb) (window : List instruction) (data : List Nat) (start end_ : Nat)
    (outputflag : Bool) (table : hash_table_t) (hse : start ≤ end_) (hend : end_ ≤ data.length)
    (hinv : TableInv table data.length start) :
    ∃ t1 ops, vdelta_with gb window data start end_ outputflag table = .ok (window ++ ops, t1) ∧
      TableInv t1 data.length end_ ∧ table_le table t1 ∧
      (outputflag = false → ops = []) ∧
      (outputflag = true → ops_from data start end_ start ops) :=
  vdelta_loop_spec gb hgb data start end_ outputflag hend (end_ - start + 1) window table start
    none (le_refl _) hse (Nat.lt_succ_self _) (fun f hf => by cases hf) hinv

theorem first_pass_spec (gb : hash_table_t → List Nat → Nat → Except vd_error Nat)
    (hgb : bucket_fn_ok gb) (window : List instruction) (data : List Nat) (source_len : Nat)
    (hlen : source_len ≤ data.length) :
    ∃ t1, vdelta_with gb window data 0 source_len false (create_hash_table data.length) =
        .ok (window, t1) ∧
      TableInv t1 data.length source_len := by
  obtain ⟨t1, ops, hrun, hinv, _, hoff, _⟩ :=
    vdelta_with_spec gb hgb window data 0 source_len false (create_hash_table data.length)
      (Nat.zero_le _) hlen (create_hash_table_inv data.length)
  rw [hoff rfl, List.append_nil] at hrun
  exact ⟨t1, hrun, hinv⟩

theorem txdelta_run_spec (gb : hash_table_t → List Nat → Nat → Except vd_error Nat)
    (hgb : bucket_fn_ok gb) (window : List instruction) (data : List Nat)
    (source_len target_len : Nat) (hlen : data.length = source_len + target_len) :
    ∃ t2 ops, txdelta_run gb window data source_len target_len = .ok (window ++ ops, t2) ∧
      ops_from data source_len (source_len + target_len) source_len ops := by
  obtain ⟨t1, hrun1, hinv1⟩ := first_pass_spec gb hgb window data source_len (by omega)
  obtain ⟨t2, ops, hrun2, _, _, _, hon⟩ :=
    vdelta_with_spec gb hgb window data source_len (source_len + target_len) true t1
      (Nat.le_add_right _ _) (by omega) hinv1
  refine ⟨t2, ops, ?_, hon rfl⟩
  simp only [txdelta_run]
  rw [← hlen, hrun1]
  simp only
  rw [hlen]
  exact hrun2

theorem svn_txdelta__vdelta_of_run (window window1 : List instruction) (data : List Nat)
    (source_len target_len : Nat) (t : hash_table_t)
    (h : txdelta_run get_bucket window data source_len target_len = .ok (window1, t)) :
    svn_txdelta__vdelta window data source_len target_len = .ok window1 := by
  simp only [txdelta_run] at h
  simp only [svn_txdelta__vdelta, vdelta]
  cases h1 : vdelta_with get_bucket window data 0 source_len false
      (create_hash_table (source_len + target_len)) with
  | error e => rw [h1] at h; cases h
  | ok r =>
    obtain ⟨w1, t1⟩ := r
    rw [h1] at h
    simp only at h ⊢
    rw [h]

theorem svn_txdelta__vdelta_spec (source target : List Nat) :
    ∃ ops, svn_txdelta__vdelta [] (source ++ target) source.length target.length = .ok ops ∧
      ops_from (source ++ target) source.length (source.length + target.length)
        source.length ops := by
  obtain ⟨t2, ops, hrun, hops⟩ :=
    txdelta_run_spec get_bucket get_bucket_fn_ok [] (source ++ target) source.length
      target.length (List.length_append source target)
  refine ⟨ops, ?_, hops⟩
  rw [svn_txdelta__vdelta_of_run _ _ _ _ _ _ hrun, List.nil_append]

/-! ## From the window to source and target -/

theorem byte_at_source (source target : List Nat) (i : Nat) (hi : i < source.length) :
    source[i]? = some (byte_at (source ++ target) i) := by
  simp [byte_at, List.getD, List.getElem?_append_left hi, List.getElem?_eq_getElem hi]

theorem byte_at_target (source target : List Nat) (i : Nat) (hi : i < target.length) :
    target[i]? = some (byte_at (source ++ target) (source.length + i)) := by
  have h : (source ++ target)[source.length + i]? = target[i]? := by
    rw [List.getElem?_append_right (Nat.le_add_right _ _)]
    simp
  simp [byte_at, List.getD, h, List.getElem?_eq_getElem hi]

theorem ops_from_get (data : List Nat) (start end_ : Nat) :
    ∀ (ops : List instruction) (p k : Nat) (ins : instruction),
      ops_from data start end_ p ops → ops[k]? = some ins →
      op_ok data start end_ (p + target_pos ops k) ins := by
  intro ops
  induction ops with
  | nil => intro p k ins _ hk; simp at hk
  | cons o ops ih =>
    intro p k ins hops hk
    cases k with
    | zero =>
      simp only [List.getElem?_cons_zero, Option.some.injEq] at hk
      subst hk
      simpa [target_pos] using hops.1
    | succ k =>
      simp only [List.getElem?_cons_succ] at hk
      have := ih (p + o.len) k ins hops.2 hk
      have hpos : p + target_pos (o :: ops) (k + 1) = p + o.len + target_pos ops k := by
        simp [target_pos, Nat.add_assoc]
      rw [hpos]
      exact this

theorem ops_from_sum (data : List Nat) (start end_ : Nat) :
    ∀ (ops : List instruction) (p : Nat), ops_from data start end_ p ops →
      p + (ops.map instruction.len).sum = end_ := by
  intro ops
  induction ops with
  | nil => intro p h; simpa using h
  | cons o ops ih =>
    intro p h
    have := ih (p + o.len) h.2
    simp only [List.map_cons, List.sum_cons]
    omega

theorem window_drop_target (source target : List Nat) (q : Nat) :
    (source ++ target).drop (source.length + q) = target.drop q :=
  List.drop_append q

theorem source_segment_eq (source target : List Nat) (a q len : Nat)
    (ha : a + len ≤ source.length) (hq : q + len ≤ target.length)
    (hagree : ∀ j, j < len →
      byte_at (source ++ target) (a + j) = byte_at (source ++ target) (source.length + q + j)) :
    (source.drop a).take len = (target.drop q).take len := by
  apply List.ext_getElem?
  intro i
  rw [List.getElem?_take, List.getElem?_take]
  by_cases hi : i < len
  · rw [if_pos hi, if_pos hi, List.getElem?_drop, List.getElem?_drop,
      byte_at_source source target (a + i) (by omega),
      byte_at_target source target (q + i) (by omega), hagree i hi, Nat.add_assoc]
  · rw [if_neg hi, if_neg hi]

theorem target_segment_eq (source target : List Nat) (a q len : Nat)
    (ha : a < q) (hq : q + len ≤ target.length)
    (hagree : ∀ j, j < len →
      byte_at (source ++ target) (source.length + a + j) =
        byte_at (source ++ target) (source.length + q + j)) :
    ∀ i, i < len → target[a + i]? = target[q + i]? := by
  intro i hi
  rw [byte_at_target source target (a + i) (by omega),
    byte_at_target source target (q + i) (by omega)]
  have := hagree i hi
  rw [Nat.add_assoc, Nat.add_assoc] at this
  rw [this]

theorem op_ok_describes (source target : List Nat) (q : Nat) (ins : instruction)
    (h : op_ok (source ++ target) source.length (source.length + target.length)
      (source.length + q) ins) :
    describes source target q ins ∧ q + ins.len ≤ target.length := by
  cases ins with
  | INSERT bytes =>
    obtain ⟨_, hfit, hbytes⟩ := h
    rw [window_drop_target] at hbytes
    exact ⟨hbytes, by simp only [instruction.len]; omega⟩
  | COPY_FROM_SOURCE off len =>
    obtain ⟨_, hfit, hsrc, hagree⟩ := h
    exact ⟨source_segment_eq source target off q len hsrc (by omega) hagree,
      by simp only [instruction.len]; omega⟩
  | COPY_FROM_TARGET off len =>
    obtain ⟨_, hfit, hlt, hagree⟩ := h
    exact ⟨target_segment_eq source target off q len (by omega) (by omega) hagree,
      by simp only [instruction.len]; omega⟩

/-! ## The applier -/

theorem copy_from_target_spec (target : List Nat) :
    ∀ (len off q : Nat), off < q → q + len ≤ target.length →
      (∀ j, j < len → target[off + j]? = target[q + j]?) →
      copy_from_target len off (target.take q) = some (target.take (q + len)) := by
  intro len
  induction len with
  | zero => intro off q _ _ _; rfl
  | succ n ih =>
    intro off q hoff hq hagree
    have hq1 : q < target.length := by omega
    have h0 : (target.take q)[off]? = some target[q] := by
      rw [List.getElem?_take_of_lt hoff]
      have := hagree 0 (Nat.succ_pos n)
      simp only [Nat.add_zero] at this
      rw [this, List.getElem?_eq_getElem hq1]
    have hnext : target.take q ++ [target[q]] = target.take (q + 1) := by
      rw [List.take_succ, List.getElem?_eq_getElem hq1]
      rfl
    simp only [copy_from_target, h0, hnext]
    have := ih (off + 1) (q + 1) (by omega) (by omega) (by
      intro j hj
      have := hagree (j + 1) (by omega)
      simpa [Nat.add_assoc, Nat.add_comm 1 j] using this)
    rw [this]
    congr 2
    omega

theorem apply_instruction_spec (source target : List Nat) (q : Nat) (ins : instruction)
    (h : op_ok (source ++ target) source.length (source.length + target.length)
      (source.length + q) ins) :
    apply_instruction source (target.take q) ins = some (target.take (q + ins.len)) := by
  obtain ⟨hd, hfit⟩ := op_ok_describes source target q ins h
  cases ins with
  | INSERT bytes =>
    simp only [apply_instruction, instruction.len]
    congr 1
    have hd1 : bytes = (target.drop q).take bytes.length := hd
    rw [List.take_add, ← hd1]
  | COPY_FROM_SOURCE off len =>
    obtain ⟨_, _, hsrc, _⟩ := h
    have hd1 : (source.drop off).take len = (target.drop q).take len := hd
    simp only [apply_instruction, instruction.len, if_pos hsrc]
    congr 1
    rw [List.take_add, ← hd1]
  | COPY_FROM_TARGET off len =>
    obtain ⟨_, _, hlt, _⟩ := h
    exact copy_from_target_spec target len off q (by omega) hfit hd

theorem apply_delta_spec (source target : List Nat) :
    ∀ (ops : List instruction) (q : Nat),
      ops_from (source ++ target) source.length (source.length + target.length)
        (source.length + q) ops →
      apply_delta source ops (target.take q) = some target := by
  intro ops
  induction ops with
  | nil =>
    intro q h
    have hq : q = target.length := by
      have : source.length + q = source.length + target.length := h
      omega
    simp [apply_delta, hq]
  | cons ins ops ih =>
    intro q h
    simp only [apply_delta, apply_instruction_spec source target q ins h.1]
    apply ih
    have := h.2
    rw [Nat.add_assoc] at this
    exact this

theorem short_target_run (gb : hash_table_t → List Nat → Nat → Except vd_error Nat)
    (hgb : bucket_fn_ok gb) (window : List instruction) (data : List Nat)
    (source_len target_len : Nat) (hlen : data.length = source_len + target_len)
    (hshort : target_len < VD_KEY_SIZE) :
    ∃ t1, txdelta_run gb window data source_len target_len =
      .ok (if 0 < target_len then window ++ [.INSERT ((data.drop source_len).take target_len)]
           else window, t1) := by
  obtain ⟨t1, hrun1, _⟩ := first_pass_spec gb hgb window data source_len (by omega)
  refine ⟨t1, ?_⟩
  have hsub : source_len + target_len - source_len = target_len := by omega
  simp only [txdelta_run]
  rw [← hlen, hrun1]
  simp only [vdelta_with]
  rw [hlen, vdelta_loop_near gb data source_len (source_len + target_len) true _ window t1
    source_len none (by omega)]
  simp only [Option.getD, true_and, hsub, Nat.lt_add_right_iff_pos]

/-! ## Source and target identical -/

theorem first_pass_indexes_zero (gb : hash_table_t → List Nat → Nat → Except vd_error Nat)
    (hgb : bucket_fn_ok gb) (window : List instruction) (data : List Nat) (source_len : Nat)
    (h4 : VD_KEY_SIZE ≤ source_len) (hlen : source_len ≤ data.length) :
    ∃ t1 b l, vdelta_with gb window data 0 source_len false (create_hash_table data.length) =
        .ok (window, t1) ∧
      TableInv t1 data.length source_len ∧ gb t1 data 0 = .ok b ∧ chain_of t1 b l ∧ 0 ∈ l := by
  have hK : VD_KEY_SIZE = 4 := rfl
  rw [hK] at h4
  have hinv0 := create_hash_table_inv data.length
  obtain ⟨st, hsearch, hok⟩ :=
    search_loop_spec gb hgb data (create_hash_table data.length) 0 source_len 0 hinv0 hlen
      (source_len - 0) 0 { current_match := none, current_match_len := 0, progress := false }
      (le_refl _) (by rw [hK]; omega) (by simp) (by simp)
      (initial_match_state_ok data 0 source_len 0)
  have hmiss : st.current_match_len < VD_KEY_SIZE := by
    by_contra hge
    obtain ⟨m, _, hm, _⟩ := hok.2 (Nat.le_of_not_lt hge)
    exact Nat.not_lt_zero m hm
  obtain ⟨t0, b, hb, hblt, hstore, hinv1, hnb, hnew, _⟩ :=
    store_mapping_spec gb hgb (create_hash_table data.length) data 0 hinv0 (by rw [hK]; omega)
  obtain ⟨l0, hl0, _, _⟩ := hinv0.chains b hblt
  have hchain0 := hnew l0 hl0
  obtain ⟨t1, ops, hrun, hinvt, hle, hoff, _⟩ :=
    vdelta_loop_spec gb hgb data 0 source_len false hlen (source_len - 0) window t0 (0 + 1)
      (some ((none : Option Nat).getD 0)) (by omega) (by omega) (by omega)
      (by
        intro f hf
        simp only [Option.getD, Option.some.injEq] at hf
        omega)
      hinv1
  obtain ⟨l1, hl1, hsub⟩ := hle.2 b (0 :: l0) hchain0
  refine ⟨t1, b, l1, ?_, hinvt, ?_, hl1, hsub 0 (List.mem_cons_self 0 l0)⟩
  · simp only [vdelta_with]
    rw [vdelta_loop_miss gb data 0 source_len false (source_len - 0) window
      (create_hash_table data.length) t0 0 none st (by rw [hK]; omega) hsearch hmiss hstore,
      hrun, hoff rfl, List.append_nil]
  · rw [hgb.table_indep t1 (create_hash_table data.length) data 0 (hle.1.trans hnb)]
    exact hb

theorem byte_at_double (s : List Nat) (i : Nat) (hi : i < s.length) :
    byte_at (s ++ s) (s.length + i) = byte_at (s ++ s) i := by
  have h1 := byte_at_source s s i hi
  have h2 := byte_at_target s s i hi
  rw [h1] at h2
  exact (Option.some.inj h2).symm

theorem try_slot_identity (s : List Nat) (i : Nat) (hi : i < s.length) (st : match_state) :
    ∃ len, len ≤ s.length - i ∧ (i = 0 → len = s.length) ∧
      try_slot (s ++ s) s.length (s.length + s.length) s.length s.length i st =
        .ok (if len ≥ VD_KEY_SIZE ∧ len > st.current_match_len then
              { current_match := some i, current_match_len := len, progress := true }
            else st) := by
  obtain ⟨r, hr, hrle, _, hstop⟩ :=
    find_match_len_spec (s ++ s) i s.length (s.length + s.length)
      (by simp) (Nat.le_add_right _ _) (Nat.le_of_lt hi)
  refine ⟨if i < s.length ∧ i + r > s.length then s.length - i else r, ?_, ?_, ?_⟩
  · split_ifs with hc
    · exact le_refl _
    · have : ¬ i + r > s.length := fun h => hc ⟨hi, h⟩
      omega
  · intro hi0
    subst hi0
    have hrs : r = s.length := by
      by_contra hne
      have hlt : r < s.length := by omega
      have := hstop (by omega)
      rw [Nat.zero_add, byte_at_double s r hlt] at this
      exact this rfl
    rw [hrs]
    simp
  · simp only [try_slot, Nat.sub_self, Nat.not_lt_zero, if_false, Nat.sub_zero, hr]
    split_ifs <;> rfl

theorem try_slots_identity_fixed (s : List Nat) :
    ∀ (l : List Nat), (∀ i ∈ l, i < s.length) →
      try_slots (s ++ s) s.length (s.length + s.length) s.length s.length l
          { current_match := some 0, current_match_len := s.length, progress := true } =
        .ok { current_match := some 0, current_match_len := s.length, progress := true } := by
  intro l
  induction l with
  | nil => intro _; rfl
  | cons i l ih =>
    intro hl
    obtain ⟨len, hlen, _, htry⟩ :=
      try_slot_identity s i (hl i (List.mem_cons_self i l))
        { current_match := some 0, current_match_len := s.length, progress := true }
    have hno : ¬ (len ≥ VD_KEY_SIZE ∧ len > s.length) := fun h => by omega
    simp only [try_slots, htry, if_neg hno]
    exact ih (fun j hj => hl j (List.mem_cons_of_mem _ hj))

theorem try_slots_identity (s : List Nat) (h4 : VD_KEY_SIZE ≤ s.length) :
    ∀ (l : List Nat) (st : match_state), (∀ i ∈ l, i < s.length) → 0 ∈ l →
      st.current_match_len < s.length →
      try_slots (s ++ s) s.length (s.length + s.length) s.length s.length l st =
        .ok { current_match := some 0, current_match_len := s.length, progress := true } := by
  intro l
  induction l with
  | nil => intro st _ h0 _; simp at h0
  | cons i l ih =>
    intro st hl h0 hst
    have hrest : ∀ j ∈ l, j < s.length := fun j hj => hl j (List.mem_cons_of_mem _ hj)
    obtain ⟨len, hlen, hzero, htry⟩ := try_slot_identity s i (hl i (List.mem_cons_self i l)) st
    by_cases hi0 : i = 0
    · have hlen0 := hzero hi0
      have hyes : len ≥ VD_KEY_SIZE ∧ len > st.current_match_len := by
        rw [hlen0]
        exact ⟨h4, hst⟩
      subst hi0
      rw [hlen0] at hyes
      simp only [try_slots, htry, hlen0, if_pos hyes]
      exact try_slots_identity_fixed s l hrest
    · have h0l : 0 ∈ l := by
        rcases List.mem_cons.mp h0 with h | h
        · exact absurd h.symm hi0
        · exact h
      simp only [try_slots, htry]
      apply ih _ hrest h0l
      split_ifs
      · simp only
        omega
      · exact hst

theorem search_identity (gb : hash_table_t → List Nat → Nat → Except vd_error Nat)
    (hgb : bucket_fn_ok gb) (s : List Nat) (h4 : VD_KEY_SIZE ≤ s.length) (t1 : hash_table_t)
    (b : Nat) (l : List Nat) (hinv : TableInv t1 (s ++ s).length s.length)
    (hb : gb t1 (s ++ s) 0 = .ok b) (hc : chain_of t1 b l) (h0 : 0 ∈ l) :
    search_loop gb (s ++ s) t1 s.length (s.length + s.length) s.length
        (s.length + s.length - s.length) s.length
        { current_match := none, current_match_len := 0, progress := false } =
      .ok { current_match := some 0, current_match_len := s.length, progress := true } := by
  have hK : VD_KEY_SIZE = 4 := rfl
  rw [hK] at h4
  have hkey : gb t1 (s ++ s) s.length = .ok b := by
    rw [hgb.key_dep t1 (s ++ s) s.length 0]
    · exact hb
    · intro i hi
      rw [hK] at hi
      rw [List.getElem?_append_right (Nat.le_add_right _ _), Nat.zero_add,
        List.getElem?_append_left (by omega)]
      simp
  have hblt : b < t1.num_buckets := by
    obtain ⟨head, hh, _⟩ := hc
    have := (List.getElem?_eq_some.mp hh).1
    rw [hinv.buckets_len] at this
    exact this
  obtain ⟨hpw, hlt⟩ := hinv.chain_unique hblt hc
  obtain ⟨head, hhead, hchain⟩ := hc
  have hwalk := walk_chain_eq (s ++ s) t1 s.length (s.length + s.length) s.length s.length
    hchain t1.slots.length { current_match := none, current_match_len := 0, progress := false }
    (by
      rw [hinv.slots_len, List.length_append]
      have := desc_length_le l s.length hpw hlt
      omega)
  have htry := try_slots_identity s (by rw [hK]; exact h4) l
    { current_match := none, current_match_len := 0, progress := false } hlt h0
    (by simp only; omega)
  obtain ⟨k, hk⟩ : ∃ k, s.length + s.length - s.length = k + 1 := ⟨s.length - 1, by omega⟩
  have hstop : ¬ (s.length + s.length - (s.length + s.length - (VD_KEY_SIZE - 1)) ≥ VD_KEY_SIZE) := by
    rw [hK]
    omega
  rw [hk]
  simp only [search_loop, hkey, hhead, hwalk, htry, if_true, true_and, if_neg hstop]

theorem identity_run (gb : hash_table_t → List Nat → Nat → Except vd_error Nat)
    (hgb : bucket_fn_ok gb) (window : List instruction) (s : List Nat)
    (h4 : VD_KEY_SIZE ≤ s.length) :
    ∃ t1, txdelta_run gb window (s ++ s) s.length s.length =
      .ok (window ++ [instruction.COPY_FROM_SOURCE 0 s.length], t1) := by
  have hK : VD_KEY_SIZE = 4 := rfl
  have hlen : (s ++ s).length = s.length + s.length := List.length_append s s
  obtain ⟨t1, b, l, hrun1, hinv, hb, hc, h0⟩ :=
    first_pass_indexes_zero gb hgb window (s ++ s) s.length h4 (by omega)
  have hsearch := search_identity gb hgb s h4 t1 b l hinv hb hc h0
  rw [hK] at h4
  have hstore : store_last_three gb t1 (s ++ s) (s.length + s.length) (s.length + s.length) =
      .ok t1 := by
    simp [store_last_three, hK]
  obtain ⟨k, hk⟩ : ∃ k, s.length + s.length - s.length = k + 1 := ⟨s.length - 1, by omega⟩
  refine ⟨t1, ?_⟩
  simp only [txdelta_run]
  rw [← hlen, hrun1]
  simp only [vdelta_with]
  rw [hlen, vdelta_loop_match gb (s ++ s) s.length (s.length + s.length) true
    (s.length + s.length - s.length) window t1 t1 s.length none
    { current_match := some 0, current_match_len := s.length, progress := true } 0
    (by rw [hK]; omega) hsearch (by rw [hK]; simp only; omega) rfl hstore]
  simp only [if_true]
  rw [hk, vdelta_loop_near gb (s ++ s) s.length (s.length + s.length) true k _ t1
    (s.length + s.length) none (by rw [hK]; omega)]
  have hpos : 0 < s.length := by omega
  simp [emit_copy, svn_txdelta__insert_op, hpos]

/-! ## The claims -/

/-- C1 (round trip): for every source and target byte string the generator,
run on the buffer `source ++ target`, returns an instruction list, and the
applier started with empty output reconstructs from it and the source exactly
the target. -/
theorem C1_round_trip (source target : List Nat) :
    ∃ ops, svn_txdelta__vdelta [] (source ++ target) source.length target.length = .ok ops ∧
      apply_delta source ops [] = some target := by
  obtain ⟨ops, hrun, hops⟩ := svn_txdelta__vdelta_spec source target
  exact ⟨ops, hrun, apply_delta_spec source target ops 0 hops⟩

/-- C2 (as stated, refuted): for the empty source and the target of ten bytes
`a`, the second instruction is `COPY_FROM_TARGET(0, 9)` emitted at target
position 1, so `off + len = 9` exceeds the current position. -/
theorem C2_target_copy_past_position :
    ∃ ops, svn_txdelta__vdelta [] ([] ++ List.replicate 10 97) 0 10 = .ok ops ∧
      ops[1]? = some (instruction.COPY_FROM_TARGET 0 9) ∧ target_pos ops 1 < 0 + 9 :=
  ⟨[instruction.INSERT [97], instruction.COPY_FROM_TARGET 0 9], by decide, by decide, by decide⟩

/-- C2 (amended): every emitted `COPY_FROM_TARGET(off, len)` starts strictly
before the target position `p` at which it is emitted (`off < p`) and the bytes
it produces fit in the target (`p + len <= target_len`); it may run past `p`. -/
theorem C2_target_copy_starts_before (source target : List Nat) :
    ∃ ops, svn_txdelta__vdelta [] (source ++ target) source.length target.length = .ok ops ∧
      ∀ (k off len : Nat), ops[k]? = some (instruction.COPY_FROM_TARGET off len) →
        off < target_pos ops k ∧ target_pos ops k + len ≤ target.length := by
  obtain ⟨ops, hrun, hops⟩ := svn_txdelta__vdelta_spec source target
  refine ⟨ops, hrun, ?_⟩
  intro k off len hk
  obtain ⟨_, hfit, hlt, _⟩ := ops_from_get _ _ _ ops _ k _ hops hk
  omega

/-- C3: every emitted `COPY_FROM_SOURCE(off, len)` satisfies
`off + len <= source_len`. -/
theorem C3_source_copy_in_source (source target : List Nat) :
    ∃ ops, svn_txdelta__vdelta [] (source ++ target) source.length target.length = .ok ops ∧
      ∀ (k off len : Nat), ops[k]? = some (instruction.COPY_FROM_SOURCE off len) → off + len ≤ source.length := by
  obtain ⟨ops, hrun, hops⟩ := svn_txdelta__vdelta_spec source target
  refine ⟨ops, hrun, ?_⟩
  intro k off len hk
  obtain ⟨_, _, hsrc, _⟩ := ops_from_get _ _ _ ops _ k _ hops hk
  exact hsrc

/-- C4 (minimum copy length): every emitted copy instruction, from the source
or from the target, has length at least `VD_KEY_SIZE = 4`. -/
theorem C4_min_copy_length (source target : List Nat) :
    ∃ ops, svn_txdelta__vdelta [] (source ++ target) source.length target.length = .ok ops ∧
      ∀ (k off len : Nat),
        (ops[k]? = some (instruction.COPY_FROM_SOURCE off len) ∨
          ops[k]? = some (instruction.COPY_FROM_TARGET off len)) → 4 ≤ len := by
  obtain ⟨ops, hrun, hops⟩ := svn_txdelta__vdelta_spec source target
  refine ⟨ops, hrun, ?_⟩
  intro k off len hk
  rcases hk with hk | hk
  · exact (ops_from_get _ _ _ ops _ k _ hops hk).1
  · exact (ops_from_get _ _ _ ops _ k _ hops hk).1

/-- C5: the lengths of the emitted instructions sum to `target_len`, and the
`k`-th instruction describes the target bytes that start at the sum of the
lengths of the instructions before it. -/
theorem C5_lengths_cover_target (source target : List Nat) :
    ∃ ops, svn_txdelta__vdelta [] (source ++ target) source.length target.length = .ok ops ∧
      (ops.map instruction.len).sum = target.length ∧
      ∀ (k : Nat) (ins : instruction), ops[k]? = some ins →
        describes source target (target_pos ops k) ins ∧
          target_pos ops k + ins.len ≤ target.length := by
  obtain ⟨ops, hrun, hops⟩ := svn_txdelta__vdelta_spec source target
  refine ⟨ops, hrun, ?_, ?_⟩
  · have := ops_from_sum _ _ _ ops _ hops
    omega
  · intro k ins hk
    exact op_ok_describes source target (target_pos ops k) ins
      (ops_from_get _ _ _ ops _ k _ hops hk)

/-- C6 (identity delta): for every byte string `s` of length at least 4, the
generator run with source and target both equal to `s` emits the single
instruction `COPY_FROM_SOURCE(0, length of s)`. -/
theorem C6_identity_delta (s : List Nat) (h4 : 4 ≤ s.length) :
    svn_txdelta__vdelta [] (s ++ s) s.length s.length =
      .ok [instruction.COPY_FROM_SOURCE 0 s.length] := by
  obtain ⟨t1, hrun⟩ := identity_run get_bucket get_bucket_fn_ok [] s h4
  rw [svn_txdelta__vdelta_of_run _ _ _ _ _ _ hrun, List.nil_append]

/-- C6 (witness): source and target both `abcdef` give
`COPY_FROM_SOURCE(0, 6)`. -/
theorem C6_identity_delta_witness :
    svn_txdelta__vdelta [] ([97, 98, 99, 100, 101, 102] ++ [97, 98, 99, 100, 101, 102])
        [97, 98, 99, 100, 101, 102].length [97, 98, 99, 100, 101, 102].length =
      .ok [instruction.COPY_FROM_SOURCE 0 [97, 98, 99, 100, 101, 102].length] :=
  C6_identity_delta [97, 98, 99, 100, 101, 102] (by decide)

/-- C7 (as stated, refuted): for source `abcd` and target `abcdabcd` the
emitted list is not `[COPY_FROM_SOURCE(0, 4), COPY_FROM_TARGET(0, 4)]`. -/
theorem C7_scenario5_not_target_copy :
    svn_txdelta__vdelta [] ([97, 98, 99, 100] ++ [97, 98, 99, 100, 97, 98, 99, 100]) 4 8 ≠
      .ok [instruction.COPY_FROM_SOURCE 0 4, instruction.COPY_FROM_TARGET 0 4] := by
  decide

/-- C7 (amended): for source `abcd` and target `abcdabcd` the emitted list is
exactly `[COPY_FROM_SOURCE(0, 4), COPY_FROM_SOURCE(0, 4)]`. -/
theorem C7_scenario5_two_source_copies :
    svn_txdelta__vdelta [] ([97, 98, 99, 100] ++ [97, 98, 99, 100, 97, 98, 99, 100]) 4 8 =
      .ok [instruction.COPY_FROM_SOURCE 0 4, instruction.COPY_FROM_SOURCE 0 4] := by
  decide

/-- C8 (empty source): when `source_len = 0` every emitted instruction is an
`INSERT` or a `COPY_FROM_TARGET`; no `COPY_FROM_SOURCE` is emitted. -/
theorem C8_empty_source_no_source_copy (target : List Nat) :
    ∃ ops, svn_txdelta__vdelta [] target 0 target.length = .ok ops ∧
      ∀ ins, ins ∈ ops →
        (∃ bytes, ins = instruction.INSERT bytes) ∨ (∃ off len, ins = instruction.COPY_FROM_TARGET off len) := by
  obtain ⟨ops, hrun, hops⟩ := svn_txdelta__vdelta_spec [] target
  refine ⟨ops, hrun, ?_⟩
  intro ins hins
  obtain ⟨k, hk⟩ := List.getElem?_of_mem hins
  have hok := ops_from_get _ _ _ ops _ k _ hops hk
  cases ins with
  | INSERT bytes => exact Or.inl ⟨bytes, rfl⟩
  | COPY_FROM_SOURCE off len =>
    obtain ⟨h4, _, hsrc, _⟩ := hok
    have hK : VD_KEY_SIZE = 4 := rfl
    rw [hK] at h4
    simp only [List.length_nil] at hsrc
    omega
  | COPY_FROM_TARGET off len => exact Or.inr ⟨off, len, rfl⟩

/-- C9 (empty target): when `target_len = 0` the emitted instruction list is
empty, for every source. -/
theorem C9_empty_target (source : List Nat) :
    svn_txdelta__vdelta [] source source.length 0 = .ok [] := by
  obtain ⟨t1, hrun⟩ :=
    short_target_run get_bucket get_bucket_fn_ok [] source source.length 0 rfl (by decide)
  rw [svn_txdelta__vdelta_of_run _ _ _ _ _ _ hrun]
  simp only [Nat.lt_irrefl, if_false]

/-- C10 (short target): for every source and every target of length 1, 2 or 3
the emitted list is exactly one `INSERT` carrying the whole target. -/
theorem C10_short_target (source target : List Nat) (h1 : 1 ≤ target.length)
    (h3 : target.length ≤ 3) :
    svn_txdelta__vdelta [] (source ++ target) source.length target.length =
      .ok [instruction.INSERT target] := by
  obtain ⟨t1, hrun⟩ :=
    short_target_run get_bucket get_bucket_fn_ok [] (source ++ target) source.length
      target.length (List.length_append source target)
      (by have hK : VD_KEY_SIZE = 4 := rfl; rw [hK]; omega)
  have hpos : 0 < target.length := h1
  rw [svn_txdelta__vdelta_of_run _ _ _ _ _ _ hrun]
  simp only [if_pos hpos, List.nil_append, List.drop_left, List.take_length]

/-- C10 (witness): source empty, target `abc`. -/
theorem C10_short_target_witness :
    svn_txdelta__vdelta [] ([] ++ [97, 98, 99]) ([] : List Nat).length [97, 98, 99].length =
      .ok [instruction.INSERT [97, 98, 99]] :=
  C10_short_target [] [97, 98, 99] (by decide) (by decide)

/-! ## Frame and shape of the emitted list -/

theorem vdelta_loop_silent (gb : hash_table_t → List Nat → Nat → Except vd_error Nat)
    (data : List Nat) (start end_ : Nat) :
    ∀ (fuel : Nat) (window : List instruction) (table : hash_table_t) (here : Nat)
      (insert_from : Option Nat) (w1 : List instruction) (t1 : hash_table_t),
      vdelta_loop gb data start end_ false fuel window table here insert_from = .ok (w1, t1) →
      w1 = window := by
  intro fuel
  induction fuel with
  | zero =>
    intro window table here insert_from w1 t1 h
    simp only [vdelta_loop] at h
    cases h
  | succ fuel ih =>
    intro window table here insert_from w1 t1 h
    by_cases hnear : end_ - here < VD_KEY_SIZE
    · rw [vdelta_loop_near gb data start end_ false fuel window table here insert_from hnear] at h
      simp only [Bool.false_eq_true, false_and, if_false, Except.ok.injEq, Prod.mk.injEq] at h
      exact h.1.symm
    · cases hs : search_loop gb data table start end_ here (end_ - here) here
          { current_match := none, current_match_len := 0, progress := false } with
      | error e =>
        simp only [vdelta_loop, if_neg hnear, hs] at h
        cases h
      | ok st =>
        by_cases hmiss : st.current_match_len < VD_KEY_SIZE
        · cases hst : store_mapping_with gb table data here here with
          | error e =>
            simp only [vdelta_loop, if_neg hnear, hs, if_pos hmiss, hst] at h
            cases h
          | ok table1 =>
            rw [vdelta_loop_miss gb data start end_ false fuel window table table1 here
              insert_from st hnear hs hmiss hst] at h
            exact ih _ _ _ _ _ _ h
        · cases hm : st.current_match with
          | none =>
            simp only [vdelta_loop, if_neg hnear, hs, if_neg hmiss, hm] at h
            cases h
          | some m =>
            cases hst : store_last_three gb table data end_ (here + st.current_match_len) with
            | error e =>
              simp only [vdelta_loop, if_neg hnear, hs, if_neg hmiss, hm, hst] at h
              cases h
            | ok table1 =>
              rw [vdelta_loop_match gb data start end_ false fuel window table table1 here
                insert_from st m hnear hs hmiss hm hst] at h
              simp only [Bool.false_eq_true, if_false] at h
              exact ih _ _ _ _ _ _ h

theorem emit_copy_shape (window : List instruction) (data : List Nat) (start here : Nat)
    (insert_from : Option Nat) (m len : Nat) :
    ∃ pre copy, emit_copy window data start here insert_from m len = window ++ pre ∧
      copy.is_insert = false ∧ (pre = [copy] ∨ ∃ bytes, pre = [instruction.INSERT bytes, copy]) := by
  cases insert_from with
  | none =>
    by_cases hsrc : m < start
    · exact ⟨[instruction.COPY_FROM_SOURCE m len], instruction.COPY_FROM_SOURCE m len,
        by simp only [emit_copy, svn_txdelta__insert_op, if_pos hsrc], rfl, Or.inl rfl⟩
    · exact ⟨[instruction.COPY_FROM_TARGET (m - start) len],
        instruction.COPY_FROM_TARGET (m - start) len,
        by simp only [emit_copy, svn_txdelta__insert_op, if_neg hsrc], rfl, Or.inl rfl⟩
  | some f =>
    by_cases hsrc : m < start
    · exact ⟨[instruction.INSERT ((data.drop f).take (here - f)),
          instruction.COPY_FROM_SOURCE m len], instruction.COPY_FROM_SOURCE m len,
        by simp [emit_copy, svn_txdelta__insert_op, if_pos hsrc], rfl, Or.inr ⟨_, rfl⟩⟩
    · exact ⟨[instruction.INSERT ((data.drop f).take (here - f)),
          instruction.COPY_FROM_TARGET (m - start) len],
        instruction.COPY_FROM_TARGET (m - start) len,
        by simp [emit_copy, svn_txdelta__insert_op, if_neg hsrc], rfl, Or.inr ⟨_, rfl⟩⟩

theorem no_adjacent_inserts_copy (copy : instruction) (ops : List instruction)
    (hc : copy.is_insert = false) (h : no_adjacent_inserts ops) :
    no_adjacent_inserts (copy :: ops) := by
  cases ops with
  | nil => trivial
  | cons b ops => exact ⟨fun hab => by rw [hc] at hab; exact absurd hab.1 (by decide), h⟩

theorem vdelta_loop_coalesced (gb : hash_table_t → List Nat → Nat → Except vd_error Nat)
    (data : List Nat) (start end_ : Nat) (outputflag : Bool) :
    ∀ (fuel : Nat) (window : List instruction) (table : hash_table_t) (here : Nat)
      (insert_from : Option Nat) (w1 : List instruction) (t1 : hash_table_t),
      vdelta_loop gb data start end_ outputflag fuel window table here insert_from =
        .ok (w1, t1) →
      ∃ ops, w1 = window ++ ops ∧ no_adjacent_inserts ops := by
  intro fuel
  induction fuel with
  | zero =>
    intro window table here insert_from w1 t1 h
    simp only [vdelta_loop] at h
    cases h
  | succ fuel ih =>
    intro window table here insert_from w1 t1 h
    by_cases hnear : end_ - here < VD_KEY_SIZE
    · rw [vdelta_loop_near gb data start end_ outputflag fuel window table here insert_from
        hnear] at h
      simp only [Except.ok.injEq, Prod.mk.injEq] at h
      split_ifs at h
      · exact ⟨_, h.1.symm, trivial⟩
      · exact ⟨[], by rw [List.append_nil]; exact h.1.symm, trivial⟩
    · cases hs : search_loop gb data table start end_ here (end_ - here) here
          { current_match := none, current_match_len := 0, progress := false } with
      | error e =>
        simp only [vdelta_loop, if_neg hnear, hs] at h
        cases h
      | ok st =>
        by_cases hmiss : st.current_match_len < VD_KEY_SIZE
        · cases hst : store_mapping_with gb table data here here with
          | error e =>
            simp only [vdelta_loop, if_neg hnear, hs, if_pos hmiss, hst] at h
            cases h
          | ok table1 =>
            rw [vdelta_loop_miss gb data start end_ outputflag fuel window table table1 here
              insert_from st hnear hs hmiss hst] at h
            exact ih _ _ _ _ _ _ h
        · cases hm : st.current_match with
          | none =>
            simp only [vdelta_loop, if_neg hnear, hs, if_neg hmiss, hm] at h
            cases h
          | some m =>
            cases hst : store_last_three gb table data end_ (here + st.current_match_len) with
            | error e =>
              simp only [vdelta_loop, if_neg hnear, hs, if_neg hmiss, hm, hst] at h
              cases h
            | ok table1 =>
              rw [vdelta_loop_match gb data start end_ outputflag fuel window table table1 here
                insert_from st m hnear hs hmiss hm hst] at h
              cases outputflag with
              | false =>
                simp only [Bool.false_eq_true, if_false] at h
                exact ih _ _ _ _ _ _ h
              | true =>
                simp only [if_true] at h
                obtain ⟨pre, copy, hpre, hcopy, hshape⟩ :=
                  emit_copy_shape window data start here insert_from m st.current_match_len
                rw [hpre] at h
                obtain ⟨ops, hw, hops⟩ := ih _ _ _ _ _ _ h
                refine ⟨pre ++ ops, by rw [hw, List.append_assoc], ?_⟩
                rcases hshape with hp | ⟨bytes, hp⟩
                · rw [hp]
                  exact no_adjacent_inserts_copy copy ops hcopy hops
                · rw [hp]
                  refine ⟨fun hab => ?_, no_adjacent_inserts_copy copy ops hcopy hops⟩
                  rw [hcopy] at hab
                  exact absurd hab.2 (by decide)

theorem no_adjacent_inserts_get :
    ∀ (ops : List instruction) (k : Nat) (a b : instruction), no_adjacent_inserts ops →
      ops[k]? = some a → ops[k + 1]? = some b → ¬ (a.is_insert = true ∧ b.is_insert = true) := by
  intro ops
  induction ops with
  | nil => intro k a b _ ha; simp at ha
  | cons x ops ih =>
    intro k a b h ha hb
    cases ops with
    | nil => simp at hb
    | cons y ops =>
      cases k with
      | zero =>
        simp only [List.getElem?_cons_zero, Option.some.injEq, Nat.zero_add,
          List.getElem?_cons_succ] at ha hb
        subst ha
        subst hb
        exact h.1
      | succ k =>
        simp only [List.getElem?_cons_succ] at ha hb
        exact ih k a b h.2 ha (by simpa using hb)

theorem byte_at_eq_iff (data : List Nat) (a b : Nat) (ha : a < data.length)
    (hb : b < data.length) : byte_at data a = byte_at data b ↔ data[a]? = data[b]? := by
  simp [byte_at, List.getD, List.getElem?_eq_getElem ha, List.getElem?_eq_getElem hb]

/-! ## Rounds of the outer loop -/

theorem vdelta_loop_round (gb : hash_table_t → List Nat → Nat → Except vd_error Nat)
    (data : List Nat) (start end_ : Nat) (outputflag : Bool) (fuel : Nat) (s : vd_state) :
    vdelta_loop gb data start end_ outputflag (fuel + 1) s.window s.table s.here s.insert_from =
      match vdelta_round gb data start end_ outputflag s with
      | .error e => .error e
      | .ok (.done w1 t1) => .ok (w1, t1)
      | .ok (.again s1) =>
        vdelta_loop gb data start end_ outputflag fuel s1.window s1.table s1.here
          s1.insert_from := by
  by_cases hnear : end_ - s.here < VD_KEY_SIZE
  · simp only [vdelta_loop, vdelta_round, if_pos hnear]
    split_ifs <;> rfl
  · simp only [vdelta_loop, vdelta_round, if_neg hnear, no_match]
    cases hs : search_loop gb data s.table start end_ s.here (end_ - s.here) s.here
        { current_match := none, current_match_len := 0, progress := false } with
    | error e => rfl
    | ok st =>
      simp only
      by_cases hmiss : st.current_match_len < VD_KEY_SIZE
      · simp only [if_pos hmiss]
        cases hst : store_mapping_with gb s.table data s.here s.here with
        | error e => rfl
        | ok table1 => rfl
      · simp only [if_neg hmiss]
        cases hm : st.current_match with
        | none => rfl
        | some m =>
          simp only
          cases hst : store_last_three gb s.table data end_ (s.here + st.current_match_len) with
          | error e => rfl
          | ok table1 => rfl

/-! ## The table as the list of indexed offsets -/

theorem chain_of_bucket_lt {t : hash_table_t} {b : Nat} {l : List Nat}
    (hlen : t.buckets.length = t.num_buckets) (h : chain_of t b l) : b < t.num_buckets := by
  obtain ⟨head, hh, _⟩ := h
  have := (List.getElem?_eq_some.mp hh).1
  rw [hlen] at this
  exact this

theorem chain_of_unique {t : hash_table_t} {b : Nat} {l l1 : List Nat}
    (h : chain_of t b l) (h1 : chain_of t b l1) : l = l1 := by
  obtain ⟨head, hh, hc⟩ := h
  obtain ⟨head1, hh1, hc1⟩ := h1
  rw [hh] at hh1
  cases hh1
  exact hc.unique hc1

theorem create_hash_table_repr (gb : hash_table_t → List Nat → Nat → Except vd_error Nat)
    (data : List Nat) (n : Nat) : TableRepr gb (create_hash_table n) data [] := by
  refine ⟨or_one_pos (n / 3), by simp [create_hash_table], ?_, ?_, List.nodup_nil,
    fun i hi => absurd hi (List.not_mem_nil i)⟩
  · intro b hb
    refine ⟨none, ?_, IsChain.nil⟩
    simp only [create_hash_table] at hb ⊢
    exact List.getElem?_replicate_of_lt hb
  · intro i _ hi
    simp only [create_hash_table, List.length_replicate] at hi ⊢
    exact List.getElem?_replicate_of_lt hi

theorem store_mapping_repr (gb : hash_table_t → List Nat → Nat → Except vd_error Nat)
    (hgb : bucket_fn_ok gb) (t : hash_table_t) (data : List Nat) (log : List Nat) (idx : Nat)
    (hr : TableRepr gb t data log) (hnew : idx ∉ log) (hlt : idx < t.slots.length)
    (hk : idx + VD_KEY_SIZE ≤ data.length) :
    ∃ t1, store_mapping_with gb t data idx idx = .ok t1 ∧
      TableRepr gb t1 data (idx :: log) ∧ t1.num_buckets = t.num_buckets ∧
      t1.slots.length = t.slots.length := by
  obtain ⟨b, hb, hblt⟩ := hgb.in_range t data idx hr.nb_pos hk
  have hslot : t.slots[idx]? = some { next := none } := hr.fresh idx hnew hlt
  have hblen : b < t.buckets.length := by rw [hr.buckets_len]; exact hblt
  obtain ⟨head, hhead, hchain⟩ := hr.chains b hblt
  have hsame : ∀ j : Nat,
      gb { t with slots := t.slots.set idx { next := head },
                  buckets := t.buckets.set b (some idx) } data j = gb t data j :=
    fun j => hgb.table_indep _ t data j rfl
  refine ⟨{ t with slots := t.slots.set idx { next := head },
                   buckets := t.buckets.set b (some idx) }, ?_, ?_, rfl, ?_⟩
  · simp [store_mapping_with, hb, hslot, hhead]
  · refine ⟨hr.nb_pos, ?_, ?_, ?_, List.nodup_cons.mpr ⟨hnew, hr.nodup⟩, ?_⟩
    · simp only [List.length_set]; exact hr.buckets_len
    · intro b1 hb1
      simp only [hsame]
      obtain ⟨head1, hhead1, hchain1⟩ := hr.chains b1 hb1
      have hidx1 : idx ∉ log.filter (fun i => decide (gb t data i = .ok b1)) :=
        fun hmem => hnew (List.mem_filter.mp hmem).1
      by_cases hbb : b1 = b
      · subst hbb
        rw [List.filter_cons_of_pos (by simp [hb])]
        rw [hhead] at hhead1
        cases hhead1
        refine ⟨some idx, List.getElem?_set_self hblen, ?_⟩
        refine IsChain.cons idx { next := head } _ (List.getElem?_set_self hlt) ?_
        exact hchain1.set_other idx _ hidx1
      · rw [List.filter_cons_of_neg (by
          simp only [hb, decide_eq_true_eq, Except.ok.injEq]
          exact fun h => hbb h.symm)]
        refine ⟨head1, ?_, hchain1.set_other idx _ hidx1⟩
        simp only
        rw [List.getElem?_set_ne (Ne.symm hbb)]
        exact hhead1
    · intro i hi hilt
      have hne : i ≠ idx := fun h => hi (by rw [h]; exact List.mem_cons_self idx log)
      simp only [List.length_set] at hilt ⊢
      rw [List.getElem?_set_ne (Ne.symm hne)]
      exact hr.fresh i (fun h => hi (List.mem_cons_of_mem _ h)) hilt
    · intro i hi
      simp only [List.length_set]
      rcases List.mem_cons.mp hi with h | h
      · rw [h]; exact ⟨hlt, hk⟩
      · exact hr.in_range i h
  · simp only [List.length_set]

theorem store_all_repr (gb : hash_table_t → List Nat → Nat → Except vd_error Nat)
    (hgb : bucket_fn_ok gb) (data : List Nat) :
    ∀ (offsets : List Nat) (t : hash_table_t) (log : List Nat), TableRepr gb t data log →
      (offsets ++ log).Nodup →
      (∀ i ∈ offsets, i < t.slots.length ∧ i + VD_KEY_SIZE ≤ data.length) →
      ∃ t1, store_all gb t data offsets = .ok t1 ∧
        TableRepr gb t1 data (offsets.reverse ++ log) ∧ t1.num_buckets = t.num_buckets ∧
        t1.slots.length = t.slots.length := by
  intro offsets
  induction offsets with
  | nil => intro t log hr _ _; exact ⟨t, rfl, by simpa using hr, rfl, rfl⟩
  | cons i offsets ih =>
    intro t log hr hnd hin
    have hnd1 : i ∉ offsets ++ log ∧ (offsets ++ log).Nodup := List.nodup_cons.mp hnd
    have hi : i ∉ log := fun h => hnd1.1 (List.mem_append_right _ h)
    obtain ⟨t1, hs1, hr1, hnb1, hsl1⟩ :=
      store_mapping_repr gb hgb t data log i hr hi (hin i (List.mem_cons_self i offsets)).1
        (hin i (List.mem_cons_self i offsets)).2
    have hnd3 := List.nodup_append.mp hnd1.2
    have hnd2 : (offsets ++ i :: log).Nodup := by
      refine List.nodup_append.mpr ⟨hnd3.1, List.nodup_cons.mpr ⟨hi, hnd3.2.1⟩, ?_⟩
      intro a ha hb
      rcases List.mem_cons.mp hb with h | h
      · exact hnd1.1 (by rw [← h]; exact List.mem_append_left _ ha)
      · exact hnd3.2.2 ha h
    obtain ⟨t2, hs2, hr2, hnb2, hsl2⟩ := ih t1 (i :: log) hr1 hnd2 (fun j hj => by
      rw [hsl1]
      exact hin j (List.mem_cons_of_mem _ hj))
    refine ⟨t2, by simp only [store_all, hs1, hs2], ?_, hnb2.trans hnb1, hsl2.trans hsl1⟩
    simpa using hr2

theorem store_last_three_eq (gb : hash_table_t → List Nat → Nat → Except vd_error Nat)
    (t : hash_table_t) (data : List Nat) (end_ here : Nat) (h3 : 3 ≤ here) :
    store_last_three gb t data end_ here =
      if end_ - here ≥ VD_KEY_SIZE then store_all gb t data [here - 3, here - 2, here - 1]
      else .ok t := by
  have e1 : here - 3 + 1 = here - 2 := by omega
  have e2 : here - 3 + 2 = here - 1 := by omega
  have hK : VD_KEY_SIZE = 4 := rfl
  unfold store_last_three
  split_ifs
  · simp only [hK, Nat.add_one_sub_one, e1, e2, store_all]
    cases store_mapping_with gb t data (here - 3) (here - 3) with
    | error e => rfl
    | ok t1 =>
      simp only
      cases store_mapping_with gb t1 data (here - 2) (here - 2) with
      | error e => rfl
      | ok t2 =>
        simp only
        cases store_mapping_with gb t2 data (here - 1) (here - 1) <;> rfl
  · rfl

theorem store_last_three_repr (gb : hash_table_t → List Nat → Nat → Except vd_error Nat)
    (hgb : bucket_fn_ok gb) (t : hash_table_t) (data : List Nat) (log : List Nat)
    (end_ here bound : Nat) (hr : TableRepr gb t data log) (hbelow : ∀ i ∈ log, i < bound)
    (h3 : bound + 3 ≤ here) (hend : end_ ≤ data.length) (hsl : t.slots.length = data.length) :
    ∃ t1, store_last_three gb t data end_ here = .ok t1 ∧
      TableRepr gb t1 data
        (if end_ - here ≥ VD_KEY_SIZE then [here - 1, here - 2, here - 3] ++ log else log) ∧
      t1.slots.length = t.slots.length := by
  have hK : VD_KEY_SIZE = 4 := rfl
  rw [store_last_three_eq gb t data end_ here (by omega)]
  by_cases hk : end_ - here ≥ VD_KEY_SIZE
  · rw [if_pos hk, if_pos hk]
    rw [hK] at hk
    obtain ⟨t1, hs, hr1, _, hsl1⟩ :=
      store_all_repr gb hgb data [here - 3, here - 2, here - 1] t log hr
        (by
          have hnotin : ∀ j, bound ≤ j → j ∉ log := fun j hj hmem => by
            have := hbelow j hmem
            omega
          simp only [List.cons_append, List.nil_append, List.nodup_cons, List.mem_cons, not_or]
          refine ⟨⟨by omega, by omega, hnotin _ (by omega)⟩, ⟨by omega, hnotin _ (by omega)⟩,
            hnotin _ (by omega), hr.nodup⟩)
        (by
          intro i hi
          simp only [List.mem_cons, List.mem_singleton, List.not_mem_nil, or_false] at hi
          rw [hsl, hK]
          omega)
    exact ⟨t1, hs, by simpa using hr1, hsl1⟩
  · rw [if_neg hk, if_neg hk]
    exact ⟨t, rfl, hr, rfl⟩

theorem PassInv.table_inv {gb : hash_table_t → List Nat → Nat → Except vd_error Nat}
    {data : List Nat} {start end_ : Nat} {s : vd_state} {log : List Nat}
    (h : PassInv gb data start end_ s log) : TableInv s.table data.length s.here := by
  refine ⟨h.repr.nb_pos, h.repr.buckets_len, h.slots_len, ?_, ?_⟩
  · intro b hb
    exact ⟨_, h.repr.chains b hb, h.sorted.filter _,
      fun i hi => h.below i (List.mem_filter.mp hi).1⟩
  · intro i hi hn
    apply h.repr.fresh i
    · intro hmem
      have := h.below i hmem
      omega
    · rw [h.slots_len]; exact hn

theorem round_spec (gb : hash_table_t → List Nat → Nat → Except vd_error Nat)
    (hgb : bucket_fn_ok gb) (data : List Nat) (start end_ : Nat) (outputflag : Bool)
    (s : vd_state) (log : List Nat) (hinv : PassInv gb data start end_ s log) :
    ∃ r, vdelta_round gb data start end_ outputflag s = .ok r ∧
      round_outcome gb data start end_ outputflag s log r := by
  have hK : VD_KEY_SIZE = 4 := rfl
  by_cases hnear : end_ - s.here < VD_KEY_SIZE
  · refine ⟨_, ?_, round_outcome.near hnear⟩
    cases hi : s.insert_from <;>
      simp only [vdelta_round, if_pos hnear, svn_txdelta__insert_op, Option.getD, hi] <;>
      split_ifs <;> rfl
  · have hroom : VD_KEY_SIZE ≤ end_ - s.here := Nat.le_of_not_lt hnear
    have hhere := hinv.here_le
    have hend := hinv.end_le
    rw [hK] at hroom
    obtain ⟨st, hsearch, hok⟩ :=
      search_loop_spec gb hgb data s.table start end_ s.here hinv.table_inv hend
        (end_ - s.here) s.here no_match (le_refl _) (by rw [hK]; omega) (by simp [no_match])
        (by simp [no_match]) (initial_match_state_ok data start end_ s.here)
    by_cases hmiss : st.current_match_len < VD_KEY_SIZE
    · obtain ⟨t1, hstore, hr1, _, hsl1⟩ :=
        store_mapping_repr gb hgb s.table data log s.here hinv.repr
          (fun hmem => Nat.lt_irrefl _ (hinv.below _ hmem))
          (by rw [hinv.slots_len]; omega) (by rw [hK]; omega)
      have hnext : PassInv gb data start end_
          { window := s.window, table := t1, here := s.here + 1,
            insert_from := some (s.insert_from.getD s.here) } (s.here :: log) := by
        refine ⟨by simp only; have := hinv.start_le; omega, by simp only; omega, hend, ?_,
          hsl1.trans hinv.slots_len, hr1,
          List.pairwise_cons.mpr ⟨fun a ha => hinv.below a ha, hinv.sorted⟩, ?_⟩
        · intro f hf
          have hf1 : s.insert_from.getD s.here = f := Option.some.inj hf
          show start ≤ f ∧ f < s.here + 1
          cases hi : s.insert_from with
          | none =>
            rw [hi] at hf1
            simp only [Option.getD] at hf1
            have := hinv.start_le
            omega
          | some g =>
            rw [hi] at hf1
            simp only [Option.getD] at hf1
            have := hinv.pending g hi
            omega
        · intro i hi
          simp only
          rcases List.mem_cons.mp hi with h | h
          · omega
          · have := hinv.below i h
            omega
      refine ⟨_, ?_, round_outcome.miss st t1 (by rw [hK]; exact hroom) hsearch hok hmiss
        hstore hnext⟩
      cases hi : s.insert_from <;>
        simp only [vdelta_round, if_neg hnear, hsearch, if_pos hmiss, hstore, Option.getD, hi]
    · have hlen4 : VD_KEY_SIZE ≤ st.current_match_len := Nat.le_of_not_lt hmiss
      obtain ⟨m, hm, hmlt, _, _⟩ := hok.2 hlen4
      have hfit := hok.1
      rw [hK] at hlen4
      obtain ⟨t1, hstore, hr1, hsl1⟩ :=
        store_last_three_repr gb hgb s.table data log end_ (s.here + st.current_match_len)
          s.here hinv.repr hinv.below (by omega) hend hinv.slots_len
      have hnext : PassInv gb data start end_
          { window :=
              if outputflag = true then
                emit_copy s.window data start s.here s.insert_from m st.current_match_len
              else s.window
            table := t1
            here := s.here + st.current_match_len
            insert_from := if outputflag = true then none else s.insert_from }
          (if end_ - (s.here + st.current_match_len) ≥ VD_KEY_SIZE then
            [s.here + st.current_match_len - 1, s.here + st.current_match_len - 2,
              s.here + st.current_match_len - 3] ++ log
          else log) := by
        refine ⟨by simp only; have := hinv.start_le; omega, by simp only; omega, hend, ?_,
          hsl1.trans hinv.slots_len, hr1, ?_, ?_⟩
        · intro f hf
          simp only at hf ⊢
          cases outputflag with
          | true => simp at hf
          | false =>
            simp only [Bool.false_eq_true, if_false] at hf
            have := hinv.pending f hf
            omega
        · split_ifs
          · have hb := hinv.below
            simp only [List.cons_append, List.nil_append, List.pairwise_cons, List.mem_cons]
            refine ⟨?_, ?_, ?_, hinv.sorted⟩
            · intro a ha
              rcases ha with h | h | h
              · omega
              · omega
              · have := hb a h
                omega
            · intro a ha
              rcases ha with h | h
              · omega
              · have := hb a h
                omega
            · intro a ha
              have := hb a ha
              omega
          · exact hinv.sorted
        · intro i hi
          simp only
          split_ifs at hi
          · simp only [List.cons_append, List.nil_append, List.mem_cons] at hi
            rcases hi with h | h | h | h
            · omega
            · omega
            · omega
            · have := hinv.below i h
              omega
          · have := hinv.below i hi
            omega
      refine ⟨_, ?_, round_outcome.hit st m t1 _ (by rw [hK]; exact hroom) hsearch hok
        (by rw [hK]; exact hlen4) hm hstore rfl hnext⟩
      simp only [vdelta_round, if_neg hnear, hsearch, if_neg hmiss, hm, hstore]

/-! ## Every state of a run -/

theorem store_all_append (gb : hash_table_t → List Nat → Nat → Except vd_error Nat)
    (data : List Nat) :
    ∀ (a b : List Nat) (t t1 : hash_table_t), store_all gb t data a = .ok t1 →
      store_all gb t data (a ++ b) = store_all gb t1 data b := by
  intro a
  induction a with
  | nil => intro b t t1 h; cases h; rfl
  | cons i a ih =>
    intro b t t1 h
    simp only [store_all, List.cons_append] at h ⊢
    cases hs : store_mapping_with gb t data i i with
    | error e => rw [hs] at h; cases h
    | ok t2 =>
      rw [hs] at h
      simp only at h ⊢
      exact ih b t2 t1 h

theorem round_outcome_replay (gb : hash_table_t → List Nat → Nat → Except vd_error Nat)
    (data : List Nat) (start end_ : Nat) (outputflag : Bool) (s s1 : vd_state) (log : List Nat)
    (hrep : Replay gb data s.table log)
    (h : round_outcome gb data start end_ outputflag s log (.again s1)) :
    ∃ log1 new, PassInv gb data start end_ s1 log1 ∧ Replay gb data s1.table log1 ∧
      log1 = new ++ log ∧ s.here < s1.here ∧
      (s1.here = s.here + 1 ∨ s.here + VD_KEY_SIZE ≤ s1.here) := by
  have hK : VD_KEY_SIZE = 4 := rfl
  cases h with
  | miss st t1 hroom hsearch hok hmiss hstore hnext =>
    refine ⟨s.here :: log, [s.here], hnext, ?_, rfl, Nat.lt_succ_self _, Or.inl rfl⟩
    show store_all gb _ data (s.here :: log).reverse = .ok t1
    rw [List.reverse_cons, store_all_append gb data _ _ _ _ hrep]
    simp only [store_all, hstore]
  | hit st m t1 log1 hroom hsearch hok hlen4 hm hstore hlog hnext =>
    rw [hK] at hlen4
    refine ⟨log1, if end_ - (s.here + st.current_match_len) ≥ VD_KEY_SIZE then
        [s.here + st.current_match_len - 1, s.here + st.current_match_len - 2,
          s.here + st.current_match_len - 3] else [], hnext, ?_, ?_, ?_, ?_⟩
    · show store_all gb _ data log1.reverse = .ok t1
      rw [store_last_three_eq gb s.table data end_ _ (by omega)] at hstore
      rw [hlog]
      split_ifs at hstore ⊢ with hk
      · rw [List.reverse_append, store_all_append gb data _ _ _ _ hrep]
        exact hstore
      · cases hstore
        exact hrep
    · rw [hlog]
      split_ifs <;> rfl
    · show s.here < s.here + st.current_match_len
      omega
    · right
      show s.here + VD_KEY_SIZE ≤ s.here + st.current_match_len
      rw [hK]
      omega

theorem pass_reach_inv (gb : hash_table_t → List Nat → Nat → Except vd_error Nat)
    (hgb : bucket_fn_ok gb) (data : List Nat) (start end_ : Nat) (outputflag : Bool)
    (s s1 : vd_state) (log : List Nat) (hinv : PassInv gb data start end_ s log)
    (hrep : Replay gb data s.table log)
    (h : pass_reach gb data start end_ outputflag s s1) :
    ∃ log1, PassInv gb data start end_ s1 log1 ∧ Replay gb data s1.table log1 := by
  induction h with
  | refl => exact ⟨log, hinv, hrep⟩
  | step s1 s2 _ hround ih =>
    obtain ⟨log1, hinv1, hrep1⟩ := ih
    obtain ⟨r, hr, hout⟩ := round_spec gb hgb data start end_ outputflag s1 log1 hinv1
    rw [hround] at hr
    cases hr
    obtain ⟨log2, _, hinv2, hrep2, _⟩ :=
      round_outcome_replay gb data start end_ outputflag s1 s2 log1 hrep1 hout
    exact ⟨log2, hinv2, hrep2⟩

theorem pass_reach_head (gb : hash_table_t → List Nat → Nat → Except vd_error Nat)
    (data : List Nat) (start end_ : Nat) (outputflag : Bool) (s s1 s2 : vd_state)
    (hround : vdelta_round gb data start end_ outputflag s = .ok (.again s1))
    (h : pass_reach gb data start end_ outputflag s1 s2) :
    pass_reach gb data start end_ outputflag s s2 := by
  induction h with
  | refl => exact pass_reach.step s s s1 (pass_reach.refl s) hround
  | step s2 s3 _ hr ih => exact pass_reach.step s s2 s3 ih hr

theorem vdelta_loop_reaches (gb : hash_table_t → List Nat → Nat → Except vd_error Nat)
    (hgb : bucket_fn_ok gb) (data : List Nat) (start end_ : Nat) (outputflag : Bool) :
    ∀ (fuel : Nat) (s : vd_state) (log : List Nat), PassInv gb data start end_ s log →
      Replay gb data s.table log → end_ - s.here < fuel →
      ∃ s1 log1 w1, pass_reach gb data start end_ outputflag s s1 ∧
        PassInv gb data start end_ s1 log1 ∧ Replay gb data s1.table log1 ∧
        vdelta_round gb data start end_ outputflag s1 = .ok (.done w1 s1.table) ∧
        vdelta_loop gb data start end_ outputflag fuel s.window s.table s.here s.insert_from =
          .ok (w1, s1.table) := by
  intro fuel
  induction fuel with
  | zero => intro s log _ _ hf; omega
  | succ fuel ih =>
    intro s log hinv hrep hfuel
    obtain ⟨r, hr, hout⟩ := round_spec gb hgb data start end_ outputflag s log hinv
    cases r with
    | done w1 t1 =>
      have ht : t1 = s.table := by cases hout; rfl
      subst ht
      refine ⟨s, log, w1, pass_reach.refl s, hinv, hrep, hr, ?_⟩
      rw [vdelta_loop_round, hr]
    | again s1 =>
      obtain ⟨log1, _, hinv1, hrep1, _, hlt, _⟩ :=
        round_outcome_replay gb data start end_ outputflag s s1 log hrep hout
      have hle1 := hinv1.here_le
      obtain ⟨s2, log2, w2, hreach, hinv2, hrep2, hdone, hrun⟩ :=
        ih s1 log1 hinv1 hrep1 (by omega)
      refine ⟨s2, log2, w2, pass_reach_head gb data start end_ outputflag s s1 s2 hr hreach,
        hinv2, hrep2, hdone, ?_⟩
      rw [vdelta_loop_round, hr]
      exact hrun

theorem first_pass_init (gb : hash_table_t → List Nat → Nat → Except vd_error Nat)
    (window : List instruction) (data : List Nat) (source_len : Nat)
    (hlen : source_len ≤ data.length) :
    PassInv gb data 0 source_len
        { window := window, table := create_hash_table data.length, here := 0,
          insert_from := none } [] ∧
      Replay gb data (create_hash_table data.length) [] := by
  refine ⟨⟨Nat.le_refl 0, Nat.zero_le _, hlen, ?_, ?_, create_hash_table_repr gb data data.length,
    List.Pairwise.nil, fun i hi => absurd hi (List.not_mem_nil i)⟩, rfl⟩
  · intro f hf
    cases hf
  · simp [create_hash_table]

theorem second_pass_init (gb : hash_table_t → List Nat → Nat → Except vd_error Nat)
    (hgb : bucket_fn_ok gb) (window : List instruction) (data : List Nat)
    (source_len target_len : Nat) (hlen : data.length = source_len + target_len) :
    ∃ t1 log, vdelta_with gb window data 0 source_len false
        (create_hash_table (source_len + target_len)) = .ok (window, t1) ∧
      PassInv gb data source_len (source_len + target_len)
        { window := window, table := t1, here := source_len, insert_from := none } log ∧
      Replay gb data t1 log := by
  obtain ⟨hinv0, hrep0⟩ := first_pass_init gb window data source_len (by omega)
  obtain ⟨s1, log1, w1, _, hinv1, hrep1, _, hrun⟩ :=
    vdelta_loop_reaches gb hgb data 0 source_len false (source_len - 0 + 1) _ [] hinv0 hrep0
      (Nat.lt_succ_self _)
  have hw : w1 = window :=
    vdelta_loop_silent gb data 0 source_len _ _ _ _ _ _ _ hrun
  subst hw
  refine ⟨s1.table, log1, ?_, ?_, hrep1⟩
  · rw [← hlen]
    exact hrun
  · refine ⟨Nat.le_refl _, Nat.le_add_right _ _, by omega, ?_,
      hinv1.slots_len, hinv1.repr, hinv1.sorted,
      fun i hi => Nat.lt_of_lt_of_le (hinv1.below i hi) hinv1.here_le⟩
    intro f hf
    cases hf

theorem in_pass_inv (gb : hash_table_t → List Nat → Nat → Except vd_error Nat)
    (hgb : bucket_fn_ok gb) (window : List instruction) (data : List Nat)
    (source_len target_len : Nat) (hlen : data.length = source_len + target_len)
    (start end_ : Nat) (outputflag : Bool) (s : vd_state)
    (h : in_pass gb window data source_len target_len start end_ outputflag s) :
    ∃ log, PassInv gb data start end_ s log ∧ Replay gb data s.table log := by
  rcases h with ⟨hs, he, hf, hreach⟩ | ⟨hs, he, hf, w1, t1, hrun, hreach⟩
  · rw [hs, he]
    obtain ⟨hinv0, hrep0⟩ := first_pass_init gb window data source_len (by omega)
    rw [hlen] at hinv0 hrep0
    exact pass_reach_inv gb hgb data 0 source_len false _ s [] hinv0 hrep0 hreach
  · rw [hs, he]
    obtain ⟨t2, log, hrun2, hinv, hrep⟩ :=
      second_pass_init gb hgb window data source_len target_len hlen
    rw [hrun] at hrun2
    cases hrun2
    exact pass_reach_inv gb hgb data source_len (source_len + target_len) true _ s log hinv
      hrep hreach

/-! ## Walking a chain -/

theorem chain_walk_loop_eq {slots : List hash_slot_t} {head : Option Nat} {l : List Nat}
    (h : IsChain slots head l) :
    ∀ (fuel : Nat), l.length ≤ fuel → chain_walk_loop slots fuel head = .ok l := by
  induction h with
  | nil => intro fuel _; cases fuel <;> rfl
  | cons i s l hs _ ih =>
    intro fuel hfuel
    cases fuel with
    | zero => simp at hfuel
    | succ fuel =>
      simp only [chain_walk_loop, hs, ih fuel (by simpa using hfuel)]

theorem nodup_length_le (l : List Nat) (n : Nat) (hnd : l.Nodup) (hlt : ∀ i ∈ l, i < n) :
    l.length ≤ n := by
  have hsub : l.toFinset ⊆ Finset.range n := by
    intro i hi
    exact Finset.mem_range.mpr (hlt i (List.mem_toFinset.mp hi))
  have hcard := Finset.card_le_card hsub
  rw [List.toFinset_card_of_nodup hnd, Finset.card_range] at hcard
  exact hcard

theorem chain_walk_eq (t : hash_table_t) (b : Nat) (l : List Nat) (h : chain_of t b l)
    (hlen : l.length ≤ t.slots.length) : chain_walk t b = .ok l := by
  obtain ⟨head, hh, hc⟩ := h
  simp only [chain_walk, hh, chain_walk_loop_eq hc _ hlen]

theorem TableRepr.chain_walk {gb : hash_table_t → List Nat → Nat → Except vd_error Nat}
    {t : hash_table_t} {data : List Nat} {log : List Nat} (h : TableRepr gb t data log)
    (b : Nat) (hb : b < t.num_buckets) :
    chain_walk t b = .ok (log.filter (fun i => decide (gb t data i = .ok b))) := by
  apply chain_walk_eq t b _ (h.chains b hb)
  apply nodup_length_le _ _ (h.nodup.filter _)
  intro i hi
  exact (h.in_range i (List.mem_filter.mp hi).1).1

theorem txdelta_run_shape (gb : hash_table_t → List Nat → Nat → Except vd_error Nat)
    (hgb : bucket_fn_ok gb) (window : List instruction) (data : List Nat)
    (source_len target_len : Nat) (hlen : data.length = source_len + target_len) :
    ∃ t2 ops, txdelta_run gb window data source_len target_len = .ok (window ++ ops, t2) ∧
      ops_from data source_len (source_len + target_len) source_len ops ∧
      no_adjacent_inserts ops := by
  obtain ⟨t1, hrun1, hinv1⟩ := first_pass_spec gb hgb window data source_len (by omega)
  obtain ⟨t2, ops, hrun2, _, _, _, hon⟩ :=
    vdelta_with_spec gb hgb window data source_len (source_len + target_len) true t1
      (Nat.le_add_right _ _) (by omega) hinv1
  obtain ⟨ops1, hw, hadj⟩ :=
    vdelta_loop_coalesced gb data source_len (source_len + target_len) true _ _ _ _ _ _ _ hrun2
  have hops : ops = ops1 := List.append_cancel_left hw
  refine ⟨t2, ops, ?_, hon rfl, by rw [hops]; exact hadj⟩
  simp only [txdelta_run]
  rw [← hlen, hrun1]
  simp only
  rw [hlen]
  exact hrun2

/-! ## The claims, continued -/

/-- C11 (insert coalescing): the emitted list never holds two adjacent
`INSERT` instructions, and every emitted `INSERT` carries at least one byte. -/
theorem C11_insert_coalescing (source target : List Nat) :
    ∃ ops, svn_txdelta__vdelta [] (source ++ target) source.length target.length = .ok ops ∧
      (∀ (k : Nat) (a b : instruction), ops[k]? = some a → ops[k + 1]? = some b →
        ¬ (a.is_insert = true ∧ b.is_insert = true)) ∧
      ∀ (k : Nat) (bytes : List Nat), ops[k]? = some (instruction.INSERT bytes) →
        0 < bytes.length := by
  obtain ⟨t2, ops, hrun, hops, hadj⟩ :=
    txdelta_run_shape get_bucket get_bucket_fn_ok [] (source ++ target) source.length
      target.length (List.length_append source target)
  refine ⟨ops, ?_, ?_, ?_⟩
  · rw [svn_txdelta__vdelta_of_run _ _ _ _ _ _ hrun, List.nil_append]
  · intro k a b ha hb
    exact no_adjacent_inserts_get ops k a b hadj ha hb
  · intro k bytes hk
    exact (ops_from_get _ _ _ ops _ k _ hops hk).1

/-- C13 (scenario 4): source `abcdefgh`, target `XXabcdefgh` give
`[INSERT("XX"), COPY_FROM_SOURCE(0, 8)]`. -/
theorem C13_scenario4 :
    svn_txdelta__vdelta []
        ([97, 98, 99, 100, 101, 102, 103, 104] ++
          [88, 88, 97, 98, 99, 100, 101, 102, 103, 104]) 8 10 =
      .ok [instruction.INSERT [88, 88], instruction.COPY_FROM_SOURCE 0 8] := by
  decide

/-- C14 (scenario 6): source `abcdefgh`, target `efghabcd` give
`[COPY_FROM_SOURCE(4, 4), COPY_FROM_SOURCE(0, 4)]`. -/
theorem C14_scenario6 :
    svn_txdelta__vdelta []
        ([97, 98, 99, 100, 101, 102, 103, 104] ++ [101, 102, 103, 104, 97, 98, 99, 100]) 8 8 =
      .ok [instruction.COPY_FROM_SOURCE 4 4, instruction.COPY_FROM_SOURCE 0 4] := by
  decide

/-- C15 (pass 1 is silent): a pass with `outputflag = FALSE` that returns leaves
the window as it was, for every buffer and every table; on every table that
satisfies the table invariant it does return, with the window unchanged; in
particular the first pass of `svn_txdelta__vdelta` does, and the result of
`svn_txdelta__vdelta` is the window of the second pass run on that window. -/
theorem C15_first_pass_silent :
    (∀ (window : List instruction) (data : List Nat) (start end_ : Nat)
        (table : hash_table_t) (w1 : List instruction) (t1 : hash_table_t),
        vdelta window data start end_ false table = .ok (w1, t1) → w1 = window) ∧
    (∀ (window : List instruction) (data : List Nat) (start end_ : Nat)
        (table : hash_table_t), start ≤ end_ → end_ ≤ data.length →
        TableInv table data.length start →
        ∃ t1, vdelta window data start end_ false table = .ok (window, t1)) ∧
    (∀ (window : List instruction) (source target : List Nat),
      ∃ t1, vdelta window (source ++ target) 0 source.length false
            (create_hash_table (source.length + target.length)) = .ok (window, t1) ∧
        svn_txdelta__vdelta window (source ++ target) source.length target.length =
          match vdelta window (source ++ target) source.length
              (source.length + target.length) true t1 with
          | .error e => .error e
          | .ok (w2, _) => .ok w2) := by
  refine ⟨?_, ?_, ?_⟩
  · intro window data start end_ table w1 t1 h
    exact vdelta_loop_silent get_bucket data start end_ _ _ _ _ _ _ _ h
  · intro window data start end_ table hse hend hinv
    obtain ⟨t1, ops, hrun, _, _, hoff, _⟩ :=
      vdelta_with_spec get_bucket get_bucket_fn_ok window data start end_ false table hse hend
        hinv
    rw [hoff rfl, List.append_nil] at hrun
    exact ⟨t1, hrun⟩
  · intro window source target
    obtain ⟨t1, hrun1, _⟩ :=
      first_pass_spec get_bucket get_bucket_fn_ok window (source ++ target) source.length
        (by simp)
    rw [List.length_append] at hrun1
    refine ⟨t1, hrun1, ?_⟩
    simp only [svn_txdelta__vdelta, vdelta, hrun1]

/-- C16 (termination): `svn_txdelta__vdelta` returns on every input (the fuel of
the loops is never exhausted).  At every state of either pass: `here` is at
most `end`; the round returns or moves `here` strictly forward, by one on a
miss and by the match length, at least 4, on a match, and not past `end`;
every walk of a bucket chain ends, and when it reports progress the match
length has strictly grown and is at most `end - here`; every chain is a finite
list without repetition. -/
theorem C16_termination :
    (∀ source target : List Nat,
      ∃ ops, svn_txdelta__vdelta [] (source ++ target) source.length target.length = .ok ops) ∧
    (∀ (source target : List Nat) (start end_ : Nat) (outputflag : Bool) (s : vd_state),
      in_pass get_bucket [] (source ++ target) source.length target.length start end_
        outputflag s →
      s.here ≤ end_ ∧
      (∃ r, vdelta_round get_bucket (source ++ target) start end_ outputflag s = .ok r ∧
        ∀ s1, r = .again s1 →
          ∃ st, search_loop get_bucket (source ++ target) s.table start end_ s.here
              (end_ - s.here) s.here no_match = .ok st ∧
            ((st.current_match_len < 4 ∧ s1.here = s.here + 1) ∨
              (4 ≤ st.current_match_len ∧ s1.here = s.here + st.current_match_len)) ∧
            s.here < s1.here ∧ s1.here ≤ end_) ∧
      (∀ (key : Nat) (st : match_state), s.here ≤ key → key + 4 ≤ end_ →
        MS_ok (source ++ target) start end_ s.here st →
        ∃ b head st1, get_bucket s.table (source ++ target) key = .ok b ∧
          s.table.buckets[b]? = some head ∧
          walk_chain (source ++ target) s.table start end_ s.here key s.table.slots.length head
            { st with progress := false } = .ok st1 ∧
          (st1.progress = true → st.current_match_len < st1.current_match_len) ∧
          st1.current_match_len ≤ end_ - s.here) ∧
      (∀ b, b < s.table.num_buckets → ∃ l, chain_walk s.table b = .ok l ∧ l.Nodup)) := by
  have hK : VD_KEY_SIZE = 4 := rfl
  refine ⟨fun source target => ?_, ?_⟩
  · obtain ⟨ops, hrun, _⟩ := svn_txdelta__vdelta_spec source target
    exact ⟨ops, hrun⟩
  · intro source target start end_ outputflag s hs
    obtain ⟨log, hinv, _⟩ :=
      in_pass_inv get_bucket get_bucket_fn_ok [] (source ++ target) source.length target.length
        (List.length_append source target) start end_ outputflag s hs
    refine ⟨hinv.here_le, ?_, ?_, ?_⟩
    · obtain ⟨r, hr, hout⟩ :=
        round_spec get_bucket get_bucket_fn_ok (source ++ target) start end_ outputflag s log hinv
      refine ⟨r, hr, ?_⟩
      intro s1 hs1
      subst hs1
      cases hout with
      | miss st t1 hroom hsearch hok hmiss hstore hnext =>
        exact ⟨st, hsearch, Or.inl ⟨hmiss, rfl⟩, Nat.lt_succ_self _, hnext.here_le⟩
      | hit st m t1 log1 hroom hsearch hok hlen4 hm hstore hlog hnext =>
        rw [hK] at hlen4
        refine ⟨st, hsearch, Or.inr ⟨hlen4, rfl⟩, ?_, hnext.here_le⟩
        show s.here < s.here + st.current_match_len
        omega
    · intro key st hkey hk4 hst
      have hend := hinv.end_le
      have hhere := hinv.here_le
      obtain ⟨b, head, l, hb, hhead, _, hlt, hwalk⟩ :=
        walk_bucket_eq get_bucket get_bucket_fn_ok (source ++ target) s.table start end_ s.here
          key s.here hinv.table_inv (by omega) (by rw [hK]; omega)
      obtain ⟨st1, h1, hok1, hstep1⟩ :=
        try_slots_spec (source ++ target) start end_ s.here key hend hhere l
          { st with progress := false } hlt hst
      refine ⟨b, head, st1, hb, hhead, by rw [hwalk, h1], ?_, hok1.1⟩
      intro hp
      rcases hstep1.2 hp with h | h
      · cases h
      · exact h.1
    · intro b hb
      exact ⟨_, hinv.repr.chain_walk b hb, hinv.repr.nodup.filter _⟩

/-- C17: the whole run returns without a failed assertion, and at every state
of either pass the table is what `store_mapping` calls on a strictly
increasing sequence of offsets (each offset at most once) have made of the
table of `create_hash_table`; each chain is free of repetition and holds only
logged offsets whose key hashes to its bucket, so an offset is in at most one
chain and at most once. -/
theorem C17_store_mapping_once (source target : List Nat) (start end_ : Nat)
    (outputflag : Bool) (s : vd_state)
    (hs : in_pass get_bucket [] (source ++ target) source.length target.length start end_
      outputflag s) :
    (∃ ops, svn_txdelta__vdelta [] (source ++ target) source.length target.length = .ok ops) ∧
    ∃ log : List Nat, log.Pairwise (fun x y => y < x) ∧
      store_all get_bucket (create_hash_table (source.length + target.length))
        (source ++ target) log.reverse = .ok s.table ∧
      (∀ b l, chain_of s.table b l →
        l.Nodup ∧ ∀ i ∈ l, i ∈ log ∧ get_bucket s.table (source ++ target) i = .ok b) ∧
      (∀ b b1 l l1 i, chain_of s.table b l → chain_of s.table b1 l1 → i ∈ l → i ∈ l1 →
        b = b1) := by
  obtain ⟨ops, hrun, _⟩ := svn_txdelta__vdelta_spec source target
  obtain ⟨log, hinv, hrep⟩ :=
    in_pass_inv get_bucket get_bucket_fn_ok [] (source ++ target) source.length target.length
      (List.length_append source target) start end_ outputflag s hs
  have hchain : ∀ b l, chain_of s.table b l →
      l.Nodup ∧ ∀ i ∈ l, i ∈ log ∧ get_bucket s.table (source ++ target) i = .ok b := by
    intro b l hl
    have hb := chain_of_bucket_lt hinv.repr.buckets_len hl
    have heq := chain_of_unique hl (hinv.repr.chains b hb)
    rw [heq]
    refine ⟨hinv.repr.nodup.filter _, ?_⟩
    intro i hi
    have := List.mem_filter.mp hi
    exact ⟨this.1, of_decide_eq_true this.2⟩
  refine ⟨⟨ops, hrun⟩, log, hinv.sorted, ?_, hchain, ?_⟩
  · have := hrep
    unfold Replay at this
    rw [List.length_append] at this
    exact this
  · intro b b1 l l1 i hl hl1 hi hi1
    have h1 := ((hchain b l hl).2 i hi).2
    have h2 := ((hchain b1 l1 hl1).2 i hi1).2
    rw [h1] at h2
    exact Except.ok.inj h2

/-- C17 (witness): the first state of the second pass for source `abcd`,
target `abcdabcd`, where offset 0 has been stored. -/
theorem C17_store_mapping_once_witness :
    (∃ ops, svn_txdelta__vdelta [] ([97, 98, 99, 100] ++ [97, 98, 99, 100, 97, 98, 99, 100])
        [97, 98, 99, 100].length [97, 98, 99, 100, 97, 98, 99, 100].length = .ok ops) ∧
    ∃ log : List Nat, log.Pairwise (fun x y => y < x) ∧
      store_all get_bucket
        (create_hash_table ([97, 98, 99, 100].length + [97, 98, 99, 100, 97, 98, 99, 100].length))
        ([97, 98, 99, 100] ++ [97, 98, 99, 100, 97, 98, 99, 100]) log.reverse = .ok abcd_table ∧
      (∀ b l, chain_of abcd_table b l →
        l.Nodup ∧ ∀ i ∈ l, i ∈ log ∧
          get_bucket abcd_table ([97, 98, 99, 100] ++ [97, 98, 99, 100, 97, 98, 99, 100]) i = .ok b) ∧
      (∀ b b1 l l1 i, chain_of abcd_table b l → chain_of abcd_table b1 l1 → i ∈ l → i ∈ l1 →
        b = b1) :=
  C17_store_mapping_once [97, 98, 99, 100] [97, 98, 99, 100, 97, 98, 99, 100] 4 12 true
    { window := [], table := abcd_table, here := 4, insert_from := none }
    (Or.inr ⟨rfl, rfl, rfl, [], abcd_table, by decide, pass_reach.refl _⟩)

/-- C18 (the table as a multimap): from the table of `create_hash_table(N)`,
`store_mapping` calls on pairwise distinct offsets, each below `N` and with its
four key bytes inside the buffer, all succeed, and walking the chain of any
bucket `b` then yields exactly the stored offsets whose key hashes to `b`, each
once, most recently stored first. -/
theorem C18_multimap (data : List Nat) (N : Nat) (offsets : List Nat) (hnd : offsets.Nodup)
    (hin : ∀ i ∈ offsets, i < N ∧ i + 4 ≤ data.length) :
    ∃ t, store_all get_bucket (create_hash_table N) data offsets = .ok t ∧
      ∀ b, b < t.num_buckets →
        chain_walk t b =
          .ok (offsets.reverse.filter (fun i => decide (get_bucket t data i = .ok b))) := by
  obtain ⟨t, hs, hr, _, _⟩ :=
    store_all_repr get_bucket get_bucket_fn_ok data offsets (create_hash_table N) []
      (create_hash_table_repr get_bucket data N) (by simpa using hnd)
      (by
        intro i hi
        simp only [create_hash_table, List.length_replicate]
        exact hin i hi)
  refine ⟨t, hs, ?_⟩
  intro b hb
  have := hr.chain_walk b hb
  simpa using this

/-- C18 (witness): offsets 4, 0, 1 stored in a buffer where the keys at 0 and
at 4 are equal. -/
theorem C18_multimap_witness :
    ∃ t, store_all get_bucket (create_hash_table 9) [1, 2, 3, 4, 1, 2, 3, 4, 5] [4, 0, 1] =
        .ok t ∧
      ∀ b, b < t.num_buckets →
        chain_walk t b =
          .ok (([4, 0, 1] : List Nat).reverse.filter
            (fun i => decide (get_bucket t [1, 2, 3, 4, 1, 2, 3, 4, 5] i = .ok b))) :=
  C18_multimap [1, 2, 3, 4, 1, 2, 3, 4, 5] 9 [4, 0, 1] (by decide) (by decide)

/-- C20: for `match < from <= end` inside the buffer, `find_match_len` returns
the largest `n <= end - from` such that the bytes at `match + i` and `from + i`
are equal for all `i < n`. -/
theorem C20_find_match_len (data : List Nat) (match_ from_ end_ : Nat) (hm : match_ < from_)
    (hfrom : from_ ≤ end_) (hend : end_ ≤ data.length) :
    ∃ r, find_match_len data match_ from_ end_ = .ok r ∧ r ≤ end_ - from_ ∧
      (∀ i, i < r → data[match_ + i]? = data[from_ + i]?) ∧
      ∀ n, n ≤ end_ - from_ → (∀ i, i < n → data[match_ + i]? = data[from_ + i]?) → n ≤ r := by
  obtain ⟨r, hr, hrle, hagree, hstop⟩ :=
    find_match_len_spec data match_ from_ end_ hend hfrom (Nat.le_of_lt hm)
  refine ⟨r, hr, hrle, ?_, ?_⟩
  · intro i hi
    exact (byte_at_eq_iff data _ _ (by omega) (by omega)).mp (hagree i hi)
  · intro n hn hall
    by_contra hlt
    have hrn : r < n := Nat.lt_of_not_le hlt
    have hne := hstop (by omega)
    exact hne ((byte_at_eq_iff data _ _ (by omega) (by omega)).mpr (hall r hrn))

/-- C20 (witness): in `ababc`, the match of offset 0 against offset 2 up to the
end has length 2. -/
theorem C20_find_match_len_witness :
    ∃ r, find_match_len [97, 98, 97, 98, 99] 0 2 5 = .ok r ∧ r ≤ 5 - 2 ∧
      (∀ i, i < r → [97, 98, 97, 98, 99][0 + i]? = [97, 98, 97, 98, 99][2 + i]?) ∧
      ∀ n, n ≤ 5 - 2 →
        (∀ i, i < n → [97, 98, 97, 98, 99][0 + i]? = [97, 98, 97, 98, 99][2 + i]?) → n ≤ r :=
  C20_find_match_len [97, 98, 97, 98, 99] 0 2 5 (by decide) (by decide) (by decide)

/-! ## The search does not depend on the buckets -/

theorem find_match_len_loop_eq (data : List Nat) :
    ∀ (n m h : Nat), h + n ≤ data.length → m ≤ h →
      find_match_len_loop data n m h = .ok (common_len data n m h) := by
  intro n
  induction n with
  | zero => intro m h _ _; rfl
  | succ n ih =>
    intro m h hlen hmh
    have hm : m < data.length := by omega
    have hh : h < data.length := by omega
    have hrec := ih (m + 1) (h + 1) (by omega) (by omega)
    by_cases heq : byte_at data m = byte_at data h
    · simp only [find_match_len_loop, read_byte_eq, hm, hh, heq, hrec, common_len, if_true]
    · simp only [find_match_len_loop, read_byte_eq, hm, hh, heq, common_len, if_false]

theorem try_slot_at_here (data : List Nat) (start end_ here slot : Nat) (st : match_state)
    (hend : end_ ≤ data.length) (hhere : here ≤ end_) (hslot : slot < here) :
    try_slot data start end_ here here slot st =
      .ok (if clamped_len data start end_ here slot ≥ VD_KEY_SIZE ∧
              clamped_len data start end_ here slot > st.current_match_len then
            { current_match := some slot,
              current_match_len := clamped_len data start end_ here slot, progress := true }
          else st) := by
  have hfind : find_match_len data slot here end_ =
      .ok (common_len data (end_ - here) slot here) :=
    find_match_len_loop_eq data (end_ - here) slot here (by omega) (Nat.le_of_lt hslot)
  simp only [try_slot, Nat.sub_self, Nat.not_lt_zero, if_false, Nat.sub_zero, hfind, clamped_len]
  split_ifs <;> rfl

theorem try_slot_mono (data : List Nat) (start end_ here key slot : Nat) (st st1 : match_state)
    (h : try_slot data start end_ here key slot st = .ok st1) :
    st.current_match_len ≤ st1.current_match_len := by
  unfold try_slot at h
  split_ifs at h with h1
  · cases h
    exact le_refl _
  · cases hf : find_match_len data (slot - (key - here)) here end_ with
    | error e => rw [hf] at h; cases h
    | ok r =>
      rw [hf] at h
      simp only at h
      split_ifs at h with h2 h3 h4
      · cases h; exact Nat.le_of_lt h3.2
      · cases h; exact le_refl _
      · cases h; exact Nat.le_of_lt h4.2
      · cases h; exact le_refl _

theorem try_slots_mono (data : List Nat) (start end_ here key : Nat) :
    ∀ (l : List Nat) (st st1 : match_state),
      try_slots data start end_ here key l st = .ok st1 →
      st.current_match_len ≤ st1.current_match_len := by
  intro l
  induction l with
  | nil => intro st st1 h; cases h; exact le_refl _
  | cons i l ih =>
    intro st st1 h
    simp only [try_slots] at h
    cases ht : try_slot data start end_ here key i st with
    | error e => rw [ht] at h; cases h
    | ok st2 =>
      rw [ht] at h
      exact le_trans (try_slot_mono data start end_ here key i st st2 ht) (ih st2 st1 h)

theorem search_all_mono (data : List Nat) (start end_ here : Nat) (log : List Nat) :
    ∀ (fuel key : Nat) (st st1 : match_state),
      search_all data start end_ here log fuel key st = .ok st1 →
      st.current_match_len ≤ st1.current_match_len := by
  intro fuel
  induction fuel with
  | zero => intro key st st1 h; simp only [search_all] at h; cases h
  | succ fuel ih =>
    intro key st st1 h
    simp only [search_all] at h
    cases ht : try_slots data start end_ here key log { st with progress := false } with
    | error e => rw [ht] at h; cases h
    | ok st2 =>
      rw [ht] at h
      simp only at h
      have h2 : st.current_match_len ≤ st2.current_match_len :=
        try_slots_mono data start end_ here key log { st with progress := false } st2 ht
      by_cases hc : st2.progress = true ∧
          end_ - (if st2.progress = true then
            here + st2.current_match_len - (VD_KEY_SIZE - 1) else key) ≥ VD_KEY_SIZE
      · rw [if_pos hc] at h
        exact le_trans h2 (ih _ st2 st1 h)
      · rw [if_neg hc] at h
        cases h
        exact h2

theorem try_slot_other_key (data : List Nat) (start end_ here key slot : Nat)
    (st : match_state) (hend : end_ ≤ data.length) (hhere : here ≤ end_) (hkey : here ≤ key)
    (hslot : slot < here)
    (hcond : key = here ∨ key + VD_KEY_SIZE ≤ here + st.current_match_len + 1)
    (hdiff : ¬ ∀ j, j < VD_KEY_SIZE → data[slot + j]? = data[key + j]?) :
    try_slot data start end_ here key slot st = .ok st := by
  have hK : VD_KEY_SIZE = 4 := rfl
  rw [hK] at hcond
  unfold try_slot
  by_cases hlt : slot < key - here
  · rw [if_pos hlt]
  · rw [if_neg hlt]
    obtain ⟨r, hr, hrle, hagree, _⟩ :=
      find_match_len_spec data (slot - (key - here)) here end_ hend hhere (by omega)
    simp only [hr]
    have hno : ∀ len, len ≤ r → ¬ (len ≥ VD_KEY_SIZE ∧ len > st.current_match_len) := by
      intro len hlen hrec
      rw [hK] at hrec
      apply hdiff
      intro j hj
      rw [hK] at hj
      have hkey4 : key - here + j < r := by omega
      have := hagree (key - here + j) hkey4
      have e1 : slot - (key - here) + (key - here + j) = slot + j := by omega
      have e2 : here + (key - here + j) = key + j := by omega
      rw [e1, e2] at this
      exact (byte_at_eq_iff data _ _ (by omega) (by omega)).mp this
    split_ifs with hclamp hrec hrec
    · exact absurd hrec (hno _ (by omega))
    · rfl
    · exact absurd hrec (hno _ (le_refl _))
    · rfl

theorem try_slots_filter (data : List Nat) (start end_ here key : Nat) (p : Nat → Bool)
    (hend : end_ ≤ data.length) (hhere : here ≤ end_) (hkey : here ≤ key) :
    ∀ (l : List Nat) (st : match_state), (∀ i ∈ l, i < here) →
      (∀ i ∈ l, p i = false → ¬ ∀ j, j < VD_KEY_SIZE → data[i + j]? = data[key + j]?) →
      (key = here ∨ key + VD_KEY_SIZE ≤ here + st.current_match_len + 1) →
      MS_ok data start end_ here st →
      try_slots data start end_ here key (l.filter p) st =
        try_slots data start end_ here key l st := by
  intro l
  induction l with
  | nil => intro st _ _ _ _; rfl
  | cons i l ih =>
    intro st hl hp hcond hst
    have hl1 : ∀ j ∈ l, j < here := fun j hj => hl j (List.mem_cons_of_mem _ hj)
    have hp1 : ∀ j ∈ l, p j = false →
        ¬ ∀ k, k < VD_KEY_SIZE → data[j + k]? = data[key + k]? :=
      fun j hj => hp j (List.mem_cons_of_mem _ hj)
    cases hpi : p i with
    | true =>
      rw [List.filter_cons_of_pos hpi]
      obtain ⟨st1, h1, hok1, hstep1⟩ :=
        try_slot_spec data start end_ here key i st hend hhere (hl i (List.mem_cons_self i l))
          hst
      simp only [try_slots, h1]
      apply ih st1 hl1 hp1 _ hok1
      rcases hcond with h | h
      · exact Or.inl h
      · right
        have := hstep1.1
        omega
    | false =>
      rw [List.filter_cons_of_neg (by simp [hpi])]
      simp only [try_slots, try_slot_other_key data start end_ here key i st hend hhere hkey
        (hl i (List.mem_cons_self i l)) hcond (hp i (List.mem_cons_self i l) hpi)]
      exact ih st hl1 hp1 hcond hst

theorem search_loop_eq_all (gb : hash_table_t → List Nat → Nat → Except vd_error Nat)
    (hgb : bucket_fn_ok gb) (data : List Nat) (start end_ : Nat) (s : vd_state)
    (log : List Nat) (hinv : PassInv gb data start end_ s log) :
    ∀ (fuel key : Nat) (st : match_state), s.here ≤ key → key + VD_KEY_SIZE ≤ end_ →
      (key = s.here ∨ key + VD_KEY_SIZE ≤ s.here + st.current_match_len + 1) →
      MS_ok data start end_ s.here st →
      search_loop gb data s.table start end_ s.here fuel key st =
        search_all data start end_ s.here log fuel key st := by
  have hK : VD_KEY_SIZE = 4 := rfl
  have hend := hinv.end_le
  have hhere := hinv.here_le
  intro fuel
  induction fuel with
  | zero => intro key st _ _ _ _; rfl
  | succ fuel ih =>
    intro key st hkey hk4 hcond hst
    obtain ⟨b, head, l, hb, hhead, hchain, hlt, hwalk⟩ :=
      walk_bucket_eq gb hgb data s.table start end_ s.here key s.here hinv.table_inv
        (by omega) (by omega)
    have hblt := chain_of_bucket_lt hinv.repr.buckets_len hchain
    have hl : l = log.filter (fun i => decide (gb s.table data i = .ok b)) :=
      chain_of_unique hchain (hinv.repr.chains b hblt)
    have hst0 : MS_ok data start end_ s.here { st with progress := false } := hst
    have hfilter := try_slots_filter data start end_ s.here key
      (fun i => decide (gb s.table data i = .ok b)) hend hhere hkey log
      { st with progress := false } hinv.below
      (by
        intro i _ hpi hsame
        have hbi : gb s.table data i = gb s.table data key := hgb.key_dep s.table data i key hsame
        rw [hb] at hbi
        simp [hbi] at hpi)
      hcond hst0
    obtain ⟨st1, h1, hok1, hstep1⟩ :=
      try_slots_spec data start end_ s.here key hend hhere log { st with progress := false }
        hinv.below hst0
    simp only [search_loop, search_all, hb, hhead, hwalk, hl, hfilter, h1]
    by_cases hprog : st1.progress = true
    · have hp := hstep1.2 hprog
      simp only [Bool.false_eq_true, false_or] at hp
      simp only [hprog, if_true, true_and]
      by_cases hc4 : end_ - (s.here + st1.current_match_len - (VD_KEY_SIZE - 1)) ≥ VD_KEY_SIZE
      · rw [if_pos hc4, if_pos hc4]
        rw [hK] at hp hc4
        exact ih _ st1 (by rw [hK]; omega) (by rw [hK]; omega) (Or.inr (by rw [hK]; omega)) hok1
      · rw [if_neg hc4, if_neg hc4]
    · simp only [hprog, Bool.false_eq_true, false_and, if_false]

/-! ## The longest candidate of the first lookup -/

theorem best_len_ge (data : List Nat) (start end_ here : Nat) :
    ∀ (l : List Nat) (i : Nat), i ∈ l →
      clamped_len data start end_ here i ≤ best_len data start end_ here l := by
  intro l
  induction l with
  | nil => intro i hi; simp at hi
  | cons a l ih =>
    intro i hi
    simp only [best_len, List.map_cons, List.foldr_cons]
    rcases List.mem_cons.mp hi with h | h
    · rw [h]
      exact Nat.le_max_left _ _
    · exact le_trans (ih i h) (Nat.le_max_right _ _)

theorem best_len_attained (data : List Nat) (start end_ here : Nat) :
    ∀ (l : List Nat), best_len data start end_ here l = 0 ∨
      ∃ i ∈ l, best_len data start end_ here l = clamped_len data start end_ here i := by
  intro l
  induction l with
  | nil => exact Or.inl rfl
  | cons a l ih =>
    simp only [best_len, List.map_cons, List.foldr_cons]
    rcases Nat.le_total (clamped_len data start end_ here a)
        ((l.map (clamped_len data start end_ here)).foldr max 0) with h | h
    · rw [Nat.max_eq_right h]
      rcases ih with h0 | ⟨i, hi, hbest⟩
      · exact Or.inl h0
      · exact Or.inr ⟨i, List.mem_cons_of_mem _ hi, hbest⟩
    · rw [Nat.max_eq_left h]
      exact Or.inr ⟨a, List.mem_cons_self a l, rfl⟩

theorem try_slots_best (data : List Nat) (start end_ here : Nat) (hend : end_ ≤ data.length)
    (hhere : here ≤ end_) :
    ∀ (l : List Nat) (st : match_state), (∀ i ∈ l, i < here) →
      ∃ st1, try_slots data start end_ here here l st = .ok st1 ∧
        st.current_match_len ≤ st1.current_match_len ∧
        (∀ i ∈ l, VD_KEY_SIZE ≤ clamped_len data start end_ here i →
          clamped_len data start end_ here i ≤ st1.current_match_len) ∧
        (st1 = st ∨
          (st1.progress = true ∧
            ∃ i ∈ l, st1.current_match_len = clamped_len data start end_ here i ∧
              VD_KEY_SIZE ≤ clamped_len data start end_ here i)) := by
  intro l
  induction l with
  | nil =>
    intro st _
    exact ⟨st, rfl, le_refl _, fun i hi => absurd hi (List.not_mem_nil i), Or.inl rfl⟩
  | cons a l ih =>
    intro st hl
    have htry := try_slot_at_here data start end_ here a st hend hhere
      (hl a (List.mem_cons_self a l))
    by_cases hrec : clamped_len data start end_ here a ≥ VD_KEY_SIZE ∧
        clamped_len data start end_ here a > st.current_match_len
    · rw [if_pos hrec] at htry
      obtain ⟨st1, h1, hmono, hall, hwho⟩ :=
        ih { current_match := some a,
             current_match_len := clamped_len data start end_ here a, progress := true }
          (fun j hj => hl j (List.mem_cons_of_mem _ hj))
      simp only at hmono
      refine ⟨st1, by simp only [try_slots, htry, h1], by omega, ?_, Or.inr ?_⟩
      · intro i hi h4
        rcases List.mem_cons.mp hi with h | h
        · rw [h]; exact hmono
        · exact hall i h h4
      · rcases hwho with h | ⟨hp, i, hi, hlen, h4⟩
        · rw [h]
          exact ⟨rfl, a, List.mem_cons_self a l, rfl, hrec.1⟩
        · exact ⟨hp, i, List.mem_cons_of_mem _ hi, hlen, h4⟩
    · rw [if_neg hrec] at htry
      obtain ⟨st1, h1, hmono, hall, hwho⟩ := ih st (fun j hj => hl j (List.mem_cons_of_mem _ hj))
      refine ⟨st1, by simp only [try_slots, htry, h1], hmono, ?_, ?_⟩
      · intro i hi h4
        rcases List.mem_cons.mp hi with h | h
        · rw [h] at h4 ⊢
          have : ¬ clamped_len data start end_ here a > st.current_match_len :=
            fun hgt => hrec ⟨h4, hgt⟩
          omega
        · exact hall i h h4
      · rcases hwho with h | ⟨hp, i, hi, hlen, h4⟩
        · exact Or.inl h
        · exact Or.inr ⟨hp, i, List.mem_cons_of_mem _ hi, hlen, h4⟩

theorem search_all_best (data : List Nat) (start end_ here : Nat) (log : List Nat)
    (hend : end_ ≤ data.length) (hhere : here ≤ end_) (hlog : ∀ i ∈ log, i < here)
    (fuel : Nat) (st : match_state)
    (h : search_all data start end_ here log fuel here no_match = .ok st) :
    (best_len data start end_ here log < VD_KEY_SIZE → st.current_match_len = 0) ∧
    (VD_KEY_SIZE ≤ best_len data start end_ here log →
      best_len data start end_ here log ≤ st.current_match_len) := by
  cases fuel with
  | zero => simp only [search_all] at h; cases h
  | succ fuel =>
    obtain ⟨st1, h1, _, hall, hwho⟩ := try_slots_best data start end_ here hend hhere log no_match hlog
    have h0 : ({ no_match with progress := false } : match_state) = no_match := rfl
    simp only [search_all, h0, h1] at h
    have hfinal : st1.current_match_len ≤ st.current_match_len := by
      by_cases hc : st1.progress = true ∧
          end_ - (if st1.progress = true then
            here + st1.current_match_len - (VD_KEY_SIZE - 1) else here) ≥ VD_KEY_SIZE
      · rw [if_pos hc] at h
        exact search_all_mono data start end_ here log fuel _ st1 st h
      · rw [if_neg hc] at h
        cases h
        exact le_refl _
    refine ⟨?_, ?_⟩
    · intro hsmall
      rcases hwho with hsame | ⟨_, i, hi, _, h4⟩
      · rw [hsame] at h
        simp only [no_match, Bool.false_eq_true, false_and, if_false] at h
        cases h
        rfl
      · have := best_len_ge data start end_ here log i hi
        omega
    · intro hbig
      rcases best_len_attained data start end_ here log with h0 | ⟨i, hi, hbest⟩
      · have hK : VD_KEY_SIZE = 4 := rfl
        rw [h0, hK] at hbig
        omega
      · rw [hbest] at hbig ⊢
        exact le_trans (hall i hi hbig) hfinal

theorem round_best (gb : hash_table_t → List Nat → Nat → Except vd_error Nat)
    (hgb : bucket_fn_ok gb) (data : List Nat) (start end_ : Nat) (outputflag : Bool)
    (s : vd_state) (log : List Nat) (hinv : PassInv gb data start end_ s log)
    (hroom : VD_KEY_SIZE ≤ end_ - s.here) :
    ∃ st s1,
      search_loop gb data s.table start end_ s.here (end_ - s.here) s.here no_match = .ok st ∧
      vdelta_round gb data start end_ outputflag s = .ok (.again s1) ∧
      (best_len data start end_ s.here log < VD_KEY_SIZE →
        st.current_match_len < VD_KEY_SIZE ∧ s1.here = s.here + 1 ∧ s1.window = s.window) ∧
      (VD_KEY_SIZE ≤ best_len data start end_ s.here log →
        best_len data start end_ s.here log ≤ st.current_match_len ∧
        s1.here = s.here + st.current_match_len ∧
        (outputflag = true →
          ∃ m, s1.window =
            emit_copy s.window data start s.here s.insert_from m st.current_match_len)) := by
  have hK : VD_KEY_SIZE = 4 := rfl
  have hall := search_loop_eq_all gb hgb data start end_ s log hinv (end_ - s.here) s.here
    no_match (le_refl _) (by rw [hK] at hroom ⊢; have := hinv.here_le; omega) (Or.inl rfl)
    (initial_match_state_ok data start end_ s.here)
  obtain ⟨r, hr, hout⟩ := round_spec gb hgb data start end_ outputflag s log hinv
  cases hout with
  | near hnear => omega
  | miss st t1 _ hsearch hok hmiss hstore hnext =>
    have hbest := search_all_best data start end_ s.here log hinv.end_le hinv.here_le hinv.below
      (end_ - s.here) st (by rw [← hall]; exact hsearch)
    refine ⟨st, _, hsearch, hr, fun _ => ⟨hmiss, rfl, rfl⟩, ?_⟩
    intro hbig
    have := hbest.2 hbig
    omega
  | hit st m t1 log1 _ hsearch hok hlen4 hm hstore hlog hnext =>
    have hbest := search_all_best data start end_ s.here log hinv.end_le hinv.here_le hinv.below
      (end_ - s.here) st (by rw [← hall]; exact hsearch)
    refine ⟨st, _, hsearch, hr, ?_, ?_⟩
    · intro hsmall
      have := hbest.1 hsmall
      rw [hK] at hlen4
      omega
    · intro hbig
      refine ⟨hbest.2 hbig, rfl, ?_⟩
      intro hflag
      exact ⟨m, by simp only [hflag, if_true]⟩

/-- C19 (longest candidate): at a state of either pass with at least four bytes
remaining, let `log` be the offsets held in the table (every chain is a part
of it and every offset of it is in the chain of its bucket) and
`M = best_len` the maximum of their clamped match lengths against `here`.  If
`M < 4` the round is a miss (`here` advances by one, the window is unchanged);
if `M >= 4` a match of final length at least `M` is taken. -/
theorem C19_longest_candidate (source target : List Nat) (start end_ : Nat)
    (outputflag : Bool) (s : vd_state)
    (hs : in_pass get_bucket [] (source ++ target) source.length target.length start end_
      outputflag s)
    (hroom : 4 ≤ end_ - s.here) :
    ∃ (log : List Nat) (st : match_state) (s1 : vd_state),
      (∀ b, b < s.table.num_buckets →
        chain_walk s.table b =
          .ok (log.filter (fun i => decide (get_bucket s.table (source ++ target) i = .ok b)))) ∧
      (∀ i ∈ log, ∃ b, b < s.table.num_buckets ∧
        get_bucket s.table (source ++ target) i = .ok b) ∧
      search_loop get_bucket (source ++ target) s.table start end_ s.here (end_ - s.here)
        s.here no_match = .ok st ∧
      vdelta_round get_bucket (source ++ target) start end_ outputflag s = .ok (.again s1) ∧
      (best_len (source ++ target) start end_ s.here log < 4 →
        st.current_match_len < 4 ∧ s1.here = s.here + 1 ∧ s1.window = s.window) ∧
      (4 ≤ best_len (source ++ target) start end_ s.here log →
        best_len (source ++ target) start end_ s.here log ≤ st.current_match_len ∧
        s1.here = s.here + st.current_match_len ∧
        (outputflag = true →
          ∃ m, s1.window =
            emit_copy s.window (source ++ target) start s.here s.insert_from m
              st.current_match_len)) := by
  obtain ⟨log, hinv, _⟩ :=
    in_pass_inv get_bucket get_bucket_fn_ok [] (source ++ target) source.length target.length
      (List.length_append source target) start end_ outputflag s hs
  obtain ⟨st, s1, hsearch, hround, hsmall, hbig⟩ :=
    round_best get_bucket get_bucket_fn_ok (source ++ target) start end_ outputflag s log hinv
      hroom
  refine ⟨log, st, s1, fun b hb => hinv.repr.chain_walk b hb, ?_, hsearch, hround, hsmall, hbig⟩
  intro i hi
  obtain ⟨b, hb, hblt⟩ :=
    get_bucket_fn_ok.in_range s.table (source ++ target) i hinv.repr.nb_pos
      (hinv.repr.in_range i hi).2
  exact ⟨b, hblt, hb⟩

/-- C19 (witness): the first state of the second pass for source `abcd`,
target `abcdabcd`, where offset 0 is indexed. -/
theorem C19_longest_candidate_witness :
    ∃ (log : List Nat) (st : match_state) (s1 : vd_state),
      (∀ b, b < (5 : Nat) →
        chain_walk abcd_table b =
          .ok (log.filter (fun i => decide (get_bucket abcd_table
            ([97, 98, 99, 100] ++ [97, 98, 99, 100, 97, 98, 99, 100]) i = .ok b)))) ∧
      (∀ i ∈ log, ∃ b, b < (5 : Nat) ∧
        get_bucket abcd_table
          ([97, 98, 99, 100] ++ [97, 98, 99, 100, 97, 98, 99, 100]) i = .ok b) ∧
      search_loop get_bucket ([97, 98, 99, 100] ++ [97, 98, 99, 100, 97, 98, 99, 100])
        abcd_table 4 12 4 (12 - 4) 4 no_match = .ok st ∧
      vdelta_round get_bucket ([97, 98, 99, 100] ++ [97, 98, 99, 100, 97, 98, 99, 100]) 4 12 true
        { window := [], table := abcd_table, here := 4, insert_from := none } =
          .ok (.again s1) ∧
      (best_len ([97, 98, 99, 100] ++ [97, 98, 99, 100, 97, 98, 99, 100]) 4 12 4 log < 4 →
        st.current_match_len < 4 ∧ s1.here = 4 + 1 ∧ s1.window = []) ∧
      (4 ≤ best_len ([97, 98, 99, 100] ++ [97, 98, 99, 100, 97, 98, 99, 100]) 4 12 4 log →
        best_len ([97, 98, 99, 100] ++ [97, 98, 99, 100, 97, 98, 99, 100]) 4 12 4 log ≤
          st.current_match_len ∧
        s1.here = 4 + st.current_match_len ∧
        (true = true →
          ∃ m, s1.window =
            emit_copy [] ([97, 98, 99, 100] ++ [97, 98, 99, 100, 97, 98, 99, 100]) 4 4 none m
              st.current_match_len)) :=
  C19_longest_candidate [97, 98, 99, 100] [97, 98, 99, 100, 97, 98, 99, 100] 4 12 true
    { window := [], table := abcd_table, here := 4, insert_from := none }
    (Or.inr ⟨rfl, rfl, rfl, [], abcd_table, by decide, pass_reach.refl _⟩) (by decide)

/-! ## The bucket function with unsigned bytes -/

theorem get_bucket_loop_unsigned_ok (data : List Nat) :
    ∀ (n key acc : Nat), key + n ≤ data.length →
      ∃ h, get_bucket_loop_unsigned data n key acc = .ok h := by
  intro n
  induction n with
  | zero => intro key acc _; exact ⟨acc, rfl⟩
  | succ n ih =>
    intro key acc hlen
    obtain ⟨h, hh⟩ := ih (key + 1) ((acc * 127 + byte_at data key) % 2 ^ 32) (by omega)
    exact ⟨h, by simp only [get_bucket_loop_unsigned, read_byte_eq data key (by omega), hh]⟩

theorem get_bucket_loop_unsigned_key_dep (data : List Nat) :
    ∀ (n k k1 acc : Nat), (∀ i, i < n → data[k + i]? = data[k1 + i]?) →
      get_bucket_loop_unsigned data n k acc = get_bucket_loop_unsigned data n k1 acc := by
  intro n
  induction n with
  | zero => intro k k1 acc _; rfl
  | succ n ih =>
    intro k k1 acc h
    have h0 : data[k]? = data[k1]? := by simpa using h 0 (Nat.succ_pos n)
    have hrest : ∀ c, get_bucket_loop_unsigned data n (k + 1) c =
        get_bucket_loop_unsigned data n (k1 + 1) c := by
      intro c
      apply ih
      intro i hi
      have := h (i + 1) (by omega)
      simpa [Nat.add_assoc, Nat.add_comm 1 i] using this
    simp only [get_bucket_loop_unsigned, read_byte, h0, hrest]

theorem get_bucket_unsigned_fn_ok : bucket_fn_ok get_bucket_unsigned := by
  refine ⟨?_, ?_, ?_⟩
  · intro t data k hnb hk
    obtain ⟨h, hh⟩ := get_bucket_loop_unsigned_ok data VD_KEY_SIZE k 0 hk
    exact ⟨h % t.num_buckets, by simp [get_bucket_unsigned, hh], Nat.mod_lt _ hnb⟩
  · intro t t1 data k hnb
    simp [get_bucket_unsigned, hnb]
  · intro t data k k1 h
    simp [get_bucket_unsigned, get_bucket_loop_unsigned_key_dep data VD_KEY_SIZE k k1 0 h]

/-! ## Two bucket functions side by side -/

theorem round_sim (gb gb1 : hash_table_t → List Nat → Nat → Except vd_error Nat)
    (hgb : bucket_fn_ok gb) (hgb1 : bucket_fn_ok gb1) (data : List Nat) (start end_ : Nat)
    (outputflag : Bool) (s : vd_state) (t1 : hash_table_t) (log : List Nat)
    (hinv : PassInv gb data start end_ s log)
    (hinv1 : PassInv gb1 data start end_ { s with table := t1 } log) :
    (∃ w, vdelta_round gb data start end_ outputflag s = .ok (.done w s.table) ∧
      vdelta_round gb1 data start end_ outputflag { s with table := t1 } = .ok (.done w t1)) ∨
    (∃ s2 t2 log2, vdelta_round gb data start end_ outputflag s = .ok (.again s2) ∧
      vdelta_round gb1 data start end_ outputflag { s with table := t1 } =
        .ok (.again { s2 with table := t2 }) ∧
      PassInv gb data start end_ s2 log2 ∧
      PassInv gb1 data start end_ { s2 with table := t2 } log2 ∧ s.here < s2.here) := by
  have hK : VD_KEY_SIZE = 4 := rfl
  obtain ⟨r, hr, hout⟩ := round_spec gb hgb data start end_ outputflag s log hinv
  obtain ⟨r1, hr1, hout1⟩ :=
    round_spec gb1 hgb1 data start end_ outputflag { s with table := t1 } log hinv1
  have hsame : ∀ st st1,
      search_loop gb data s.table start end_ s.here (end_ - s.here) s.here no_match = .ok st →
      search_loop gb1 data t1 start end_ s.here (end_ - s.here) s.here no_match = .ok st1 →
      VD_KEY_SIZE ≤ end_ - s.here → st = st1 := by
    intro st st1 h h1 hroom
    have hhere := hinv.here_le
    rw [hK] at hroom
    rw [search_loop_eq_all gb hgb data start end_ s log hinv (end_ - s.here) s.here no_match
      (le_refl _) (by rw [hK]; omega) (Or.inl rfl)
      (initial_match_state_ok data start end_ s.here)] at h
    have h2 := search_loop_eq_all gb1 hgb1 data start end_ { s with table := t1 } log hinv1
      (end_ - s.here) s.here no_match (le_refl _) (by rw [hK]; omega) (Or.inl rfl)
      (initial_match_state_ok data start end_ s.here)
    have h3 : search_all data start end_ s.here log (end_ - s.here) s.here no_match = .ok st1 := by
      rw [← h1]
      exact h2.symm
    rw [h] at h3
    exact Except.ok.inj h3
  cases hout with
  | near hnear =>
    cases hout1 with
    | near _ => exact Or.inl ⟨_, hr, hr1⟩
    | miss st1 t21 hroom1 _ _ _ _ _ =>
      have : VD_KEY_SIZE ≤ end_ - s.here := hroom1
      omega
    | hit st1 m1 t21 log11 hroom1 _ _ _ _ _ _ _ =>
      have : VD_KEY_SIZE ≤ end_ - s.here := hroom1
      omega
  | miss st t2 hroom hsearch hok hmiss hstore hnext =>
    cases hout1 with
    | near hnear1 =>
      have : end_ - s.here < VD_KEY_SIZE := hnear1
      omega
    | miss st1 t21 hroom1 hsearch1 hok1 hmiss1 hstore1 hnext1 =>
      exact Or.inr ⟨_, t21, s.here :: log, hr, hr1, hnext, hnext1, Nat.lt_succ_self _⟩
    | hit st1 m1 t21 log11 hroom1 hsearch1 hok1 hlen41 hm1 hstore1 hlog1 hnext1 =>
      have := hsame st st1 hsearch hsearch1 hroom
      rw [this] at hmiss
      omega
  | hit st m t2 log1 hroom hsearch hok hlen4 hm hstore hlog hnext =>
    cases hout1 with
    | near hnear1 =>
      have : end_ - s.here < VD_KEY_SIZE := hnear1
      omega
    | miss st1 t21 hroom1 hsearch1 hok1 hmiss1 hstore1 hnext1 =>
      have := hsame st st1 hsearch hsearch1 hroom
      rw [this] at hlen4
      omega
    | hit st1 m1 t21 log11 hroom1 hsearch1 hok1 hlen41 hm1 hstore1 hlog1 hnext1 =>
      have hst := hsame st st1 hsearch hsearch1 hroom
      subst hst
      have hmm : m = m1 := by
        have hm2 : st.current_match = some m1 := hm1
        rw [hm] at hm2
        exact Option.some.inj hm2
      subst hmm
      have hll : log11 = log1 := by
        rw [hlog]
        exact hlog1
      subst hll
      rw [hK] at hlen4
      refine Or.inr ⟨_, t21, log11, hr, hr1, hnext, hnext1, ?_⟩
      show s.here < s.here + st.current_match_len
      omega

theorem vdelta_loop_sim (gb gb1 : hash_table_t → List Nat → Nat → Except vd_error Nat)
    (hgb : bucket_fn_ok gb) (hgb1 : bucket_fn_ok gb1) (data : List Nat) (start end_ : Nat)
    (outputflag : Bool) :
    ∀ (fuel : Nat) (s : vd_state) (t1 : hash_table_t) (log : List Nat),
      PassInv gb data start end_ s log →
      PassInv gb1 data start end_ { s with table := t1 } log → end_ - s.here < fuel →
      ∃ w s2 t2 log2,
        vdelta_loop gb data start end_ outputflag fuel s.window s.table s.here s.insert_from =
          .ok (w, s2.table) ∧
        vdelta_loop gb1 data start end_ outputflag fuel s.window t1 s.here s.insert_from =
          .ok (w, t2) ∧
        PassInv gb data start end_ s2 log2 ∧
        PassInv gb1 data start end_ { s2 with table := t2 } log2 := by
  intro fuel
  induction fuel with
  | zero => intro s t1 log _ _ hf; omega
  | succ fuel ih =>
    intro s t1 log hinv hinv1 hfuel
    have hloop := vdelta_loop_round gb data start end_ outputflag fuel s
    have hloop1 := vdelta_loop_round gb1 data start end_ outputflag fuel { s with table := t1 }
    rcases round_sim gb gb1 hgb hgb1 data start end_ outputflag s t1 log hinv hinv1 with
      ⟨w, hr, hr1⟩ | ⟨s2, t2, log2, hr, hr1, hinv2, hinv21, hlt⟩
    · rw [hr] at hloop
      rw [hr1] at hloop1
      exact ⟨w, s, t1, log, hloop, hloop1, hinv, hinv1⟩
    · rw [hr] at hloop
      rw [hr1] at hloop1
      have hle := hinv2.here_le
      obtain ⟨w, s3, t3, log3, hrun, hrun1, hinv3, hinv31⟩ :=
        ih s2 t2 log2 hinv2 hinv21 (by omega)
      exact ⟨w, s3, t3, log3, hloop.trans hrun, hloop1.trans hrun1, hinv3, hinv31⟩

theorem empty_table_repr (gb : hash_table_t → List Nat → Nat → Except vd_error Nat)
    (data : List Nat) (nb n : Nat) (hnb : 0 < nb) : TableRepr gb (empty_table nb n) data [] := by
  refine ⟨hnb, by simp [empty_table], ?_, ?_, List.nodup_nil,
    fun i hi => absurd hi (List.not_mem_nil i)⟩
  · intro b hb
    refine ⟨none, ?_, IsChain.nil⟩
    simp only [empty_table] at hb ⊢
    exact List.getElem?_replicate_of_lt hb
  · intro i _ hi
    simp only [empty_table, List.length_replicate] at hi ⊢
    exact List.getElem?_replicate_of_lt hi

theorem run_from_sim (gb gb1 : hash_table_t → List Nat → Nat → Except vd_error Nat)
    (hgb : bucket_fn_ok gb) (hgb1 : bucket_fn_ok gb1) (t t1 : hash_table_t)
    (window : List instruction) (data : List Nat) (source_len target_len : Nat)
    (hlen : data.length = source_len + target_len)
    (ht : TableRepr gb t data []) (hsl : t.slots.length = data.length)
    (ht1 : TableRepr gb1 t1 data []) (hsl1 : t1.slots.length = data.length) :
    ∃ w t2 t21, txdelta_run_from gb t window data source_len target_len = .ok (w, t2) ∧
      txdelta_run_from gb1 t1 window data source_len target_len = .ok (w, t21) := by
  have hnil : ∀ f : Nat, (none : Option Nat) = some f → 0 ≤ f ∧ f < 0 := fun f hf => by cases hf
  obtain ⟨w, s2, t2, log2, hrun, hrun1, hinv2, hinv21⟩ :=
    vdelta_loop_sim gb gb1 hgb hgb1 data 0 source_len false (source_len - 0 + 1)
      { window := window, table := t, here := 0, insert_from := none } t1 []
      ⟨Nat.le_refl 0, Nat.zero_le _, by omega, hnil, hsl, ht, List.Pairwise.nil,
        fun i hi => absurd hi (List.not_mem_nil i)⟩
      ⟨Nat.le_refl 0, Nat.zero_le _, by omega, hnil, hsl1, ht1, List.Pairwise.nil,
        fun i hi => absurd hi (List.not_mem_nil i)⟩
      (Nat.lt_succ_self _)
  have hnil2 : ∀ f : Nat, (none : Option Nat) = some f → source_len ≤ f ∧ f < source_len :=
    fun f hf => by cases hf
  obtain ⟨w3, s3, t3, log3, hrun3, hrun31, _, _⟩ :=
    vdelta_loop_sim gb gb1 hgb hgb1 data source_len (source_len + target_len) true
      (source_len + target_len - source_len + 1)
      { window := w, table := s2.table, here := source_len, insert_from := none } t2 log2
      ⟨Nat.le_refl _, Nat.le_add_right _ _, by omega, hnil2, hinv2.slots_len, hinv2.repr,
        hinv2.sorted, fun i hi => Nat.lt_of_lt_of_le (hinv2.below i hi) hinv2.here_le⟩
      ⟨Nat.le_refl _, Nat.le_add_right _ _, by omega, hnil2, hinv21.slots_len, hinv21.repr,
        hinv21.sorted, fun i hi => Nat.lt_of_lt_of_le (hinv21.below i hi) hinv21.here_le⟩
      (Nat.lt_succ_self _)
  refine ⟨w3, s3.table, t3, ?_, ?_⟩
  · simp only [txdelta_run_from, vdelta_with]
    rw [hrun]
    exact hrun3
  · simp only [txdelta_run_from, vdelta_with]
    rw [hrun1]
    exact hrun31

/-- C12 (independence of the bucket function): for every bucket function `gb`
that maps a readable 4-byte key to a bucket of the table and depends only on
the key bytes and the number of buckets, and for every positive number of
buckets, the two passes run with `gb` on an empty table with that many buckets
emit exactly the instruction list of `svn_txdelta__vdelta`. -/
theorem C12_bucket_independence (gb : hash_table_t → List Nat → Nat → Except vd_error Nat)
    (hgb : bucket_fn_ok gb) (nb : Nat) (hnb : 0 < nb) (source target : List Nat) :
    ∃ ops t, svn_txdelta__vdelta [] (source ++ target) source.length target.length = .ok ops ∧
      txdelta_run_from gb (empty_table nb (source.length + target.length)) []
        (source ++ target) source.length target.length = .ok (ops, t) := by
  have hlen := List.length_append source target
  obtain ⟨w, t2, t21, hrun, hrun1⟩ :=
    run_from_sim get_bucket gb get_bucket_fn_ok hgb
      (create_hash_table (source.length + target.length))
      (empty_table nb (source.length + target.length)) [] (source ++ target) source.length
      target.length hlen (create_hash_table_repr get_bucket _ _)
      (by simp [create_hash_table]) (empty_table_repr gb _ nb _ hnb) (by simp [empty_table])
  exact ⟨w, t21, svn_txdelta__vdelta_of_run _ _ _ _ _ _ hrun, hrun1⟩

/-- C12 (witness): `get_bucket` with unsigned bytes on a table with seven
buckets, for a source and a target with bytes above 127. -/
theorem C12_bucket_independence_witness :
    ∃ ops t,
      svn_txdelta__vdelta [] ([200, 98, 255, 100] ++ [200, 98, 255, 100, 200, 98, 255, 100])
        [200, 98, 255, 100].length [200, 98, 255, 100, 200, 98, 255, 100].length = .ok ops ∧
      txdelta_run_from get_bucket_unsigned
        (empty_table 7 ([200, 98, 255, 100].length + [200, 98, 255, 100, 200, 98, 255, 100].length))
        [] ([200, 98, 255, 100] ++ [200, 98, 255, 100, 200, 98, 255, 100])
        [200, 98, 255, 100].length [200, 98, 255, 100, 200, 98, 255, 100].length = .ok (ops, t) :=
  C12_bucket_independence get_bucket_unsigned get_bucket_unsigned_fn_ok 7 (by decide)
    [200, 98, 255, 100] [200, 98, 255, 100, 200, 98, 255, 100]


/-! ## The claims: arithmetic of the hash table -/

theorem or_one_eq (k : Nat) : k ||| 1 = 2 * (k / 2) + 1 := by
  have h1 : (k ||| 1) % 2 = 1 := Nat.or_mod_two_eq_one.mpr (Or.inr rfl)
  have h2 : (k ||| 1) / 2 = k / 2 := by
    rw [Nat.or_div_two]
    simp
  have := Nat.div_add_mod (k ||| 1) 2
  omega

/-- C23 (as stated, refuted): for the key bytes `c8 62 ff 64` and a table of
five buckets `get_bucket` returns bucket 3, whereas
`((200*127 + 98)*127 + 255)*127 + 100 = 411289727` is 2 modulo 5: the bytes
`c8` and `ff` are read through a signed `char` and added as negative values,
and the accumulator ends at `4181838463`. -/
theorem C23_signed_key_bytes_wrap :
    (create_hash_table 15).num_buckets = 5 ∧
    get_bucket (create_hash_table 15) [200, 98, 255, 100] 0 = .ok 3 ∧
    get_bucket_loop [200, 98, 255, 100] VD_KEY_SIZE 0 0 = .ok 4181838463 ∧
    ((200 * 127 + 98) * 127 + 255) * 127 + 100 = 411289727 ∧
    (((200 * 127 + 98) * 127 + 255) * 127 + 100) % 5 = 2 := by
  decide

/-- C23 (amended): for key bytes `b0, b1, b2, b3` of at most 255 and a table
with at least one bucket, the accumulator of `get_bucket` ends with
`((s0*127 + s1)*127 + s2)*127 + s3` modulo `2 ^ 32`, where `s` is the value of
the byte as a signed `char`, and `get_bucket` returns that modulo
`num_buckets`, a value below `num_buckets`.  When the four bytes are at most
127 the accumulator ends with the integer `((b0*127 + b1)*127 + b2)*127 + b3`
itself, which is at most `127*(127^3 + 127^2 + 127 + 1) = 262209280`, below
`2 ^ 32`.  On a build where `char` is unsigned the accumulator ends with that
integer for all bytes up to 255 (it is at most
`255*(127^3 + 127^2 + 127 + 1) = 526483200`, below `2 ^ 32`). -/
theorem C23_get_bucket_value (table : hash_table_t) (data : List Nat)
    (key b0 b1 b2 b3 : Nat) (hnb : 1 ≤ table.num_buckets)
    (h0 : data[key]? = some b0) (h1 : data[key + 1]? = some b1)
    (h2 : data[key + 2]? = some b2) (h3 : data[key + 3]? = some b3)
    (hb0 : b0 ≤ 255) (hb1 : b1 ≤ 255) (hb2 : b2 ≤ 255) (hb3 : b3 ≤ 255) :
    (∃ h, get_bucket_loop data VD_KEY_SIZE key 0 = .ok h ∧
      (h : Int) =
        (((char_value b0 * 127 + char_value b1) * 127 + char_value b2) * 127 +
          char_value b3) % 2 ^ 32 ∧
      get_bucket table data key = .ok (h % table.num_buckets) ∧
      h % table.num_buckets < table.num_buckets) ∧
    (b0 ≤ 127 → b1 ≤ 127 → b2 ≤ 127 → b3 ≤ 127 →
      get_bucket_loop data VD_KEY_SIZE key 0 =
        .ok (((b0 * 127 + b1) * 127 + b2) * 127 + b3) ∧
      ((b0 * 127 + b1) * 127 + b2) * 127 + b3 ≤ 127 * (127 ^ 3 + 127 ^ 2 + 127 + 1) ∧
      get_bucket table data key =
        .ok ((((b0 * 127 + b1) * 127 + b2) * 127 + b3) % table.num_buckets)) ∧
    127 * (127 ^ 3 + 127 ^ 2 + 127 + 1) = 262209280 ∧ 262209280 < 2 ^ 32 ∧
    get_bucket_loop_unsigned data VD_KEY_SIZE key 0 =
      .ok (((b0 * 127 + b1) * 127 + b2) * 127 + b3) ∧
    ((b0 * 127 + b1) * 127 + b2) * 127 + b3 ≤ 255 * (127 ^ 3 + 127 ^ 2 + 127 + 1) ∧
    255 * (127 ^ 3 + 127 ^ 2 + 127 + 1) = 526483200 ∧ 526483200 < 2 ^ 32 ∧
    get_bucket_unsigned table data key =
      .ok ((((b0 * 127 + b1) * 127 + b2) * 127 + b3) % table.num_buckets) ∧
    (((b0 * 127 + b1) * 127 + b2) * 127 + b3) % table.num_buckets < table.num_buckets := by
  have a1 : key + 1 + 1 = key + 2 := rfl
  have a2 : key + 2 + 1 = key + 3 := rfl
  have hP : (2 : Nat) ^ 32 = 4294967296 := by norm_num
  have hPi : (2 : Int) ^ 32 = 4294967296 := by norm_num
  have hloop : get_bucket_loop data VD_KEY_SIZE key 0 =
      .ok ((((((((0 * 127 + (if b0 < 128 then b0 else b0 + (2 ^ 32 - 256))) % 2 ^ 32) * 127 +
        (if b1 < 128 then b1 else b1 + (2 ^ 32 - 256))) % 2 ^ 32) * 127 +
        (if b2 < 128 then b2 else b2 + (2 ^ 32 - 256))) % 2 ^ 32) * 127 +
        (if b3 < 128 then b3 else b3 + (2 ^ 32 - 256))) % 2 ^ 32) := by
    simp only [VD_KEY_SIZE, get_bucket_loop, read_byte, h0, h1, h2, h3, a1, a2]
  have e0 : (0 * 127 + b0) % 2 ^ 32 = b0 := by
    rw [Nat.mod_eq_of_lt] <;> omega
  have e1 : (b0 * 127 + b1) % 2 ^ 32 = b0 * 127 + b1 := by
    rw [Nat.mod_eq_of_lt]; omega
  have e2 : ((b0 * 127 + b1) * 127 + b2) % 2 ^ 32 = (b0 * 127 + b1) * 127 + b2 := by
    rw [Nat.mod_eq_of_lt]; omega
  have e3 : (((b0 * 127 + b1) * 127 + b2) * 127 + b3) % 2 ^ 32 =
      ((b0 * 127 + b1) * 127 + b2) * 127 + b3 := by
    rw [Nat.mod_eq_of_lt]; omega
  have hun : get_bucket_loop_unsigned data VD_KEY_SIZE key 0 =
      .ok (((b0 * 127 + b1) * 127 + b2) * 127 + b3) := by
    simp only [VD_KEY_SIZE, get_bucket_loop_unsigned, read_byte, h0, h1, h2, h3, e0, e1, e2,
      e3, a1, a2]
  refine ⟨⟨_, hloop, ?_, by simp only [get_bucket, hloop], Nat.mod_lt _ hnb⟩, ?_, by norm_num,
    by norm_num, hun, by omega, by norm_num, by norm_num, by simp only [get_bucket_unsigned, hun],
    Nat.mod_lt _ hnb⟩
  · simp only [char_value, hP, hPi]
    split_ifs <;> omega
  · intro s0 s1 s2 s3
    have hs : get_bucket_loop data VD_KEY_SIZE key 0 =
        .ok (((b0 * 127 + b1) * 127 + b2) * 127 + b3) := by
      rw [hloop, if_pos (by omega), if_pos (by omega), if_pos (by omega), if_pos (by omega),
        e0, e1, e2, e3]
    exact ⟨hs, by omega, by simp only [get_bucket, hs]⟩

/-- C23 (witness): the key bytes `c8 62 ff 64` in a table of five buckets. -/
theorem C23_get_bucket_value_witness :
    (∃ h, get_bucket_loop [200, 98, 255, 100] VD_KEY_SIZE 0 0 = .ok h ∧
      (h : Int) =
        (((char_value 200 * 127 + char_value 98) * 127 + char_value 255) * 127 +
          char_value 100) % 2 ^ 32 ∧
      get_bucket (create_hash_table 15) [200, 98, 255, 100] 0 =
        .ok (h % (create_hash_table 15).num_buckets) ∧
      h % (create_hash_table 15).num_buckets < (create_hash_table 15).num_buckets) ∧
    (200 ≤ 127 → 98 ≤ 127 → 255 ≤ 127 → 100 ≤ 127 →
      get_bucket_loop [200, 98, 255, 100] VD_KEY_SIZE 0 0 =
        .ok (((200 * 127 + 98) * 127 + 255) * 127 + 100) ∧
      ((200 * 127 + 98) * 127 + 255) * 127 + 100 ≤ 127 * (127 ^ 3 + 127 ^ 2 + 127 + 1) ∧
      get_bucket (create_hash_table 15) [200, 98, 255, 100] 0 =
        .ok ((((200 * 127 + 98) * 127 + 255) * 127 + 100) %
          (create_hash_table 15).num_buckets)) ∧
    127 * (127 ^ 3 + 127 ^ 2 + 127 + 1) = 262209280 ∧ 262209280 < 2 ^ 32 ∧
    get_bucket_loop_unsigned [200, 98, 255, 100] VD_KEY_SIZE 0 0 =
      .ok (((200 * 127 + 98) * 127 + 255) * 127 + 100) ∧
    ((200 * 127 + 98) * 127 + 255) * 127 + 100 ≤ 255 * (127 ^ 3 + 127 ^ 2 + 127 + 1) ∧
    255 * (127 ^ 3 + 127 ^ 2 + 127 + 1) = 526483200 ∧ 526483200 < 2 ^ 32 ∧
    get_bucket_unsigned (create_hash_table 15) [200, 98, 255, 100] 0 =
      .ok ((((200 * 127 + 98) * 127 + 255) * 127 + 100) %
        (create_hash_table 15).num_buckets) ∧
    (((200 * 127 + 98) * 127 + 255) * 127 + 100) % (create_hash_table 15).num_buckets <
      (create_hash_table 15).num_buckets :=
  C23_get_bucket_value (create_hash_table 15) [200, 98, 255, 100] 0 200 98 255 100
    (by decide) rfl rfl rfl rfl (by decide) (by decide) (by decide) (by decide)

/-- C24: `create_hash_table(N)` sets `num_buckets` to `(N / 3) | 1`, with that
many buckets and `N` slots; for every `N` the value is odd, at least 1 and at
most `N / 3 + 1` (and below `2 ^ 31` when `N < 3 * 2 ^ 31`), so that
`get_bucket` on the new table returns a bucket below `num_buckets`. -/
theorem C24_num_buckets (N : Nat) :
    (create_hash_table N).num_buckets = (N / 3) ||| 1 ∧
    (create_hash_table N).num_buckets % 2 = 1 ∧
    1 ≤ (create_hash_table N).num_buckets ∧
    (create_hash_table N).num_buckets ≤ N / 3 + 1 ∧
    (N < 3 * 2 ^ 31 → (create_hash_table N).num_buckets < 2 ^ 31) ∧
    (create_hash_table N).buckets.length = (create_hash_table N).num_buckets ∧
    (create_hash_table N).slots.length = N ∧
    ∀ (data : List Nat) (key b : Nat), get_bucket (create_hash_table N) data key = .ok b →
      b < (create_hash_table N).num_buckets := by
  have hv : (create_hash_table N).num_buckets = (N / 3) ||| 1 := rfl
  have he := or_one_eq (N / 3)
  refine ⟨hv, by omega, by omega, by omega, fun _ => by omega, by simp [create_hash_table],
    by simp [create_hash_table], ?_⟩
  intro data key b hb
  simp only [get_bucket] at hb
  cases hl : get_bucket_loop data VD_KEY_SIZE key 0 with
  | error e => rw [hl] at hb; cases hb
  | ok hash =>
    rw [hl] at hb
    cases hb
    exact Nat.mod_lt _ (by omega)


/-! ## The calls made by a round -/

theorem stored_offsets_append (a b : List vd_event) :
    stored_offsets (a ++ b) = stored_offsets a ++ stored_offsets b := by
  induction a with
  | nil => rfl
  | cons e a ih => cases e <;> simp [stored_offsets, ih]

theorem stored_offsets_store_events (l : List Nat) : stored_offsets (store_events l) = l := by
  induction l with
  | nil => rfl
  | cons i l ih => simp [store_events, stored_offsets, ih]

theorem stored_offsets_search (here end_ : Nat) (evs : List vd_event)
    (h : ∀ e ∈ evs, search_event_ok here end_ e) : stored_offsets evs = [] := by
  induction evs with
  | nil => rfl
  | cons e evs ih =>
    have he := h e (List.mem_cons_self _ _)
    have ih1 := ih (fun e1 he1 => h e1 (List.mem_cons_of_mem _ he1))
    cases e with
    | store_mapping_call k i => exact absurd he (by simp [search_event_ok])
    | get_bucket_call k => simpa [stored_offsets] using ih1
    | find_match_len_call m f e => simpa [stored_offsets] using ih1

theorem walk_chain_trace_spec (data : List Nat) (table : hash_table_t)
    (start end_ here key : Nat) (hkey : here ≤ key) (hhere : here ≤ end_)
    {head : Option Nat} {l : List Nat} (h : IsChain table.slots head l) :
    ∀ (fuel : Nat) (st st1 : match_state), l.length ≤ fuel → (∀ i ∈ l, i < here) →
      try_slots data start end_ here key l st = .ok st1 →
      ∃ evs, walk_chain_trace data table start end_ here key fuel head st = .ok (st1, evs) ∧
        ∀ e ∈ evs, search_event_ok here end_ e := by
  induction h with
  | nil =>
    intro fuel st st1 _ _ ht
    cases ht
    exact ⟨[], by cases fuel <;> rfl, fun e he => absurd he (List.not_mem_nil e)⟩
  | cons i s l hs _ ih =>
    intro fuel st st1 hfuel hlt ht
    cases fuel with
    | zero => simp at hfuel
    | succ fuel =>
      simp only [try_slots] at ht
      cases hts : try_slot data start end_ here key i st with
      | error e => rw [hts] at ht; cases ht
      | ok st2 =>
        rw [hts] at ht
        obtain ⟨evs1, hw1, hev1⟩ :=
          ih fuel st2 st1 (by simpa using hfuel)
            (fun j hj => hlt j (List.mem_cons_of_mem _ hj)) ht
        have hi := hlt i (List.mem_cons_self i l)
        refine ⟨(if i < key - here then []
            else [.find_match_len_call ((i : Int) - ((key : Int) - (here : Int))) here end_]) ++
              evs1,
          by simp only [walk_chain_trace, try_slot_trace, hts, hs, hw1], ?_⟩
        intro e he
        rcases List.mem_append.mp he with h1 | h1
        · by_cases hskip : i < key - here
          · rw [if_pos hskip] at h1
            exact absurd h1 (List.not_mem_nil e)
          · rw [if_neg hskip] at h1
            rw [List.mem_singleton.mp h1]
            refine ⟨by omega, by omega, hhere, rfl, rfl⟩
        · exact hev1 e h1

theorem search_loop_trace_spec (gb : hash_table_t → List Nat → Nat → Except vd_error Nat)
    (hgb : bucket_fn_ok gb) (data : List Nat) (table : hash_table_t) (start end_ here : Nat)
    (hinv : TableInv table data.length here) (hend : end_ ≤ data.length) :
    ∀ (fuel key : Nat) (st : match_state), here ≤ key → key + VD_KEY_SIZE ≤ end_ →
      here + st.current_match_len ≤ key + (VD_KEY_SIZE - 1) →
      end_ - here ≤ fuel + st.current_match_len →
      MS_ok data start end_ here st →
      ∃ st1 evs, search_loop gb data table start end_ here fuel key st = .ok st1 ∧
        search_loop_trace gb data table start end_ here fuel key st = .ok (st1, evs) ∧
        ∀ e ∈ evs, search_event_ok here end_ e := by
  have hK : VD_KEY_SIZE = 4 := rfl
  intro fuel
  induction fuel with
  | zero =>
    intro key st hkey hk4 hcml hfuel _
    rw [hK] at hk4 hcml
    omega
  | succ fuel ih =>
    intro key st hkey hk4 hcml hfuel hst
    have hhere : here ≤ end_ := by omega
    obtain ⟨b, hb, hblt⟩ := hgb.in_range table data key hinv.nb_pos (by omega)
    obtain ⟨l, ⟨head, hhead, hchain⟩, hpw, hlt⟩ := hinv.chains b hblt
    have hlen : l.length ≤ table.slots.length := by
      rw [hinv.slots_len]
      exact Nat.le_trans (desc_length_le l here hpw hlt) (by omega)
    have hwalk := walk_chain_eq data table start end_ here key hchain table.slots.length
      { st with progress := false } hlen
    have hst0 : MS_ok data start end_ here { st with progress := false } := hst
    obtain ⟨st1, h1, hok1, hstep1⟩ :=
      try_slots_spec data start end_ here key hend hhere l { st with progress := false } hlt hst0
    obtain ⟨evs, hwt, hev⟩ :=
      walk_chain_trace_spec data table start end_ here key hkey hhere hchain
        table.slots.length { st with progress := false } st1 hlen hlt h1
    have hkeyok : search_event_ok here end_ (.get_bucket_call key) := ⟨hkey, hk4⟩
    simp only [search_loop, search_loop_trace, hb, hhead, hwalk, h1, hwt]
    by_cases hprog : st1.progress = true
    · have hp := hstep1.2 hprog
      simp only [Bool.false_eq_true, false_or] at hp
      simp only [hprog, if_true, true_and]
      by_cases hc4 : end_ - (here + st1.current_match_len - (VD_KEY_SIZE - 1)) ≥ VD_KEY_SIZE
      · rw [if_pos hc4, if_pos hc4]
        rw [hK] at hp hc4 hcml hk4
        have hlen1 := hok1.1
        obtain ⟨st2, evs1, hs2, ht2, hev2⟩ :=
          ih (here + st1.current_match_len - (VD_KEY_SIZE - 1)) st1 (by rw [hK]; omega)
            (by rw [hK]; omega) (by rw [hK]; omega) (by omega) hok1
        refine ⟨st2, .get_bucket_call key :: evs ++ evs1, hs2, by simp only [ht2], ?_⟩
        intro e he
        rcases List.mem_cons.mp he with h0 | h0
        · rw [h0]; exact hkeyok
        · rcases List.mem_append.mp h0 with h2 | h2
          · exact hev e h2
          · exact hev2 e h2
      · rw [if_neg hc4, if_neg hc4]
        refine ⟨st1, .get_bucket_call key :: evs, rfl, rfl, ?_⟩
        intro e he
        rcases List.mem_cons.mp he with h0 | h0
        · rw [h0]; exact hkeyok
        · exact hev e h0
    · simp only [hprog, Bool.false_eq_true, false_and, if_false]
      refine ⟨st1, .get_bucket_call key :: evs, rfl, rfl, ?_⟩
      intro e he
      rcases List.mem_cons.mp he with h0 | h0
      · rw [h0]; exact hkeyok
      · exact hev e h0

theorem store_last_three_trace_eq (gb : hash_table_t → List Nat → Nat → Except vd_error Nat)
    (t : hash_table_t) (data : List Nat) (end_ here : Nat) (t1 : hash_table_t) (h3 : 3 ≤ here)
    (h : store_last_three gb t data end_ here = .ok t1) :
    store_last_three_trace gb t data end_ here =
      .ok (t1, store_events
        (if end_ - here ≥ VD_KEY_SIZE then [here - 3, here - 2, here - 1] else [])) := by
  have e1 : here - 3 + 1 = here - 2 := by omega
  have e2 : here - 3 + 2 = here - 1 := by omega
  have hK : VD_KEY_SIZE = 4 := rfl
  unfold store_last_three at h
  unfold store_last_three_trace
  by_cases hk : end_ - here ≥ VD_KEY_SIZE
  · rw [if_pos hk] at h
    rw [if_pos hk, if_pos hk]
    simp only [hK, Nat.add_one_sub_one, e1, e2] at h ⊢
    cases hs1 : store_mapping_with gb t data (here - 3) (here - 3) with
    | error e => rw [hs1] at h; cases h
    | ok a1 =>
      rw [hs1] at h
      simp only at h
      cases hs2 : store_mapping_with gb a1 data (here - 2) (here - 2) with
      | error e => rw [hs2] at h; cases h
      | ok a2 =>
        rw [hs2] at h
        simp only at h
        simp only [store_mapping_trace, hs1, hs2, h, store_events, List.cons_append,
          List.nil_append]
  · rw [if_neg hk] at h
    rw [if_neg hk, if_neg hk]
    cases h
    rfl

theorem round_trace_spec (gb : hash_table_t → List Nat → Nat → Except vd_error Nat)
    (hgb : bucket_fn_ok gb) (data : List Nat) (start end_ : Nat) (outputflag : Bool)
    (s : vd_state) (log : List Nat) (hinv : PassInv gb data start end_ s log) :
    ∃ r sevs, vdelta_round gb data start end_ outputflag s = .ok r ∧
      round_outcome gb data start end_ outputflag s log r ∧
      (∀ e ∈ sevs, search_event_ok s.here end_ e) ∧
      ((end_ - s.here < VD_KEY_SIZE ∧
          vdelta_round_trace gb data start end_ outputflag s = .ok (r, [])) ∨
        (VD_KEY_SIZE ≤ end_ - s.here ∧
          ∃ st, search_loop gb data s.table start end_ s.here (end_ - s.here) s.here
              no_match = .ok st ∧
            vdelta_round_trace gb data start end_ outputflag s =
              .ok (r, sevs ++ store_events
                (if st.current_match_len < VD_KEY_SIZE then [s.here]
                 else if end_ - (s.here + st.current_match_len) ≥ VD_KEY_SIZE then
                   [s.here + st.current_match_len - 3, s.here + st.current_match_len - 2,
                     s.here + st.current_match_len - 1]
                 else [])))) := by
  have hK : VD_KEY_SIZE = 4 := rfl
  obtain ⟨r, hr, hout⟩ := round_spec gb hgb data start end_ outputflag s log hinv
  have hout0 := hout
  cases hout with
  | near hnear =>
    refine ⟨_, [], hr, hout0, fun e he => absurd he (List.not_mem_nil e), Or.inl ⟨hnear, ?_⟩⟩
    cases hi : s.insert_from <;>
      simp only [vdelta_round_trace, if_pos hnear, svn_txdelta__insert_op, Option.getD, hi] <;>
      split_ifs <;> rfl
  | miss st t1 hroom hsearch hok hmiss hstore hnext =>
    have hnear : ¬ end_ - s.here < VD_KEY_SIZE := Nat.not_lt.mpr hroom
    rw [hK] at hroom
    have hhere := hinv.here_le
    obtain ⟨st1, sevs, hs1, htr, hev⟩ :=
      search_loop_trace_spec gb hgb data s.table start end_ s.here hinv.table_inv hinv.end_le
        (end_ - s.here) s.here no_match (le_refl _) (by rw [hK]; omega) (by simp [no_match])
        (by simp [no_match]) (initial_match_state_ok data start end_ s.here)
    rw [hsearch] at hs1
    cases hs1
    refine ⟨_, sevs, hr, hout0, hev, Or.inr ⟨by rw [hK]; exact hroom, st, hsearch, ?_⟩⟩
    rw [if_pos hmiss]
    cases hi : s.insert_from <;>
      simp only [vdelta_round_trace, if_neg hnear, htr, if_pos hmiss, store_mapping_trace,
        hstore, Option.getD, hi, store_events]
  | hit st m t1 log1 hroom hsearch hok hlen4 hm hstore hlog hnext =>
    have hnear : ¬ end_ - s.here < VD_KEY_SIZE := Nat.not_lt.mpr hroom
    have hmiss : ¬ st.current_match_len < VD_KEY_SIZE := Nat.not_lt.mpr hlen4
    rw [hK] at hroom hlen4
    have hhere := hinv.here_le
    obtain ⟨st1, sevs, hs1, htr, hev⟩ :=
      search_loop_trace_spec gb hgb data s.table start end_ s.here hinv.table_inv hinv.end_le
        (end_ - s.here) s.here no_match (le_refl _) (by rw [hK]; omega) (by simp [no_match])
        (by simp [no_match]) (initial_match_state_ok data start end_ s.here)
    rw [hsearch] at hs1
    cases hs1
    have hst3 := store_last_three_trace_eq gb s.table data end_ (s.here + st.current_match_len)
      t1 (by omega) hstore
    refine ⟨_, sevs, hr, hout0, hev, Or.inr ⟨by rw [hK]; exact hroom, st, hsearch, ?_⟩⟩
    rw [if_neg hmiss]
    simp only [vdelta_round_trace, if_neg hnear, htr, if_neg hmiss, hm, hst3]

theorem mem_store_events (e : vd_event) :
    ∀ (l : List Nat), e ∈ store_events l →
      ∃ i ∈ l, e = .store_mapping_call i i ∨ e = .get_bucket_call i := by
  intro l
  induction l with
  | nil => intro h; exact absurd h (List.not_mem_nil e)
  | cons a l ih =>
    intro h
    simp only [store_events, List.mem_cons] at h
    rcases h with h | h | h
    · exact ⟨a, List.mem_cons_self a l, Or.inl h⟩
    · exact ⟨a, List.mem_cons_self a l, Or.inr h⟩
    · obtain ⟨i, hi, hor⟩ := ih h
      exact ⟨i, List.mem_cons_of_mem _ hi, hor⟩

theorem round_stores_spec (gb : hash_table_t → List Nat → Nat → Except vd_error Nat)
    (hgb : bucket_fn_ok gb) (data : List Nat) (start end_ : Nat) (outputflag : Bool)
    (s : vd_state) (log : List Nat) (hinv : PassInv gb data start end_ s log) :
    ∃ r sevs stores, vdelta_round gb data start end_ outputflag s = .ok r ∧
      vdelta_round_trace gb data start end_ outputflag s =
        .ok (r, sevs ++ store_events stores) ∧
      (∀ e ∈ sevs, search_event_ok s.here end_ e) ∧
      (∀ i ∈ stores, s.here ≤ i ∧ i + VD_KEY_SIZE ≤ end_) ∧
      stores.Pairwise (fun x y => x < y) ∧
      ((end_ - s.here < VD_KEY_SIZE ∧ stores = [] ∧ sevs = [] ∧ ∃ w, r = .done w s.table) ∨
        (VD_KEY_SIZE ≤ end_ - s.here ∧ ∃ st s1,
          search_loop gb data s.table start end_ s.here (end_ - s.here) s.here no_match =
            .ok st ∧
          r = .again s1 ∧
          store_all gb s.table data stores = .ok s1.table ∧
          PassInv gb data start end_ s1 (stores.reverse ++ log) ∧
          ((st.current_match_len < VD_KEY_SIZE ∧ s1.here = s.here + 1 ∧ stores = [s.here]) ∨
            (VD_KEY_SIZE ≤ st.current_match_len ∧ s1.here = s.here + st.current_match_len ∧
              stores =
                if end_ - s1.here ≥ VD_KEY_SIZE then [s1.here - 3, s1.here - 2, s1.here - 1]
                else [])))) := by
  have hK : VD_KEY_SIZE = 4 := rfl
  obtain ⟨r, sevs, hr, hout, hev, hcase⟩ :=
    round_trace_spec gb hgb data start end_ outputflag s log hinv
  rcases hcase with ⟨hnear, htr⟩ | ⟨hroom, st, hsearch, htr⟩
  · refine ⟨r, [], [], hr, htr, fun e he => absurd he (List.not_mem_nil e),
      fun i hi => absurd hi (List.not_mem_nil i), List.Pairwise.nil,
      Or.inl ⟨hnear, rfl, rfl, ?_⟩⟩
    cases hout with
    | near _ => exact ⟨_, rfl⟩
    | miss st t1 hroom => omega
    | hit st m t1 log1 hroom => omega
  · cases hout with
    | near hnear => omega
    | miss st1 t1 _ hsearch1 hok hmiss hstore hnext =>
      rw [hsearch] at hsearch1
      cases hsearch1
      rw [if_pos hmiss] at htr
      refine ⟨_, sevs, [s.here], hr, htr, hev, ?_, List.pairwise_singleton _ _,
        Or.inr ⟨hroom, st, _, hsearch, rfl, by simp only [store_all, hstore], hnext,
          Or.inl ⟨hmiss, rfl, rfl⟩⟩⟩
      intro i hi
      rw [List.mem_singleton.mp hi]
      have := hinv.here_le
      omega
    | hit st1 m t1 log1 _ hsearch1 hok hlen4 hm hstore hlog hnext =>
      rw [hsearch] at hsearch1
      cases hsearch1
      have hmiss : ¬ st.current_match_len < VD_KEY_SIZE := Nat.not_lt.mpr hlen4
      rw [if_neg hmiss] at htr
      have hlen4b := hlen4
      rw [hK] at hlen4b
      rw [store_last_three_eq gb s.table data end_ _ (by omega)] at hstore
      have e1 : s.here + st.current_match_len - 3 < s.here + st.current_match_len - 2 := by
        omega
      have e2 : s.here + st.current_match_len - 2 < s.here + st.current_match_len - 1 := by
        omega
      refine ⟨_, sevs, _, hr, htr, hev, ?_, ?_,
        Or.inr ⟨hroom, st, _, hsearch, rfl, ?_, ?_, Or.inr ⟨hlen4, rfl, rfl⟩⟩⟩
      · intro i hi
        split_ifs at hi with hk
        · rw [hK] at hk ⊢
          simp only [List.mem_cons, List.mem_singleton, List.not_mem_nil, or_false] at hi
          omega
        · exact absurd hi (List.not_mem_nil i)
      · split_ifs
        · simp only [List.pairwise_cons, List.mem_cons, List.mem_singleton, List.not_mem_nil,
            or_false, forall_eq_or_imp, forall_eq, List.Pairwise.nil, and_true,
            IsEmpty.forall_iff, implies_true]
          omega
        · exact List.Pairwise.nil
      · show store_all gb s.table data _ = .ok t1
        split_ifs at hstore ⊢
        · exact hstore
        · exact hstore
      · rw [hlog] at hnext
        have hlist : (if end_ - (s.here + st.current_match_len) ≥ VD_KEY_SIZE then
              [s.here + st.current_match_len - 1, s.here + st.current_match_len - 2,
                s.here + st.current_match_len - 3] ++ log
            else log) =
            (if end_ - (s.here + st.current_match_len) ≥ VD_KEY_SIZE then
              [s.here + st.current_match_len - 3, s.here + st.current_match_len - 2,
                s.here + st.current_match_len - 1]
            else []).reverse ++ log := by
          split_ifs <;> rfl
        rw [hlist] at hnext
        exact hnext


/-! ## The traced round computes what the round computes -/

theorem walk_chain_trace_fst (data : List Nat) (table : hash_table_t)
    (start end_ here key : Nat) :
    ∀ (fuel : Nat) (head : Option Nat) (st : match_state),
      (walk_chain_trace data table start end_ here key fuel head st).map Prod.fst =
        walk_chain data table start end_ here key fuel head st := by
  intro fuel
  induction fuel with
  | zero => intro head st; cases head <;> rfl
  | succ fuel ih =>
    intro head st
    cases head with
    | none => rfl
    | some slot =>
      simp only [walk_chain_trace, walk_chain, try_slot_trace]
      cases try_slot data start end_ here key slot st with
      | error e => rfl
      | ok st1 =>
        simp only
        cases table.slots[slot]? with
        | none => rfl
        | some s =>
          simp only
          rw [← ih s.next st1]
          cases walk_chain_trace data table start end_ here key fuel s.next st1 with
          | error e => rfl
          | ok p => rfl

theorem search_loop_trace_fst (gb : hash_table_t → List Nat → Nat → Except vd_error Nat)
    (data : List Nat) (table : hash_table_t) (start end_ here : Nat) :
    ∀ (fuel key : Nat) (st : match_state),
      (search_loop_trace gb data table start end_ here fuel key st).map Prod.fst =
        search_loop gb data table start end_ here fuel key st := by
  intro fuel
  induction fuel with
  | zero => intro key st; rfl
  | succ fuel ih =>
    intro key st
    simp only [search_loop_trace, search_loop]
    cases gb table data key with
    | error e => rfl
    | ok bucket =>
      simp only
      cases table.buckets[bucket]? with
      | none => rfl
      | some head =>
        simp only
        rw [← walk_chain_trace_fst data table start end_ here key table.slots.length head
          { st with progress := false }]
        cases walk_chain_trace data table start end_ here key table.slots.length head
            { st with progress := false } with
        | error e => rfl
        | ok p =>
          obtain ⟨st1, evs⟩ := p
          simp only [Except.map]
          by_cases hc : st1.progress = true ∧
              end_ - (if st1.progress = true then
                here + st1.current_match_len - (VD_KEY_SIZE - 1) else key) ≥ VD_KEY_SIZE
          · rw [if_pos hc, if_pos hc, ← ih _ st1]
            cases search_loop_trace gb data table start end_ here fuel
                (if st1.progress = true then
                  here + st1.current_match_len - (VD_KEY_SIZE - 1) else key) st1 with
            | error e => rfl
            | ok p => rfl
          · rw [if_neg hc, if_neg hc]

theorem store_last_three_trace_fst (gb : hash_table_t → List Nat → Nat → Except vd_error Nat)
    (table : hash_table_t) (data : List Nat) (end_ here : Nat) :
    (store_last_three_trace gb table data end_ here).map Prod.fst =
      store_last_three gb table data end_ here := by
  simp only [store_last_three_trace, store_last_three, store_mapping_trace]
  split_ifs
  · cases store_mapping_with gb table data (here - (VD_KEY_SIZE - 1))
        (here - (VD_KEY_SIZE - 1)) with
    | error e => rfl
    | ok t1 =>
      simp only
      cases store_mapping_with gb t1 data (here - (VD_KEY_SIZE - 1) + 1)
          (here - (VD_KEY_SIZE - 1) + 1) with
      | error e => rfl
      | ok t2 =>
        simp only
        cases store_mapping_with gb t2 data (here - (VD_KEY_SIZE - 1) + 2)
            (here - (VD_KEY_SIZE - 1) + 2) with
        | error e => rfl
        | ok t3 => rfl
  · rfl

theorem vdelta_round_trace_fst (gb : hash_table_t → List Nat → Nat → Except vd_error Nat)
    (data : List Nat) (start end_ : Nat) (outputflag : Bool) (s : vd_state) :
    (vdelta_round_trace gb data start end_ outputflag s).map Prod.fst =
      vdelta_round gb data start end_ outputflag s := by
  by_cases hnear : end_ - s.here < VD_KEY_SIZE
  · simp only [vdelta_round_trace, vdelta_round, if_pos hnear]
    split_ifs <;> rfl
  · simp only [vdelta_round_trace, vdelta_round, if_neg hnear]
    rw [← search_loop_trace_fst gb data s.table start end_ s.here (end_ - s.here) s.here
      no_match]
    cases search_loop_trace gb data s.table start end_ s.here (end_ - s.here) s.here
        no_match with
    | error e => rfl
    | ok p =>
      obtain ⟨st, evs⟩ := p
      simp only [Except.map]
      by_cases hmiss : st.current_match_len < VD_KEY_SIZE
      · simp only [if_pos hmiss, store_mapping_trace]
        cases store_mapping_with gb s.table data s.here s.here with
        | error e => rfl
        | ok t1 => rfl
      · simp only [if_neg hmiss]
        cases st.current_match with
        | none => rfl
        | some m =>
          simp only
          rw [← store_last_three_trace_fst gb s.table data end_
            (s.here + st.current_match_len)]
          cases store_last_three_trace gb s.table data end_
              (s.here + st.current_match_len) with
          | error e => rfl
          | ok p => rfl

/-! ## The claims: calls made during a run -/

/-- C21: at every state of either pass, the offsets held in the table are all
below `here`, the round runs to its end, and every call of `find_match_len` it
makes has a match offset that is not negative (the slots below `key - here` are
skipped) and strictly below `from = here`, with `from <= end` and `end` inside
the buffer. -/
theorem C21_find_match_len_precondition (source target : List Nat) (start end_ : Nat)
    (outputflag : Bool) (s : vd_state)
    (hs : in_pass get_bucket [] (source ++ target) source.length target.length start end_
      outputflag s) :
    (∀ b l, chain_of s.table b l → ∀ i ∈ l, i < s.here) ∧
    ∃ r evs,
      vdelta_round_trace get_bucket (source ++ target) start end_ outputflag s =
        .ok (r, evs) ∧
      vdelta_round get_bucket (source ++ target) start end_ outputflag s = .ok r ∧
      ∀ (m : Int) (from_ e : Nat), vd_event.find_match_len_call m from_ e ∈ evs →
        0 ≤ m ∧ m < (from_ : Int) ∧ from_ ≤ e ∧ from_ = s.here ∧ e = end_ ∧
          e ≤ (source ++ target).length := by
  obtain ⟨log, hinv, _⟩ :=
    in_pass_inv get_bucket get_bucket_fn_ok [] (source ++ target) source.length target.length
      (List.length_append source target) start end_ outputflag s hs
  refine ⟨?_, ?_⟩
  · intro b l hl i hi
    exact (hinv.table_inv.chain_unique (chain_of_bucket_lt hinv.repr.buckets_len hl) hl).2 i hi
  · obtain ⟨r, sevs, stores, hr, htr, hev, _, _, _⟩ :=
      round_stores_spec get_bucket get_bucket_fn_ok (source ++ target) start end_ outputflag s
        log hinv
    refine ⟨r, _, htr, hr, ?_⟩
    intro m from_ e hmem
    rcases List.mem_append.mp hmem with h | h
    · obtain ⟨h0, h1, h2, h3, h4⟩ := hev _ h
      refine ⟨h0, h1, h2, h3, h4, ?_⟩
      rw [h4]
      exact hinv.end_le
    · obtain ⟨i, _, hor⟩ := mem_store_events _ stores h
      rcases hor with h1 | h1 <;> cases h1

/-- C21 (witness): the first state of the second pass for source `abcd`,
target `abcdabcd`. -/
theorem C21_find_match_len_precondition_witness :
    (∀ b l, chain_of abcd_state.table b l → ∀ i ∈ l, i < abcd_state.here) ∧
    ∃ r evs,
      vdelta_round_trace get_bucket ([97, 98, 99, 100] ++ [97, 98, 99, 100, 97, 98, 99, 100])
        4 12 true abcd_state = .ok (r, evs) ∧
      vdelta_round get_bucket ([97, 98, 99, 100] ++ [97, 98, 99, 100, 97, 98, 99, 100])
        4 12 true abcd_state = .ok r ∧
      ∀ (m : Int) (from_ e : Nat), vd_event.find_match_len_call m from_ e ∈ evs →
        0 ≤ m ∧ m < (from_ : Int) ∧ from_ ≤ e ∧ from_ = abcd_state.here ∧ e = 12 ∧
          e ≤ ([97, 98, 99, 100] ++ [97, 98, 99, 100, 97, 98, 99, 100]).length :=
  C21_find_match_len_precondition [97, 98, 99, 100] [97, 98, 99, 100, 97, 98, 99, 100] 4 12
    true abcd_state (Or.inr ⟨rfl, rfl, rfl, [], abcd_table, by decide, pass_reach.refl _⟩)

/-- C22: at every state of either pass the round runs to its end (no read
outside the buffer, the bucket array or the slot array), every call of
`get_bucket` it makes is on a key with `key + 4 <= end`, every call of
`store_mapping` it makes is on a key with `key + 4 <= end` and with the index
of the key, below `source_len + target_len` (the number of slots); `end` is
inside the buffer, and in the first pass `end = source_len`, so that every
stored key lies inside the source. -/
theorem C22_key_reads_in_bounds (source target : List Nat) (start end_ : Nat)
    (outputflag : Bool) (s : vd_state)
    (hs : in_pass get_bucket [] (source ++ target) source.length target.length start end_
      outputflag s) :
    end_ ≤ (source ++ target).length ∧
    s.table.slots.length = source.length + target.length ∧
    ∃ r evs,
      vdelta_round_trace get_bucket (source ++ target) start end_ outputflag s =
        .ok (r, evs) ∧
      vdelta_round get_bucket (source ++ target) start end_ outputflag s = .ok r ∧
      (∀ key : Nat, vd_event.get_bucket_call key ∈ evs → key + 4 ≤ end_) ∧
      (∀ key index : Nat, vd_event.store_mapping_call key index ∈ evs →
        key + 4 ≤ end_ ∧ index = key ∧ index < source.length + target.length) ∧
      (outputflag = false →
        ∀ key index : Nat, vd_event.store_mapping_call key index ∈ evs →
          key + 4 ≤ source.length) := by
  have hK : VD_KEY_SIZE = 4 := rfl
  obtain ⟨log, hinv, _⟩ :=
    in_pass_inv get_bucket get_bucket_fn_ok [] (source ++ target) source.length target.length
      (List.length_append source target) start end_ outputflag s hs
  obtain ⟨r, sevs, stores, hr, htr, hev, hst, _, _⟩ :=
    round_stores_spec get_bucket get_bucket_fn_ok (source ++ target) start end_ outputflag s
      log hinv
  have hend := hinv.end_le
  have hlen : (source ++ target).length = source.length + target.length :=
    List.length_append source target
  have hstore : ∀ key index : Nat, vd_event.store_mapping_call key index ∈
      sevs ++ store_events stores →
      key + 4 ≤ end_ ∧ index = key ∧ index < source.length + target.length := by
    intro key index hmem
    rcases List.mem_append.mp hmem with h | h
    · exact absurd (hev _ h) (by simp [search_event_ok])
    · obtain ⟨i, hi, hor⟩ := mem_store_events _ stores h
      have hb := (hst i hi).2
      rw [hK] at hb
      rcases hor with h1 | h1
      · cases h1
        refine ⟨hb, rfl, ?_⟩
        omega
      · cases h1
  refine ⟨hend, by rw [hinv.slots_len, hlen], r, _, htr, hr, ?_, hstore, ?_⟩
  · intro key hmem
    rcases List.mem_append.mp hmem with h | h
    · have := (hev _ h).2
      rw [hK] at this
      exact this
    · obtain ⟨i, hi, hor⟩ := mem_store_events _ stores h
      have hb := (hst i hi).2
      rw [hK] at hb
      rcases hor with h1 | h1
      · cases h1
      · cases h1
        exact hb
  · intro hflag key index hmem
    have hb := (hstore key index hmem).1
    rcases hs with ⟨_, he, _, _⟩ | ⟨_, _, hf, _⟩
    · rw [he] at hb
      exact hb
    · rw [hflag] at hf
      cases hf

/-- C22 (witness): the first state of the first pass for source `12345` and an
empty target. -/
theorem C22_key_reads_in_bounds_witness :
    5 ≤ ([1, 2, 3, 4, 5] ++ ([] : List Nat)).length ∧
    (create_hash_table ([1, 2, 3, 4, 5].length + ([] : List Nat).length)).slots.length =
      [1, 2, 3, 4, 5].length + ([] : List Nat).length ∧
    ∃ r evs,
      vdelta_round_trace get_bucket ([1, 2, 3, 4, 5] ++ ([] : List Nat)) 0 5 false
        { window := [],
          table := create_hash_table ([1, 2, 3, 4, 5].length + ([] : List Nat).length),
          here := 0, insert_from := none } = .ok (r, evs) ∧
      vdelta_round get_bucket ([1, 2, 3, 4, 5] ++ ([] : List Nat)) 0 5 false
        { window := [],
          table := create_hash_table ([1, 2, 3, 4, 5].length + ([] : List Nat).length),
          here := 0, insert_from := none } = .ok r ∧
      (∀ key : Nat, vd_event.get_bucket_call key ∈ evs → key + 4 ≤ 5) ∧
      (∀ key index : Nat, vd_event.store_mapping_call key index ∈ evs →
        key + 4 ≤ 5 ∧ index = key ∧
          index < [1, 2, 3, 4, 5].length + ([] : List Nat).length) ∧
      (false = false →
        ∀ key index : Nat, vd_event.store_mapping_call key index ∈ evs →
          key + 4 ≤ [1, 2, 3, 4, 5].length) :=
  C22_key_reads_in_bounds [1, 2, 3, 4, 5] [] 0 5 false
    { window := [],
      table := create_hash_table ([1, 2, 3, 4, 5].length + ([] : List Nat).length),
      here := 0, insert_from := none }
    (Or.inl ⟨rfl, rfl, rfl, pass_reach.refl _⟩)

/-- C25 (indexing policy): at every state of either pass a round, run with
output enabled or not, makes these `store_mapping` calls, each with the index
of its key, and the table of the next state is the table of the state after
exactly these calls: none when fewer than four bytes remain (the pass
returns); on a miss at `here = p` the single call for offset `p`; after a match
of length `L` at `p`, with `here` moved to `p + L`, the calls for `p + L - 3`,
`p + L - 2`, `p + L - 1` in that order if at least four bytes remain after
`p + L`, and no call otherwise. -/
theorem C25_indexing_policy (source target : List Nat) (start end_ : Nat)
    (outputflag : Bool) (s : vd_state)
    (hs : in_pass get_bucket [] (source ++ target) source.length target.length start end_
      outputflag s) (flag : Bool) :
    ∃ r evs,
      vdelta_round_trace get_bucket (source ++ target) start end_ flag s = .ok (r, evs) ∧
      vdelta_round get_bucket (source ++ target) start end_ flag s = .ok r ∧
      (∀ key index : Nat, vd_event.store_mapping_call key index ∈ evs → key = index) ∧
      (end_ - s.here < 4 → stored_offsets evs = [] ∧ ∃ w, r = .done w s.table) ∧
      (4 ≤ end_ - s.here → ∃ st s1,
        search_loop get_bucket (source ++ target) s.table start end_ s.here (end_ - s.here)
          s.here no_match = .ok st ∧
        r = .again s1 ∧
        store_all get_bucket s.table (source ++ target) (stored_offsets evs) = .ok s1.table ∧
        (st.current_match_len < 4 → s1.here = s.here + 1 ∧ stored_offsets evs = [s.here]) ∧
        (4 ≤ st.current_match_len →
          s1.here = s.here + st.current_match_len ∧
          (4 ≤ end_ - (s.here + st.current_match_len) →
            stored_offsets evs =
              [s.here + st.current_match_len - 3, s.here + st.current_match_len - 2,
                s.here + st.current_match_len - 1]) ∧
          (end_ - (s.here + st.current_match_len) < 4 → stored_offsets evs = []))) := by
  have hK : VD_KEY_SIZE = 4 := rfl
  obtain ⟨log, hinv, _⟩ :=
    in_pass_inv get_bucket get_bucket_fn_ok [] (source ++ target) source.length target.length
      (List.length_append source target) start end_ outputflag s hs
  obtain ⟨r, sevs, stores, hr, htr, hev, hst, _, hcase⟩ :=
    round_stores_spec get_bucket get_bucket_fn_ok (source ++ target) start end_ flag s
      log hinv
  have hoff : stored_offsets (sevs ++ store_events stores) = stores := by
    rw [stored_offsets_append, stored_offsets_search _ _ sevs hev, stored_offsets_store_events,
      List.nil_append]
  refine ⟨r, _, htr, hr, ?_, ?_, ?_⟩
  · intro key index hmem
    rcases List.mem_append.mp hmem with h | h
    · exact absurd (hev _ h) (by simp [search_event_ok])
    · obtain ⟨i, _, hor⟩ := mem_store_events _ stores h
      rcases hor with h1 | h1
      · cases h1; rfl
      · cases h1
  · intro hnear
    rcases hcase with ⟨_, hs0, _, hw⟩ | ⟨hroom, _⟩
    · rw [hoff, hs0]
      exact ⟨rfl, hw⟩
    · rw [hK] at hroom
      omega
  · intro hroom
    rcases hcase with ⟨hnear, _⟩ | ⟨_, st, s1, hsearch, hr, hall, _, hkind⟩
    · rw [hK] at hnear
      omega
    · rw [hoff]
      refine ⟨st, s1, hsearch, hr, hall, ?_, ?_⟩
      · intro hlt
        rcases hkind with ⟨_, h1, h2⟩ | ⟨h4, _⟩
        · exact ⟨h1, h2⟩
        · rw [hK] at h4
          omega
      · intro hge
        rcases hkind with ⟨hlt, _⟩ | ⟨_, h1, h2⟩
        · rw [hK] at hlt
          omega
        · rw [h1] at h2
          refine ⟨h1, ?_, ?_⟩
          · intro hk
            rw [h2, if_pos (by rw [hK]; exact hk)]
          · intro hk
            rw [h2, if_neg (by rw [hK]; omega)]

/-- C25 (witness): the first state of the second pass for source `abcd`,
target `abcdabcd`, run with output disabled. -/
theorem C25_indexing_policy_witness :
    ∃ r evs,
      vdelta_round_trace get_bucket ([97, 98, 99, 100] ++ [97, 98, 99, 100, 97, 98, 99, 100])
        4 12 false abcd_state = .ok (r, evs) ∧
      vdelta_round get_bucket ([97, 98, 99, 100] ++ [97, 98, 99, 100, 97, 98, 99, 100])
        4 12 false abcd_state = .ok r ∧
      (∀ key index : Nat, vd_event.store_mapping_call key index ∈ evs → key = index) ∧
      (12 - abcd_state.here < 4 → stored_offsets evs = [] ∧ ∃ w, r = .done w abcd_state.table) ∧
      (4 ≤ 12 - abcd_state.here → ∃ st s1,
        search_loop get_bucket ([97, 98, 99, 100] ++ [97, 98, 99, 100, 97, 98, 99, 100])
          abcd_state.table 4 12 abcd_state.here (12 - abcd_state.here)
          abcd_state.here no_match = .ok st ∧
        r = .again s1 ∧
        store_all get_bucket abcd_state.table
          ([97, 98, 99, 100] ++ [97, 98, 99, 100, 97, 98, 99, 100]) (stored_offsets evs) =
            .ok s1.table ∧
        (st.current_match_len < 4 →
          s1.here = abcd_state.here + 1 ∧ stored_offsets evs = [abcd_state.here]) ∧
        (4 ≤ st.current_match_len →
          s1.here = abcd_state.here + st.current_match_len ∧
          (4 ≤ 12 - (abcd_state.here + st.current_match_len) →
            stored_offsets evs =
              [abcd_state.here + st.current_match_len - 3,
                abcd_state.here + st.current_match_len - 2,
                abcd_state.here + st.current_match_len - 1]) ∧
          (12 - (abcd_state.here + st.current_match_len) < 4 → stored_offsets evs = []))) :=
  C25_indexing_policy [97, 98, 99, 100] [97, 98, 99, 100, 97, 98, 99, 100] 4 12
    true abcd_state (Or.inr ⟨rfl, rfl, rfl, [], abcd_table, by decide, pass_reach.refl _⟩) false

/-- C26: every emitted `COPY_FROM_TARGET(off, len)`, standing at target
position `p`, starts strictly before `p` and names target bytes equal one by
one to the bytes it produces; at its `i`-th step a byte-by-byte applier reads
offset `off + i` of the `p + i` bytes reconstructed so far, which holds the byte
wanted at `p + i`, so the whole copy succeeds, also when `off + len > p`. -/
theorem C26_target_copy_overlap (source target : List Nat) :
    ∃ ops, svn_txdelta__vdelta [] (source ++ target) source.length target.length = .ok ops ∧
      ∀ (k off len : Nat), ops[k]? = some (instruction.COPY_FROM_TARGET off len) →
        off < target_pos ops k ∧
        (∀ i, i < len → target[off + i]? = target[target_pos ops k + i]?) ∧
        (∀ i, i < len → off + i < (target.take (target_pos ops k + i)).length ∧
          ∃ c, (target.take (target_pos ops k + i))[off + i]? = some c ∧
            target[target_pos ops k + i]? = some c) ∧
        copy_from_target len off (target.take (target_pos ops k)) =
          some (target.take (target_pos ops k + len)) := by
  obtain ⟨ops, hrun, hops⟩ := svn_txdelta__vdelta_spec source target
  refine ⟨ops, hrun, ?_⟩
  intro k off len hk
  have hok := ops_from_get _ _ _ ops _ k _ hops hk
  obtain ⟨hd, hfit⟩ := op_ok_describes source target (target_pos ops k) _ hok
  obtain ⟨_, _, hlt, _⟩ := hok
  have hd1 : ∀ i, i < len → target[off + i]? = target[target_pos ops k + i]? := hd
  have hfit1 : target_pos ops k + len ≤ target.length := hfit
  have hoff : off < target_pos ops k := by omega
  refine ⟨hoff, hd1, ?_, copy_from_target_spec target len off _ hoff hfit1 hd1⟩
  intro i hi
  have hp : target_pos ops k + i < target.length := by omega
  refine ⟨?_, target[target_pos ops k + i], ?_, List.getElem?_eq_getElem hp⟩
  · rw [List.length_take]
    omega
  · rw [List.getElem?_take_of_lt (by omega), hd1 i hi, List.getElem?_eq_getElem hp]


/-! ## Ties between candidates -/

theorem try_slot_eq (data : List Nat) (start end_ here key slot : Nat) (st : match_state)
    (hend : end_ ≤ data.length) (hhere : here ≤ end_) (hslot : slot < here) :
    try_slot data start end_ here key slot st =
      .ok (if slot < key - here then st
        else if clamped_len data start end_ here (slot - (key - here)) ≥ VD_KEY_SIZE ∧
            clamped_len data start end_ here (slot - (key - here)) > st.current_match_len then
          { current_match := some (slot - (key - here)),
            current_match_len := clamped_len data start end_ here (slot - (key - here)),
            progress := true }
        else st) := by
  have hfind : find_match_len data (slot - (key - here)) here end_ =
      .ok (common_len data (end_ - here) (slot - (key - here)) here) :=
    find_match_len_loop_eq data (end_ - here) (slot - (key - here)) here (by omega) (by omega)
  simp only [try_slot, hfind, clamped_len]
  split_ifs <;> rfl

theorem try_slots_first (data : List Nat) (start end_ here key : Nat)
    (hend : end_ ≤ data.length) (hhere : here ≤ end_) :
    ∀ (l : List Nat) (st : match_state), (∀ i ∈ l, i < here) →
      l.Pairwise (fun x y => y < x) →
      ∃ st1, try_slots data start end_ here key l st = .ok st1 ∧
        st.current_match_len ≤ st1.current_match_len ∧
        (∀ j ∈ l, key - here ≤ j →
          VD_KEY_SIZE ≤ clamped_len data start end_ here (j - (key - here)) →
          clamped_len data start end_ here (j - (key - here)) ≤ st1.current_match_len) ∧
        (st1 = st ∨
          (st1.progress = true ∧ ∃ i ∈ l, key - here ≤ i ∧
            st1.current_match = some (i - (key - here)) ∧
            st1.current_match_len = clamped_len data start end_ here (i - (key - here)) ∧
            VD_KEY_SIZE ≤ st1.current_match_len ∧
            st.current_match_len < st1.current_match_len ∧
            ∀ j ∈ l, key - here ≤ j →
              clamped_len data start end_ here (j - (key - here)) = st1.current_match_len →
              j ≤ i)) := by
  intro l
  induction l with
  | nil =>
    intro st _ _
    exact ⟨st, rfl, le_refl _, fun j hj => absurd hj (List.not_mem_nil j), Or.inl rfl⟩
  | cons a l ih =>
    intro st hl hpw
    have hpw1 := List.pairwise_cons.mp hpw
    have hl1 : ∀ j ∈ l, j < here := fun j hj => hl j (List.mem_cons_of_mem _ hj)
    have htry := try_slot_eq data start end_ here key a st hend hhere
      (hl a (List.mem_cons_self a l))
    by_cases hskip : a < key - here
    · rw [if_pos hskip] at htry
      obtain ⟨st1, h1, hmono, hall, hwho⟩ := ih st hl1 hpw1.2
      refine ⟨st1, by simp only [try_slots, htry, h1], hmono, ?_, ?_⟩
      · intro j hj hjk h4
        rcases List.mem_cons.mp hj with h | h
        · omega
        · exact hall j h hjk h4
      · rcases hwho with h | ⟨hp, i, hi, hik, hm, hlen, h4, hgt, htie⟩
        · exact Or.inl h
        · refine Or.inr ⟨hp, i, List.mem_cons_of_mem _ hi, hik, hm, hlen, h4, hgt, ?_⟩
          intro j hj hjk hje
          rcases List.mem_cons.mp hj with h | h
          · omega
          · exact htie j h hjk hje
    · rw [if_neg hskip] at htry
      by_cases hrec : clamped_len data start end_ here (a - (key - here)) ≥ VD_KEY_SIZE ∧
          clamped_len data start end_ here (a - (key - here)) > st.current_match_len
      · rw [if_pos hrec] at htry
        obtain ⟨st1, h1, hmono, hall, hwho⟩ :=
          ih { current_match := some (a - (key - here)),
               current_match_len := clamped_len data start end_ here (a - (key - here)),
               progress := true } hl1 hpw1.2
        simp only at hmono
        refine ⟨st1, by simp only [try_slots, htry, h1], by omega, ?_, Or.inr ?_⟩
        · intro j hj hjk h4
          rcases List.mem_cons.mp hj with h | h
          · rw [h]; exact hmono
          · exact hall j h hjk h4
        · rcases hwho with h | ⟨hp, i, hi, hik, hm, hlen, h4, hgt, htie⟩
          · rw [h]
            refine ⟨rfl, a, List.mem_cons_self a l, Nat.le_of_not_lt hskip, rfl, rfl, hrec.1,
              hrec.2, ?_⟩
            intro j hj _ _
            rcases List.mem_cons.mp hj with h0 | h0
            · omega
            · exact Nat.le_of_lt (hpw1.1 j h0)
          · simp only at hgt
            refine ⟨hp, i, List.mem_cons_of_mem _ hi, hik, hm, hlen, h4, by omega, ?_⟩
            intro j hj hjk hje
            rcases List.mem_cons.mp hj with h0 | h0
            · rw [h0] at hje
              omega
            · exact htie j h0 hjk hje
      · rw [if_neg hrec] at htry
        obtain ⟨st1, h1, hmono, hall, hwho⟩ := ih st hl1 hpw1.2
        refine ⟨st1, by simp only [try_slots, htry, h1], hmono, ?_, ?_⟩
        · intro j hj hjk h4
          rcases List.mem_cons.mp hj with h | h
          · rw [h] at h4 ⊢
            have : ¬ clamped_len data start end_ here (a - (key - here)) >
                st.current_match_len := fun hgt => hrec ⟨h4, hgt⟩
            omega
          · exact hall j h hjk h4
        · rcases hwho with h | ⟨hp, i, hi, hik, hm, hlen, h4, hgt, htie⟩
          · exact Or.inl h
          · refine Or.inr ⟨hp, i, List.mem_cons_of_mem _ hi, hik, hm, hlen, h4, hgt, ?_⟩
            intro j hj hjk hje
            rcases List.mem_cons.mp hj with h0 | h0
            · rw [h0] at hje
              exact absurd ⟨by rw [hje]; exact h4, by rw [hje]; exact hgt⟩ hrec
            · exact htie j h0 hjk hje

/-- C27: at every state of either pass the table is what `store_mapping` calls
on a strictly increasing sequence of offsets (the reverse of `log`) have made
of the table of `create_hash_table`, and the calls of the round go on
increasing, above every offset stored before; every bucket chain lists its
offsets in strictly decreasing order; and in one lookup (one walk of the chain
of the key's bucket), where the match length of the candidate of slot `j` is
what `find_match_len` returns, cut at `start` (`clamped_len`), if a match is
recorded it comes from a slot `i` of the chain, no candidate of the chain is
longer, and every candidate of the same length comes from a slot `j <= i`. -/
theorem C27_store_order_and_ties (source target : List Nat) (start end_ : Nat)
    (outputflag : Bool) (s : vd_state)
    (hs : in_pass get_bucket [] (source ++ target) source.length target.length start end_
      outputflag s) :
    ∃ log : List Nat, log.Pairwise (fun x y => y < x) ∧
      store_all get_bucket (create_hash_table (source.length + target.length))
        (source ++ target) log.reverse = .ok s.table ∧
      (∃ r evs,
        vdelta_round_trace get_bucket (source ++ target) start end_ outputflag s =
          .ok (r, evs) ∧
        (stored_offsets evs).Pairwise (fun x y => x < y) ∧
        ∀ i ∈ stored_offsets evs, ∀ j ∈ log, j < i) ∧
      (∀ b l, chain_of s.table b l → l.Pairwise (fun x y => y < x)) ∧
      ∀ (key : Nat) (st : match_state), s.here ≤ key → key + 4 ≤ end_ →
        ∃ b head l st1, get_bucket s.table (source ++ target) key = .ok b ∧
          s.table.buckets[b]? = some head ∧ chain_of s.table b l ∧
          walk_chain (source ++ target) s.table start end_ s.here key s.table.slots.length
            head { st with progress := false } = .ok st1 ∧
          (∀ j ∈ l, key - s.here ≤ j →
            find_match_len (source ++ target) (j - (key - s.here)) s.here end_ =
              .ok (common_len (source ++ target) (end_ - s.here) (j - (key - s.here))
                s.here)) ∧
          (st1.progress = true →
            ∃ i ∈ l, key - s.here ≤ i ∧ st1.current_match = some (i - (key - s.here)) ∧
              st1.current_match_len =
                clamped_len (source ++ target) start end_ s.here (i - (key - s.here)) ∧
              (∀ j ∈ l, key - s.here ≤ j →
                clamped_len (source ++ target) start end_ s.here (j - (key - s.here)) ≤
                  st1.current_match_len) ∧
              ∀ j ∈ l, key - s.here ≤ j →
                clamped_len (source ++ target) start end_ s.here (j - (key - s.here)) =
                  st1.current_match_len → j ≤ i) := by
  have hK : VD_KEY_SIZE = 4 := rfl
  obtain ⟨log, hinv, hrep⟩ :=
    in_pass_inv get_bucket get_bucket_fn_ok [] (source ++ target) source.length target.length
      (List.length_append source target) start end_ outputflag s hs
  have hend := hinv.end_le
  have hhere := hinv.here_le
  refine ⟨log, hinv.sorted, ?_, ?_, ?_, ?_⟩
  · have := hrep
    unfold Replay at this
    rw [List.length_append] at this
    exact this
  · obtain ⟨r, sevs, stores, _, htr, hev, hst, hpw, _⟩ :=
      round_stores_spec get_bucket get_bucket_fn_ok (source ++ target) start end_ outputflag s
        log hinv
    have hoff : stored_offsets (sevs ++ store_events stores) = stores := by
      rw [stored_offsets_append, stored_offsets_search _ _ sevs hev,
        stored_offsets_store_events, List.nil_append]
    refine ⟨r, _, htr, by rw [hoff]; exact hpw, ?_⟩
    rw [hoff]
    intro i hi j hj
    have h1 := (hst i hi).1
    have h2 := hinv.below j hj
    omega
  · intro b l hl
    exact (hinv.table_inv.chain_unique (chain_of_bucket_lt hinv.repr.buckets_len hl) hl).1
  · intro key st hkey hk4
    obtain ⟨b, hb, hblt⟩ :=
      get_bucket_fn_ok.in_range s.table (source ++ target) key hinv.repr.nb_pos
        (by rw [hK]; omega)
    obtain ⟨l, ⟨head, hhead, hchain⟩, hpw, hlt⟩ := hinv.table_inv.chains b hblt
    have hlen : l.length ≤ s.table.slots.length := by
      rw [hinv.slots_len]
      exact Nat.le_trans (desc_length_le l s.here hpw hlt) (by omega)
    have hwalk := walk_chain_eq (source ++ target) s.table start end_ s.here key hchain
      s.table.slots.length { st with progress := false } hlen
    obtain ⟨st1, h1, _, hall, hwho⟩ :=
      try_slots_first (source ++ target) start end_ s.here key hend hhere l
        { st with progress := false } hlt hpw
    refine ⟨b, head, l, st1, hb, hhead, ⟨head, hhead, hchain⟩, by rw [hwalk, h1], ?_, ?_⟩
    · intro j hj hjk
      have := hlt j hj
      exact find_match_len_loop_eq (source ++ target) (end_ - s.here) (j - (key - s.here))
        s.here (by omega) (by omega)
    · intro hp
      rcases hwho with h | ⟨_, i, hi, hik, hm, hlen1, h4, _, htie⟩
      · rw [h] at hp
        cases hp
      · refine ⟨i, hi, hik, hm, hlen1, ?_, htie⟩
        intro j hj hjk
        by_cases hj4 : VD_KEY_SIZE ≤
            clamped_len (source ++ target) start end_ s.here (j - (key - s.here))
        · exact hall j hj hjk hj4
        · omega

/-- C27 (witness): the first state of the second pass for source `abcd`,
target `abcdabcd`, where offset 0 has been stored. -/
theorem C27_store_order_and_ties_witness :
    ∃ log : List Nat, log.Pairwise (fun x y => y < x) ∧
      store_all get_bucket
        (create_hash_table ([97, 98, 99, 100].length + [97, 98, 99, 100, 97, 98, 99, 100].length))
        ([97, 98, 99, 100] ++ [97, 98, 99, 100, 97, 98, 99, 100]) log.reverse =
          .ok abcd_state.table ∧
      (∃ r evs,
        vdelta_round_trace get_bucket ([97, 98, 99, 100] ++ [97, 98, 99, 100, 97, 98, 99, 100])
          4 12 true abcd_state = .ok (r, evs) ∧
        (stored_offsets evs).Pairwise (fun x y => x < y) ∧
        ∀ i ∈ stored_offsets evs, ∀ j ∈ log, j < i) ∧
      (∀ b l, chain_of abcd_state.table b l → l.Pairwise (fun x y => y < x)) ∧
      ∀ (key : Nat) (st : match_state), abcd_state.here ≤ key → key + 4 ≤ 12 →
        ∃ b head l st1,
          get_bucket abcd_state.table
            ([97, 98, 99, 100] ++ [97, 98, 99, 100, 97, 98, 99, 100]) key = .ok b ∧
          abcd_state.table.buckets[b]? = some head ∧ chain_of abcd_state.table b l ∧
          walk_chain ([97, 98, 99, 100] ++ [97, 98, 99, 100, 97, 98, 99, 100])
            abcd_state.table 4 12 abcd_state.here key abcd_state.table.slots.length
            head { st with progress := false } = .ok st1 ∧
          (∀ j ∈ l, key - abcd_state.here ≤ j →
            find_match_len ([97, 98, 99, 100] ++ [97, 98, 99, 100, 97, 98, 99, 100])
              (j - (key - abcd_state.here)) abcd_state.here 12 =
              .ok (common_len ([97, 98, 99, 100] ++ [97, 98, 99, 100, 97, 98, 99, 100])
                (12 - abcd_state.here) (j - (key - abcd_state.here)) abcd_state.here)) ∧
          (st1.progress = true →
            ∃ i ∈ l, key - abcd_state.here ≤ i ∧
              st1.current_match = some (i - (key - abcd_state.here)) ∧
              st1.current_match_len =
                clamped_len ([97, 98, 99, 100] ++ [97, 98, 99, 100, 97, 98, 99, 100]) 4 12
                  abcd_state.here (i - (key - abcd_state.here)) ∧
              (∀ j ∈ l, key - abcd_state.here ≤ j →
                clamped_len ([97, 98, 99, 100] ++ [97, 98, 99, 100, 97, 98, 99, 100]) 4 12
                  abcd_state.here (j - (key - abcd_state.here)) ≤ st1.current_match_len) ∧
              ∀ j ∈ l, key - abcd_state.here ≤ j →
                clamped_len ([97, 98, 99, 100] ++ [97, 98, 99, 100, 97, 98, 99, 100]) 4 12
                  abcd_state.here (j - (key - abcd_state.here)) = st1.current_match_len →
                  j ≤ i) :=
  C27_store_order_and_ties [97, 98, 99, 100] [97, 98, 99, 100, 97, 98, 99, 100] 4 12
    true abcd_state (Or.inr ⟨rfl, rfl, rfl, [], abcd_table, by decide, pass_reach.refl _⟩)


/-! ## Two buffers that agree below the end of the pass -/

theorem find_match_len_loop_agree (data data1 : List Nat) (n : Nat)
    (hag : ∀ i, i < n → data[i]? = data1[i]?) :
    ∀ (k m h : Nat), h + k ≤ n → m ≤ h →
      find_match_len_loop data k m h = find_match_len_loop data1 k m h := by
  intro k
  induction k with
  | zero => intro m h _ _; rfl
  | succ k ih =>
    intro m h hlen hmh
    simp only [find_match_len_loop, read_byte, hag m (by omega), hag h (by omega),
      ih (m + 1) (h + 1) (by omega) (by omega)]

theorem try_slot_agree (data data1 : List Nat) (n : Nat)
    (hag : ∀ i, i < n → data[i]? = data1[i]?) (start end_ here key slot : Nat)
    (st : match_state) (hend : end_ ≤ n) (hhere : here ≤ end_) (hslot : slot < here) :
    try_slot data start end_ here key slot st = try_slot data1 start end_ here key slot st := by
  simp only [try_slot, find_match_len,
    find_match_len_loop_agree data data1 n hag (end_ - here) (slot - (key - here)) here
      (by omega) (by omega)]

theorem try_slots_agree (data data1 : List Nat) (n : Nat)
    (hag : ∀ i, i < n → data[i]? = data1[i]?) (start end_ here key : Nat)
    (hend : end_ ≤ n) (hhere : here ≤ end_) :
    ∀ (l : List Nat) (st : match_state), (∀ i ∈ l, i < here) →
      try_slots data start end_ here key l st = try_slots data1 start end_ here key l st := by
  intro l
  induction l with
  | nil => intro st _; rfl
  | cons a l ih =>
    intro st hl
    simp only [try_slots,
      try_slot_agree data data1 n hag start end_ here key a st hend hhere
        (hl a (List.mem_cons_self a l))]
    cases try_slot data1 start end_ here key a st with
    | error e => rfl
    | ok st1 => exact ih st1 (fun j hj => hl j (List.mem_cons_of_mem _ hj))

theorem get_bucket_loop_agree (data data1 : List Nat) (n : Nat)
    (hag : ∀ i, i < n → data[i]? = data1[i]?) :
    ∀ (k key acc : Nat), key + k ≤ n →
      get_bucket_loop data k key acc = get_bucket_loop data1 k key acc := by
  intro k
  induction k with
  | zero => intro key acc _; rfl
  | succ k ih =>
    intro key acc hk
    simp only [get_bucket_loop, read_byte, hag key (by omega)]
    cases data1[key]? with
    | none => rfl
    | some c => exact ih (key + 1) _ (by omega)

theorem get_bucket_agree (data data1 : List Nat) (n : Nat)
    (hag : ∀ i, i < n → data[i]? = data1[i]?) (t : hash_table_t) (key : Nat)
    (hk : key + VD_KEY_SIZE ≤ n) : get_bucket t data key = get_bucket t data1 key := by
  simp only [get_bucket, get_bucket_loop_agree data data1 n hag VD_KEY_SIZE key 0 hk]

theorem search_loop_agree (gb : hash_table_t → List Nat → Nat → Except vd_error Nat)
    (hgb : bucket_fn_ok gb) (data data1 : List Nat) (n : Nat)
    (hag : ∀ i, i < n → data[i]? = data1[i]?)
    (hgbeq : ∀ (t : hash_table_t) (key : Nat), key + VD_KEY_SIZE ≤ n →
      gb t data key = gb t data1 key)
    (table : hash_table_t) (start end_ here : Nat)
    (hinv : TableInv table data.length here) (hn : n ≤ data.length) (hend : end_ ≤ n)
    (hhere : here ≤ end_) :
    ∀ (fuel key : Nat) (st : match_state), key + VD_KEY_SIZE ≤ end_ →
      search_loop gb data table start end_ here fuel key st =
        search_loop gb data1 table start end_ here fuel key st := by
  have hK : VD_KEY_SIZE = 4 := rfl
  intro fuel
  induction fuel with
  | zero => intro key st _; rfl
  | succ fuel ih =>
    intro key st hk4
    obtain ⟨b, hb, hblt⟩ := hgb.in_range table data key hinv.nb_pos (by omega)
    obtain ⟨l, ⟨head, hhead, hchain⟩, hpw, hlt⟩ := hinv.chains b hblt
    have hlen : l.length ≤ table.slots.length := by
      rw [hinv.slots_len]
      exact Nat.le_trans (desc_length_le l here hpw hlt) (by omega)
    have hb1 : gb table data1 key = .ok b := by
      rw [← hgbeq table key (by omega)]
      exact hb
    have hwalk := walk_chain_eq data table start end_ here key hchain table.slots.length
      { st with progress := false } hlen
    have hwalk1 := walk_chain_eq data1 table start end_ here key hchain table.slots.length
      { st with progress := false } hlen
    simp only [search_loop, hb, hb1, hhead, hwalk, hwalk1,
      try_slots_agree data data1 n hag start end_ here key hend hhere l _ hlt]
    cases try_slots data1 start end_ here key l { st with progress := false } with
    | error e => rfl
    | ok st1 =>
      simp only
      by_cases hc : st1.progress = true ∧
          end_ - (if st1.progress = true then
            here + st1.current_match_len - (VD_KEY_SIZE - 1) else key) ≥ VD_KEY_SIZE
      · rw [if_pos hc, if_pos hc]
        apply ih
        have := hc.2
        rw [hK] at this ⊢
        omega
      · rw [if_neg hc, if_neg hc]

theorem store_mapping_agree (gb : hash_table_t → List Nat → Nat → Except vd_error Nat)
    (data data1 : List Nat) (n : Nat)
    (hgbeq : ∀ (t : hash_table_t) (key : Nat), key + VD_KEY_SIZE ≤ n →
      gb t data key = gb t data1 key)
    (t : hash_table_t) (key index : Nat) (hk : key + VD_KEY_SIZE ≤ n) :
    store_mapping_with gb t data key index = store_mapping_with gb t data1 key index := by
  simp only [store_mapping_with, hgbeq t key hk]

theorem store_last_three_agree (gb : hash_table_t → List Nat → Nat → Except vd_error Nat)
    (data data1 : List Nat) (n : Nat)
    (hgbeq : ∀ (t : hash_table_t) (key : Nat), key + VD_KEY_SIZE ≤ n →
      gb t data key = gb t data1 key)
    (t : hash_table_t) (end_ here : Nat) (hend : end_ ≤ n) (h3 : 3 ≤ here) :
    store_last_three gb t data end_ here = store_last_three gb t data1 end_ here := by
  have hK : VD_KEY_SIZE = 4 := rfl
  unfold store_last_three
  by_cases hk : end_ - here ≥ VD_KEY_SIZE
  · rw [if_pos hk, if_pos hk]
    rw [hK] at hk
    simp only [store_mapping_agree gb data data1 n hgbeq _ (here - (VD_KEY_SIZE - 1)) _
        (by rw [hK]; omega),
      store_mapping_agree gb data data1 n hgbeq _ (here - (VD_KEY_SIZE - 1) + 1) _
        (by rw [hK]; omega),
      store_mapping_agree gb data data1 n hgbeq _ (here - (VD_KEY_SIZE - 1) + 2) _
        (by rw [hK]; omega)]
  · rw [if_neg hk, if_neg hk]

theorem round_agree (gb : hash_table_t → List Nat → Nat → Except vd_error Nat)
    (hgb : bucket_fn_ok gb) (data data1 : List Nat) (n : Nat)
    (hag : ∀ i, i < n → data[i]? = data1[i]?)
    (hgbeq : ∀ (t : hash_table_t) (key : Nat), key + VD_KEY_SIZE ≤ n →
      gb t data key = gb t data1 key)
    (start end_ : Nat) (s : vd_state) (log : List Nat)
    (hinv : PassInv gb data start end_ s log) (hn : n ≤ data.length) (hend : end_ ≤ n) :
    vdelta_round gb data start end_ false s = vdelta_round gb data1 start end_ false s := by
  have hK : VD_KEY_SIZE = 4 := rfl
  have hhere := hinv.here_le
  by_cases hnear : end_ - s.here < VD_KEY_SIZE
  · simp only [vdelta_round, if_pos hnear, Bool.false_eq_true, false_and, if_false]
  · have hroom : VD_KEY_SIZE ≤ end_ - s.here := Nat.le_of_not_lt hnear
    rw [hK] at hroom
    have hsearch := search_loop_agree gb hgb data data1 n hag hgbeq s.table start end_ s.here
      hinv.table_inv hn hend hhere (end_ - s.here) s.here no_match (by rw [hK]; omega)
    obtain ⟨st, hs, hok⟩ :=
      search_loop_spec gb hgb data s.table start end_ s.here hinv.table_inv hinv.end_le
        (end_ - s.here) s.here no_match (le_refl _) (by rw [hK]; omega) (by simp [no_match])
        (by simp [no_match]) (initial_match_state_ok data start end_ s.here)
    have hs1 := hs
    rw [hsearch] at hs1
    have hfit := hok.1
    simp only [vdelta_round, if_neg hnear, hs, hs1, Bool.false_eq_true, if_false,
      store_mapping_agree gb data data1 n hgbeq s.table s.here s.here (by rw [hK]; omega)]
    by_cases hmiss : st.current_match_len < VD_KEY_SIZE
    · simp only [if_pos hmiss]
    · simp only [if_neg hmiss]
      rw [hK] at hmiss
      rw [store_last_three_agree gb data data1 n hgbeq s.table end_
        (s.here + st.current_match_len) hend (by omega)]

theorem vdelta_loop_agree (gb : hash_table_t → List Nat → Nat → Except vd_error Nat)
    (hgb : bucket_fn_ok gb) (data data1 : List Nat) (n : Nat)
    (hag : ∀ i, i < n → data[i]? = data1[i]?)
    (hgbeq : ∀ (t : hash_table_t) (key : Nat), key + VD_KEY_SIZE ≤ n →
      gb t data key = gb t data1 key)
    (start end_ : Nat) (hn : n ≤ data.length) (hend : end_ ≤ n) :
    ∀ (fuel : Nat) (s : vd_state) (log : List Nat), PassInv gb data start end_ s log →
      vdelta_loop gb data start end_ false fuel s.window s.table s.here s.insert_from =
        vdelta_loop gb data1 start end_ false fuel s.window s.table s.here s.insert_from := by
  intro fuel
  induction fuel with
  | zero => intro s log _; rfl
  | succ fuel ih =>
    intro s log hinv
    obtain ⟨r, hr, hout⟩ := round_spec gb hgb data start end_ false s log hinv
    have hr1 := hr
    rw [round_agree gb hgb data data1 n hag hgbeq start end_ s log hinv hn hend] at hr1
    rw [vdelta_loop_round, vdelta_loop_round, hr, hr1]
    cases hout with
    | near _ => rfl
    | miss st t1 _ _ _ _ _ hnext => exact ih _ _ hnext
    | hit st m t1 log1 _ _ _ _ _ _ _ hnext => exact ih _ _ hnext

/-- C28: for two buffers of the same length `source_len + target_len` whose
bytes agree below `source_len`, the first pass (over `[0, source_len)`, output
disabled, on the table created for the length of the buffer) returns on both
with the same table and the window untouched; and
the first pass run on the first buffer cut at `source_len`, where every read at
or beyond `source_len` fails, returns with that same table, so the pass reads
no byte at or beyond `source_len`. -/
theorem C28_first_pass_source_only (data data1 : List Nat) (source_len target_len : Nat)
    (hd : data.length = source_len + target_len)
    (hd1 : data1.length = source_len + target_len)
    (hag : ∀ i, i < source_len → data[i]? = data1[i]?) :
    ∃ t,
      vdelta [] data 0 source_len false (create_hash_table (source_len + target_len)) =
        .ok ([], t) ∧
      vdelta [] data1 0 source_len false (create_hash_table data1.length) = .ok ([], t) ∧
      vdelta [] (data.take source_len) 0 source_len false
        (create_hash_table (source_len + target_len)) = .ok ([], t) := by
  obtain ⟨t, hrun, _⟩ :=
    first_pass_spec get_bucket get_bucket_fn_ok [] data source_len (by omega)
  obtain ⟨hinv0, _⟩ := first_pass_init get_bucket [] data source_len (by omega)
  rw [hd] at hrun
  have hto : ∀ (d : List Nat), (∀ i, i < source_len → data[i]? = d[i]?) →
      vdelta [] d 0 source_len false (create_hash_table (source_len + target_len)) =
        .ok ([], t) := by
    intro d hagd
    have := vdelta_loop_agree get_bucket get_bucket_fn_ok data d source_len hagd
      (fun t key hk => get_bucket_agree data d source_len hagd t key hk) 0 source_len
      (by omega) (le_refl _) (source_len - 0 + 1) _ [] hinv0
    rw [hd] at this
    simp only [vdelta, vdelta_with] at hrun ⊢
    rw [← this]
    exact hrun
  refine ⟨t, hrun, by rw [hd1]; exact hto data1 hag, hto (data.take source_len) ?_⟩
  intro i hi
  rw [List.getElem?_take_of_lt hi]

/-- C28 (witness): the buffers `abcdef` +  `xyz` and `abcdef` + `uvw`. -/
theorem C28_first_pass_source_only_witness :
    ∃ t,
      vdelta [] [97, 98, 99, 100, 101, 102, 120, 121, 122] 0 6 false
        (create_hash_table (6 + 3)) = .ok ([], t) ∧
      vdelta [] [97, 98, 99, 100, 101, 102, 117, 118, 119] 0 6 false
        (create_hash_table [97, 98, 99, 100, 101, 102, 117, 118, 119].length) = .ok ([], t) ∧
      vdelta [] ([97, 98, 99, 100, 101, 102, 120, 121, 122].take 6) 0 6 false
        (create_hash_table (6 + 3)) = .ok ([], t) :=
  C28_first_pass_source_only [97, 98, 99, 100, 101, 102, 120, 121, 122]
    [97, 98, 99, 100, 101, 102, 117, 118, 119] 6 3 rfl rfl (by decide)

end Vdelta

namespace Svnrdump

/-- C29: for a file or a directory (`kind_word` is `file` or `dir`
accordingly), on a stream that accepts every write and for canonical paths,
`dump_node` with action `replace` and `is_copy` true appends, in this order,
the `Node-path` and `Node-kind` headers, `Node-action: delete` and a blank
line, then the same `Node-path` and `Node-kind` headers, `Node-action: add`,
and the `Node-copyfrom-rev` and `Node-copyfrom-path` headers with
`copyfrom_rev` and `copyfrom_path`; it leaves `dump_props` and `dump_text` as
they were and sets `dump_newlines` if the kind is a directory, leaving it as it
was for a file.  With `is_copy` false, with or without a copy source, it
appends the single record `Node-path`, `Node-kind`, `Node-action: replace` and
sets `dump_props`. -/
theorem C29_dump_node_replace (write : String → String → Except dump_error String)
    (is_canonical : String → Bool) (eb : dump_edit_baton) (repos_relpath : String)
    (kind : svn_node_kind_t) (kind_word : String) (copyfrom_path : String)
    (copyfrom_rev : Int)
    (hw : ∀ written text, write written text = .ok (written ++ text))
    (hc : is_canonical repos_relpath = true) (hc1 : is_canonical copyfrom_path = true)
    (hk : (kind = .svn_node_file ∧ kind_word = "file") ∨
      (kind = .svn_node_dir ∧ kind_word = "dir")) :
    dump_node write is_canonical eb repos_relpath kind .svn_node_action_replace true
        (some copyfrom_path) copyfrom_rev =
      .ok { eb with
        stream := eb.stream ++ ("Node-path: " ++ repos_relpath ++ "\n") ++
          ("Node-kind: " ++ kind_word ++ "\n") ++ "Node-action: delete\n\n" ++
          ("Node-path: " ++ repos_relpath ++ "\n") ++
          ("Node-kind: " ++ kind_word ++ "\n") ++ "Node-action: add\n" ++
          ("Node-copyfrom-rev: " ++ toString copyfrom_rev ++ "\n" ++
            "Node-copyfrom-path: " ++ copyfrom_path ++ "\n")
        dump_newlines := if kind = .svn_node_dir then true else eb.dump_newlines } ∧
    dump_node write is_canonical eb repos_relpath kind .svn_node_action_replace false
        (some copyfrom_path) copyfrom_rev =
      .ok { eb with
        stream := eb.stream ++ ("Node-path: " ++ repos_relpath ++ "\n") ++
          ("Node-kind: " ++ kind_word ++ "\n") ++ "Node-action: replace\n"
        dump_props := true } ∧
    dump_node write is_canonical eb repos_relpath kind .svn_node_action_replace false
        none copyfrom_rev =
      .ok { eb with
        stream := eb.stream ++ ("Node-path: " ++ repos_relpath ++ "\n") ++
          ("Node-kind: " ++ kind_word ++ "\n") ++ "Node-action: replace\n"
        dump_props := true } := by
  have e1 : SVN_REPOS_DUMPFILE_NODE_PATH ++ ": " = "Node-path: " := rfl
  have e2 : SVN_REPOS_DUMPFILE_NODE_KIND ++ ": file\n" = "Node-kind: file\n" := rfl
  have e3 : SVN_REPOS_DUMPFILE_NODE_KIND ++ ": dir\n" = "Node-kind: dir\n" := rfl
  have e4 : SVN_REPOS_DUMPFILE_NODE_ACTION ++ ": delete\n\n" = "Node-action: delete\n\n" := rfl
  have e5 : SVN_REPOS_DUMPFILE_NODE_ACTION ++ ": add\n" = "Node-action: add\n" := rfl
  have e6 : SVN_REPOS_DUMPFILE_NODE_ACTION ++ ": replace\n" = "Node-action: replace\n" := rfl
  have e7 : SVN_REPOS_DUMPFILE_NODE_COPYFROM_REV ++ ": " = "Node-copyfrom-rev: " := rfl
  have e8 : ∀ s : String, s ++ "\n" ++ SVN_REPOS_DUMPFILE_NODE_COPYFROM_PATH ++ ": " =
      s ++ "\n" ++ "Node-copyfrom-path: " := by
    intro s
    rw [String.append_assoc (s ++ "\n")]
    rfl
  have f1 : "Node-kind: " ++ "file" ++ "\n" = "Node-kind: file\n" := rfl
  have f2 : "Node-kind: " ++ "dir" ++ "\n" = "Node-kind: dir\n" := rfl
  rcases hk with ⟨hkind, hword⟩ | ⟨hkind, hword⟩
  · subst hkind hword
    rw [f1]
    refine ⟨?_, ?_, ?_⟩ <;>
      simp [dump_node, dump_node_loop, hw, hc, hc1, format_s, e1, e2, e3, e4, e5, e6, e7, e8]
  · subst hkind hword
    rw [f2]
    refine ⟨?_, ?_, ?_⟩ <;>
      simp [dump_node, dump_node_loop, hw, hc, hc1, format_s, e1, e2, e3, e4, e5, e6, e7, e8]

/-- C29 (witness): the directory `trunk` replaced by a copy of `branch` at
revision 3, on an empty stream that accepts every write. -/
theorem C29_dump_node_replace_witness :
    dump_node append_write (fun _ => true)
        { stream := "", dump_text := false, dump_props := false, dump_newlines := false }
        "trunk" .svn_node_dir .svn_node_action_replace true (some "branch") 3 =
      .ok { stream := "" ++ ("Node-path: " ++ "trunk" ++ "\n") ++
              ("Node-kind: " ++ "dir" ++ "\n") ++ "Node-action: delete\n\n" ++
              ("Node-path: " ++ "trunk" ++ "\n") ++ ("Node-kind: " ++ "dir" ++ "\n") ++
              "Node-action: add\n" ++
              ("Node-copyfrom-rev: " ++ toString (3 : Int) ++ "\n" ++
                "Node-copyfrom-path: " ++ "branch" ++ "\n")
            dump_text := false, dump_props := false
            dump_newlines :=
              if svn_node_kind_t.svn_node_dir = .svn_node_dir then true else false } ∧
    dump_node append_write (fun _ => true)
        { stream := "", dump_text := false, dump_props := false, dump_newlines := false }
        "trunk" .svn_node_dir .svn_node_action_replace false (some "branch") 3 =
      .ok { stream := "" ++ ("Node-path: " ++ "trunk" ++ "\n") ++
              ("Node-kind: " ++ "dir" ++ "\n") ++ "Node-action: replace\n"
            dump_text := false, dump_props := true, dump_newlines := false } ∧
    dump_node append_write (fun _ => true)
        { stream := "", dump_text := false, dump_props := false, dump_newlines := false }
        "trunk" .svn_node_dir .svn_node_action_replace false none 3 =
      .ok { stream := "" ++ ("Node-path: " ++ "trunk" ++ "\n") ++
              ("Node-kind: " ++ "dir" ++ "\n") ++ "Node-action: replace\n"
            dump_text := false, dump_props := true, dump_newlines := false } :=
  C29_dump_node_replace append_write (fun _ => true)
    { stream := "", dump_text := false, dump_props := false, dump_newlines := false }
    "trunk" .svn_node_dir "dir" "branch" 3 (fun _ _ => rfl) rfl rfl (Or.inr ⟨rfl, rfl⟩)

end Svnrdump

namespace Javahl

/-- C30: `javaResultToC` returns a C conflict result for every integer; for
pairwise distinct case labels, each of the Java constants `resolved`,
`choose_base`, `choose_theirs`, `choose_mine` and `choose_merged` maps to the C
result of the same name, the Java constant `conflicted` maps to
`svn_wc_conflict_result_conflicted`, and so does every integer that is none of
the five. -/
theorem C30_javaResultToC (c : Result_constants) (hd : (case_labels c).Nodup) :
    javaResultToC c c.Result_resolved = .svn_wc_conflict_result_resolved ∧
    javaResultToC c c.Result_choose_base = .svn_wc_conflict_result_choose_base ∧
    javaResultToC c c.Result_choose_theirs = .svn_wc_conflict_result_choose_theirs ∧
    javaResultToC c c.Result_choose_mine = .svn_wc_conflict_result_choose_mine ∧
    javaResultToC c c.Result_choose_merged = .svn_wc_conflict_result_choose_merged ∧
    javaResultToC c c.Result_conflicted = .svn_wc_conflict_result_conflicted ∧
    ∀ result : Int, result ≠ c.Result_resolved → result ≠ c.Result_choose_base →
      result ≠ c.Result_choose_theirs → result ≠ c.Result_choose_mine →
      result ≠ c.Result_choose_merged →
      javaResultToC c result = .svn_wc_conflict_result_conflicted := by
  simp only [case_labels, List.nodup_cons, List.mem_cons, List.mem_singleton, not_or,
    List.not_mem_nil, not_false_eq_true, List.nodup_nil, and_true] at hd
  obtain ⟨⟨h01, h02, h03, h04, h05⟩, ⟨h12, h13, h14, h15⟩, ⟨h23, h24, h25⟩, ⟨h34, h35⟩, h45⟩ :=
    hd
  refine ⟨?_, ?_, ?_, ?_, ?_, ?_, ?_⟩
  · simp [javaResultToC, Ne.symm h01]
  · simp [javaResultToC, Ne.symm h02, Ne.symm h12]
  · simp [javaResultToC, Ne.symm h03, Ne.symm h13, Ne.symm h23]
  · simp [javaResultToC, Ne.symm h04, Ne.symm h14, Ne.symm h24, Ne.symm h34]
  · simp [javaResultToC, Ne.symm h05, Ne.symm h15, Ne.symm h25, Ne.symm h35, Ne.symm h45]
  · simp [javaResultToC]
  · intro result h1 h2 h3 h4 h5
    simp [javaResultToC, h1, h2, h3, h4, h5]

/-- C30 (witness): the constants numbered 0 to 5 in the order of the source. -/
theorem C30_javaResultToC_witness :
    javaResultToC ⟨0, 1, 2, 3, 4, 5⟩ 1 = .svn_wc_conflict_result_resolved ∧
    javaResultToC ⟨0, 1, 2, 3, 4, 5⟩ 2 = .svn_wc_conflict_result_choose_base ∧
    javaResultToC ⟨0, 1, 2, 3, 4, 5⟩ 3 = .svn_wc_conflict_result_choose_theirs ∧
    javaResultToC ⟨0, 1, 2, 3, 4, 5⟩ 4 = .svn_wc_conflict_result_choose_mine ∧
    javaResultToC ⟨0, 1, 2, 3, 4, 5⟩ 5 = .svn_wc_conflict_result_choose_merged ∧
    javaResultToC ⟨0, 1, 2, 3, 4, 5⟩ 0 = .svn_wc_conflict_result_conflicted ∧
    ∀ result : Int, result ≠ 1 → result ≠ 2 → result ≠ 3 → result ≠ 4 → result ≠ 5 →
      javaResultToC ⟨0, 1, 2, 3, 4, 5⟩ result = .svn_wc_conflict_result_conflicted :=
  C30_javaResultToC ⟨0, 1, 2, 3, 4, 5⟩ (by decide)

end Javahl
